import Mathlib

/-!
# notr: a detector of tree recursion

A shallow embedding of `pkg/notr/analyzer.go`: the scope registry, the tree
walker, the call recorder and the call analyzer, followed by theorems about
them.

Modelling conventions.

* Go `int` values (operation ids, scope ids, positions, counts) are `Int`.
  The only arithmetic on them is `opNo++`, guarded by the comparison with
  `math.MaxInt64`, and `count++`, bounded by the length of the in-memory
  queue, so no wrap-around is reachable.
* Go maps are association lists with unique keys (`Map.get`, `Map.set`).
  The iteration order of a Go map is unspecified; the list order stands for
  one possible order, and the theorems on `analyzeCalls` speak of membership
  and of the reports of one operation id only.
* The mutable `*linter` receiver is passed explicitly; a Go method returning
  `error` returns the state after the call together with `Option Err`.
* `panic` in `inspectAst` is `Except.error`: the pass aborts.
* The syntax tree keeps the node kinds the linter looks at (identifier,
  selector, call, binary expression, assignment); every other node is
  `Node.other` with its children in traversal order.
-/

namespace Notr

/-! ## Go maps as association lists -/

/-- Lookup `m[k]` with the comma-ok result as an `Option`. -/
def Map.get {κ β : Type} [DecidableEq κ] : List (κ × β) → κ → Option β
  | [], _ => none
  | (k', v) :: m, k => if k' = k then some v else Map.get m k

/-- Assignment `m[k] = v`: replaces the binding of `k` or adds a new one. -/
def Map.set {κ β : Type} [DecidableEq κ] : List (κ × β) → κ → β → List (κ × β)
  | [], k, v => [(k, v)]
  | (k', v') :: m, k, v => if k' = k then (k, v) :: m else (k', v') :: Map.set m k v

/-- The keys of a map. -/
def Map.keys {κ β : Type} (m : List (κ × β)) : List κ := m.map Prod.fst

/-! ## Data model -/

/-- Constant `math.MaxInt64`. -/
def maxInt64 : Int := 9223372036854775807

/-- Operation kinds, `opTyp` with its two constants. -/
inductive opTyp where
  | fnCallInArgs
  | fnCallInBinOp
  deriving DecidableEq, Repr

/-- Errors of the package: the two failures built with `errors.Errorf` and the
sentinel `ErrNoIdent`. -/
inductive Err where
  | operationsLimit
  | noFieldNames
  | noIdent
  deriving DecidableEq, Repr

/-- Struct `funcScope`: canonical name and alias table (alias name to the set
of names it was assigned from). -/
structure funcScope where
  name : String
  aliases : List (String × List String)
  deriving DecidableEq, Repr

/-- Struct `callContext`: one recorded call site. -/
structure callContext where
  opNo : Int
  scope : Int
  opType : opTyp
  boundedFuncAlias : String
  start : Int
  endPos : Int
  deriving DecidableEq, Repr

/-- Struct `report`. -/
structure report where
  opType : opTyp
  start : Int
  count : Int
  opNo : Int
  funcName : String
  deriving DecidableEq, Repr

/-- Struct `linter`: the queue of call sites (front first), the scope table and
the operation counter. -/
structure linter where
  calls : List callContext
  scopes : List (Int × funcScope)
  opNo : Int
  deriving DecidableEq, Repr

/-- A diagnostic handed to the driver: position and message. -/
structure Diagnostic where
  pos : Int
  message : String
  deriving DecidableEq, Repr

/-- Constructor `NewLinter`. -/
def NewLinter : linter := { calls := [], scopes := [], opNo := 0 }

/-! ## Syntax trees -/

/-- The part of `go/ast` the linter inspects. Children are listed in the
order `ast.Inspect` visits them. -/
inductive Node where
  | ident (name : String)
  | selector (x : Node) (sel : String)
  | call (fn : Node) (args : List Node) (pos endPos : Int)
  | binary (x y : Node)
  | assign (lhs rhs : List Node)
  | other (children : List Node)

/-- A receiver field: its names and its type expression. -/
structure Field where
  names : List String
  typ : Node

/-- A function declaration `ast.FuncDecl`; `recv = none` is `decl.Recv == nil`.
A declaration without body has `body = Node.other []`. -/
structure FuncDecl where
  recv : Option (List Field)
  name : String
  typ : Node
  body : Node

mutual
/-- All nodes of a subtree in depth-first preorder, the root first. -/
def preorder : Node → List Node
  | .ident n => [.ident n]
  | .selector x sel => .selector x sel :: (preorder x ++ [.ident sel])
  | .call fn args p e => .call fn args p e :: (preorder fn ++ preorderList args)
  | .binary x y => .binary x y :: (preorder x ++ preorder y)
  | .assign lhs rhs => .assign lhs rhs :: (preorderList lhs ++ preorderList rhs)
  | .other cs => .other cs :: preorderList cs
/-- Preorder of a sequence of sibling subtrees. -/
def preorderList : List Node → List Node
  | [] => []
  | n :: ns => preorder n ++ preorderList ns
end

/-- Type test `*ast.AssignStmt`. -/
def Node.isAssign : Node → Bool
  | .assign _ _ => true
  | _ => false

/-- Type test `*ast.BinaryExpr`. -/
def Node.isBinary : Node → Bool
  | .binary _ _ => true
  | _ => false

/-- Type test `*ast.CallExpr`. -/
def Node.isCall : Node → Bool
  | .call _ _ _ _ => true
  | _ => false

/-- Nodes below a receiver field: its name identifiers, then its type. -/
def Field.nodes (f : Field) : List Node := f.names.map Node.ident ++ preorder f.typ

/-- Nodes below a function declaration in preorder: receiver, name, type,
body. The declaration node itself is none of the kinds searched for. -/
def FuncDecl.nodes (d : FuncDecl) : List Node :=
  (match d.recv with
    | none => []
    | some fields => (fields.map Field.nodes).flatten)
  ++ [Node.ident d.name] ++ preorder d.typ ++ preorder d.body

/-! ## Scope registry -/

/-- Method `incOp`. -/
def incOp (lr : linter) : linter × Option Err :=
  if lr.opNo = maxInt64 then (lr, some Err.operationsLimit)
  else ({ lr with opNo := lr.opNo + 1 }, none)

/-- Method `registerFunc`. -/
def registerFunc (lr : linter) (scope : Int) (fName : String) : linter :=
  match Map.get lr.scopes scope with
  | some _ => lr
  | none => { lr with scopes := Map.set lr.scopes scope { name := fName, aliases := [] } }

/-- Insertion `fs.aliases[alias][fName] = struct{}{}` into the alias table. -/
def addOrigin (aliases : List (String × List String)) (fName aliasName : String) :
    List (String × List String) :=
  match Map.get aliases aliasName with
  | none => Map.set aliases aliasName [fName]
  | some origins =>
    if fName ∈ origins then aliases else Map.set aliases aliasName (origins ++ [fName])

/-- Method `registerAlias`. -/
def registerAlias (lr : linter) (scope : Int) (fName aliasName : String) : linter :=
  match Map.get lr.scopes scope with
  | none => lr
  | some fs =>
    { lr with scopes := Map.set lr.scopes scope { fs with aliases := addOrigin fs.aliases fName aliasName } }

/-- Method `getFullSelectorName` applied to the selector `x.sel`. -/
def getFullSelectorName (x : Node) (sel : String) : Except Err String :=
  match x with
  | .ident recvName => .ok (recvName ++ "." ++ sel)
  | _ => .error Err.noIdent

/-- Method `registerCall`; `lr` is returned unchanged when `call` is no call
expression (the walker never passes one). -/
def registerCall (lr : linter) (scope : Int) (op : opTyp) (call : Node) : linter :=
  match call with
  | .call fn _ pos endPos =>
    let push (funcName : String) : linter :=
      { lr with calls := lr.calls ++ [{ opNo := lr.opNo, opType := op, scope := scope,
                                        boundedFuncAlias := funcName, start := pos,
                                        endPos := endPos }] }
    match fn with
    | .selector x sel =>
      match getFullSelectorName x sel with
      | .error _ => lr
      | .ok funcName => push funcName
    | .ident name => push name
    | _ => push ""
  | _ => lr

/-! ## Tree walker -/

/-- Method `handleFuncDeclaration`: the loop over `decl.Recv.List`. -/
def registerReceivers (lr : linter) (scope : Int) (methName : String) :
    List Field → linter × Option Err
  | [] => (lr, none)
  | field :: rest =>
    match field.names with
    | [] => (lr, some Err.noFieldNames)
    | first :: _ => registerReceivers (registerFunc lr scope (first ++ "." ++ methName)) scope methName rest

/-- Method `handleFuncDeclaration`. -/
def handleFuncDeclaration (lr : linter) (decl : FuncDecl) (scope : Int) : linter × Option Err :=
  match decl.recv with
  | none => (registerFunc lr scope decl.name, none)
  | some fields => registerReceivers lr scope decl.name fields

/-- Loop `for i, lhsExpr := range assignment.Lhs` of
`handleAssignmentExpression`, with `rhs` the right-hand sides from index `i`
on. The guard `len(Lhs) <= len(Rhs)` of the caller makes the second case
unreachable. -/
def assignPairs (lr : linter) (scope : Int) : List Node → List Node → linter × Option Err
  | [], _ => (lr, none)
  | _ :: _, [] => (lr, none)
  | lhsExpr :: ls, rhsExpr :: rs =>
    match lhsExpr, rhsExpr with
    | .ident identLeft, .ident identRight =>
      assignPairs (registerAlias lr scope identRight identLeft) scope ls rs
    | .ident identLeft, .selector x sel =>
      match getFullSelectorName x sel with
      | .error e => (lr, some e)
      | .ok methodName => assignPairs (registerAlias lr scope methodName identLeft) scope ls rs
    | _, _ => assignPairs lr scope ls rs

/-- Method `handleAssignmentExpression`. The error of `incOp` is wrapped and
dropped, as in the source: the statement after the `if` runs in either case.
The walker passes assignment statements only; the last case stands for the
type assertion on any other node. -/
def handleAssignmentExpression (lr : linter) (c : Node) (scope : Int) : linter × Option Err :=
  let lr1 := (incOp lr).1
  match c with
  | .assign lhs rhs =>
    if lhs.length > rhs.length then (lr1, none)
    else assignPairs lr1 scope lhs rhs
  | _ => (lr1, none)

/-- Method `preorderNestedCall`. -/
def preorderNestedCall (lr : linter) (c : Node) (scope : Int) (opType : opTyp) :
    linter × Option Err :=
  match incOp lr with
  | (lr1, some e) => (lr1, some e)
  | (lr1, none) =>
    (((preorder c).filter Node.isCall).foldl (fun st call => registerCall st scope opType call) lr1,
      none)

/-- Loop over the assignment statements of a declaration in `inspectAst`. -/
def assignLoop (scopeNo : Int) : linter → List Node → Except Err linter
  | lr, [] => .ok lr
  | lr, c :: cs =>
    match handleAssignmentExpression lr c scopeNo with
    | (lr1, none) => assignLoop scopeNo lr1 cs
    | (lr1, some e) => if e ≠ Err.noIdent then .error e else assignLoop scopeNo lr1 cs

/-- Loops over the binary expressions and over the call expressions of a
declaration in `inspectAst`. -/
def groupLoop (scopeNo : Int) (opType : opTyp) : linter → List Node → Except Err linter
  | lr, [] => .ok lr
  | lr, c :: cs =>
    match preorderNestedCall lr c scopeNo opType with
    | (lr1, none) => groupLoop scopeNo opType lr1 cs
    | (_, some e) => .error e

/-- Method `inspectAst` on a function declaration. -/
def inspectAst (lr : linter) (decl : FuncDecl) : Except Err linter :=
  let scopeNo := lr.opNo
  match handleFuncDeclaration lr decl scopeNo with
  | (_, some e) => .error e
  | (lr1, none) =>
    match assignLoop scopeNo lr1 (decl.nodes.filter Node.isAssign) with
    | .error e => .error e
    | .ok lr2 =>
      match groupLoop scopeNo opTyp.fnCallInBinOp lr2 (decl.nodes.filter Node.isBinary) with
      | .error e => .error e
      | .ok lr3 =>
        match groupLoop scopeNo opTyp.fnCallInArgs lr3 (decl.nodes.filter Node.isCall) with
        | .error e => .error e
        | .ok lr4 =>
          match incOp lr4 with
          | (_, some e) => .error e
          | (lr5, none) => .ok lr5

/-- The traversal `astCursor.Inspect(wishedNodes, lr.inspectAst)` over the
function declarations of the pass, in source order. -/
def walk : linter → List FuncDecl → Except Err linter
  | lr, [] => .ok lr
  | lr, d :: ds =>
    match inspectAst lr d with
    | .error e => .error e
    | .ok lr1 => walk lr1 ds

/-! ## Call analyzer -/

/-- The resolution test of `analyzeCalls`: the scope a call site resolves
against, if any. -/
def resolve (scopes : List (Int × funcScope)) (c : callContext) : Option funcScope :=
  match Map.get scopes c.scope with
  | none => none
  | some fs =>
    if c.boundedFuncAlias ≠ fs.name then
      match Map.get fs.aliases c.boundedFuncAlias with
      | none => none
      | some _ => some fs
    else some fs

/-- One iteration of the draining loop of `analyzeCalls`. -/
def analyzeStep (scopes : List (Int × funcScope)) (reports : List (Int × report))
    (c : callContext) : List (Int × report) :=
  match resolve scopes c with
  | none => reports
  | some fs =>
    match Map.get reports c.opNo with
    | none =>
      Map.set reports c.opNo
        { start := c.start, funcName := fs.name, opType := c.opType, opNo := c.opNo, count := 1 }
    | some r =>
      if r.opType = c.opType ∧ r.opNo = c.opNo then
        Map.set reports c.opNo
          { r with count := r.count + 1, start := if c.start < r.start then c.start else r.start }
      else reports

/-- The report map of `analyzeCalls` after the queue is drained. -/
def drain (scopes : List (Int × funcScope)) (calls : List callContext) : List (Int × report) :=
  calls.foldl (analyzeStep scopes) []

/-- Method `analyzeCalls` on a scope table and a queue: the reports with
`count >= 2`. -/
def analyzeCalls (scopes : List (Int × funcScope)) (calls : List callContext) : List report :=
  ((drain scopes calls).map Prod.snd).filter (fun r => decide (2 ≤ r.count))

/-- Comparison of `slices.SortStableFunc` in `run`: `a.opNo - b.opNo <= 0` in
64-bit arithmetic. -/
def opNoLe (a b : report) : Prop :=
  ((a.opNo - b.opNo + 2 ^ 63) % 2 ^ 64 - 2 ^ 63 : Int) ≤ 0

instance : DecidableRel opNoLe := fun a b => by unfold opNoLe; exact inferInstance

/-- Method `report`: one diagnostic per report. -/
def linter.report (reports : List report) : List Diagnostic :=
  reports.map (fun r => { pos := r.start, message := "tree recursion in call '" ++ r.funcName ++ "'" })

/-- The reports `run` hands to `report`: the walk, `analyzeCalls` and the stable
sort by operation id. -/
def sortedReports (lr : linter) (decls : List FuncDecl) : Except Err (List report) :=
  match walk lr decls with
  | .error e => .error e
  | .ok lr1 => .ok ((analyzeCalls lr1.scopes lr1.calls).insertionSort opNoLe)

/-- Method `run`: the diagnostics of a pass and the state it leaves (the queue
drained). -/
def run (lr : linter) (decls : List FuncDecl) : Except Err (List Diagnostic × linter) :=
  match walk lr decls with
  | .error e => .error e
  | .ok lr1 =>
    .ok (linter.report ((analyzeCalls lr1.scopes lr1.calls).insertionSort opNoLe),
         { lr1 with calls := [] })

/-! ## The fixture `testdata/src/test_func.go`

Positions are byte offsets in the file plus one, as `token.Pos` counts them
for the first file of a file set. -/

namespace Fixture

/-- A basic literal or any leaf without children. -/
def lit : Node := .other []

/-- The signature `(n int) int` as a `FuncType` node. -/
def sigOf (params : List String) : Node :=
  .other [.other (params.map fun p => .other [.ident p, .ident "int"]),
          .other [.other [.ident "int"]]]

/-- The expression `fn(n-1) + a(n-2)` of line 11. -/
def fibSum : Node :=
  .binary (.call (.ident "fn") [.binary (.ident "n") lit] 104 111)
          (.call (.ident "a") [.binary (.ident "n") lit] 114 120)

/-- Function `fib`, lines 3 to 12. -/
def fib : FuncDecl :=
  { recv := none, name := "fib", typ := sigOf ["n"],
    body := .other [
      .other [.binary (.binary (.ident "n") lit) (.binary (.ident "n") lit),
              .other [.other [.ident "n"]]],
      .assign [.ident "fn"] [.ident "fib"],
      .assign [.ident "a"] [.ident "fn"],
      .other [fibSum]] }

/-- The call `cf(cf(i-1, j), cf(k, n-1))` of line 22. -/
def outerCall : Node :=
  .call (.ident "cf")
    [.call (.ident "cf") [.binary (.ident "i") lit, .ident "j"] 283 293,
     .call (.ident "cf") [.ident "k", .binary (.ident "n") lit] 295 305]
    280 306

/-- Function `complexFunc`, lines 14 to 23. -/
def complexFunc : FuncDecl :=
  { recv := none, name := "complexFunc", typ := sigOf ["i", "j"],
    body := .other [
      .other [.binary (.binary (.ident "i") lit) (.binary (.ident "j") lit),
              .other [.other [.binary (.ident "i") (.ident "j")]]],
      .assign [.ident "k", .ident "n"] [.ident "i", .ident "j"],
      .assign [.ident "cf"] [.ident "complexFunc"],
      .other [outerCall]] }

/-- The receiver `(t T)`. -/
def recvT : Option (List Field) := some [{ names := ["t"], typ := .ident "T" }]

/-- Method `T.A`, lines 27 to 32. -/
def methodA : FuncDecl :=
  { recv := recvT, name := "A", typ := sigOf ["i"],
    body := .other [
      .assign [.ident "a"] [.selector (.ident "t") "A"],
      .assign [.ident "b"] [.ident "a"],
      .assign [.ident "_"] [.ident "b"],
      .other [.binary (.call (.ident "b") [lit] 433 437)
                      (.call (.ident "a") [.binary lit lit] 440 446)]] }

/-- Method `T.B`, lines 34 to 36. -/
def methodB : FuncDecl :=
  { recv := recvT, name := "B", typ := sigOf ["i"],
    body := .other [
      .other [.binary (.call (.selector (.ident "t") "B") [lit] 523 529)
                      (.call (.selector (.ident "t") "B") [.binary lit lit] 532 540)]] }

/-- Function `A`, lines 38 to 40. -/
def funcA : FuncDecl :=
  { recv := none, name := "A", typ := sigOf ["i"],
    body := .other [.other [.binary (.ident "i") lit]] }

/-- The function declarations of the fixture in source order. -/
def decls : List FuncDecl := [fib, complexFunc, methodA, methodB, funcA]

/-- The state the walk over the fixture leaves. -/
def final : linter :=
  match walk NewLinter decls with
  | .ok lr => lr
  | .error _ => NewLinter

/-- The scope of `fib` after the walk. -/
def fibScope : funcScope :=
  { name := "fib", aliases := [("fn", ["fib"]), ("a", ["fn"])] }

/-- The scope of `complexFunc` after the walk. -/
def complexScope : funcScope :=
  { name := "complexFunc", aliases := [("k", ["i"]), ("n", ["j"]), ("cf", ["complexFunc"])] }

end Fixture

/-! ## Specification-side notions for the analyzer -/

/-- A call site contributes when the resolution test of `analyzeCalls` accepts
it: its scope id is known and its name is the canonical name or an alias key. -/
def contributes (scopes : List (Int × funcScope)) (c : callContext) : Bool :=
  (resolve scopes c).isSome

/-- The resolving call sites with operation id `k`, in queue order. -/
def sitesOf (scopes : List (Int × funcScope)) (q : List callContext) (k : Int) :
    List callContext :=
  (q.filter (fun c => decide (c.opNo = k))).filter (contributes scopes)

/-- The call sites counted for operation id `k`: the first resolving one and
every later resolving one of the same kind. -/
def counted (scopes : List (Int × funcScope)) (q : List callContext) (k : Int) :
    List callContext :=
  match sitesOf scopes q k with
  | [] => []
  | c :: rest => c :: rest.filter (fun c2 => decide (c2.opType = c.opType))

/-- The count for operation id `k`: 1 for the first resolving call site plus 1
for every later resolving one whose kind equals the kind of the first. -/
def specCount (scopes : List (Int × funcScope)) (q : List callContext) (k : Int) : Int :=
  match sitesOf scopes q k with
  | [] => 0
  | c :: rest => 1 + ((rest.filter (fun c2 => decide (c2.opType = c.opType))).length : Int)

/-- The report created by the first match of an operation id. -/
def firstReport (fs : funcScope) (c : callContext) : report :=
  { start := c.start, funcName := fs.name, opType := c.opType, opNo := c.opNo, count := 1 }

/-- The update of a report by a later match. -/
def bump (r : report) (c : callContext) : report :=
  { r with count := r.count + 1, start := if c.start < r.start then c.start else r.start }

/-- The effect of one loop iteration of `analyzeCalls` on the entry of the
operation id of the call site. -/
def stepEntry (scopes : List (Int × funcScope)) (o : Option report) (c : callContext) :
    Option report :=
  match resolve scopes c with
  | none => o
  | some fs =>
    match o with
    | none => some (firstReport fs c)
    | some r => if r.opType = c.opType ∧ r.opNo = c.opNo then some (bump r c) else some r

/-- Two scope tables agree on the canonical name and on the alias keys of every
scope id; the origin sets are free. -/
def sameNames (t1 t2 : List (Int × funcScope)) : Prop :=
  ∀ id : Int,
    (Map.get t1 id).map funcScope.name = (Map.get t2 id).map funcScope.name ∧
    ∀ key : String,
      ((Map.get t1 id).bind fun fs => Map.get fs.aliases key).isSome =
      ((Map.get t2 id).bind fun fs => Map.get fs.aliases key).isSome

/-- The diagnostics of a pass, `none` when the pass aborts. -/
def diagnostics (lr : linter) (decls : List FuncDecl) : Option (List Diagnostic) :=
  match run lr decls with
  | .error _ => none
  | .ok (ds, _) => some ds

/-! ## Small programs used as concrete inputs -/

namespace Examples

/-- The function `func f() int { h := g; return h(1) + h(2) }`. -/
def aliasOfOther : FuncDecl :=
  { recv := none, name := "f", typ := .other [],
    body := .other [
      .assign [.ident "h"] [.ident "g"],
      .other [.binary (.call (.ident "h") [.other []] 30 34)
                      (.call (.ident "h") [.other []] 37 41)]] }

/-- A scope table with the single scope `f` and the alias `h` assigned from `g`. -/
def tableG : List (Int × funcScope) := [(0, { name := "f", aliases := [("h", ["g"])] })]

/-- The same scope with other origins recorded for `h`. -/
def tableF : List (Int × funcScope) := [(0, { name := "f", aliases := [("h", ["f", "k"])] })]

/-- Three call sites of one operation, the earliest position in the middle of
the queue, followed by a call site of another kind. -/
def unorderedQueue : List callContext :=
  [{ opNo := 5, scope := 0, opType := .fnCallInBinOp, boundedFuncAlias := "h", start := 20, endPos := 24 },
   { opNo := 5, scope := 0, opType := .fnCallInBinOp, boundedFuncAlias := "f", start := 10, endPos := 14 },
   { opNo := 5, scope := 0, opType := .fnCallInBinOp, boundedFuncAlias := "h", start := 30, endPos := 34 },
   { opNo := 5, scope := 0, opType := .fnCallInArgs, boundedFuncAlias := "f", start := 2, endPos := 4 }]

/-- A walker state whose operation counter has reached `math.MaxInt64`, with
the scope of a function `f` registered. -/
def exhausted : linter :=
  { calls := [], scopes := [(0, { name := "f", aliases := [] })], opNo := maxInt64 }

/-- A state in the body of `f`: scope 0 registered, counter at 0. -/
def inF : linter := { calls := [], scopes := [(0, { name := "f", aliases := [] })], opNo := 0 }

/-- The selector `a.b.c`, whose receiver `a.b` is no identifier. -/
def deepSelector : Node := .selector (.selector (.ident "a") "b") "c"

/-- The statement `x, y := a.b.c, f`. -/
def assignAfterSelector : Node := .assign [.ident "x", .ident "y"] [deepSelector, .ident "f"]

/-- The statement `y, x := f, a.b.c`. -/
def assignBeforeSelector : Node := .assign [.ident "y", .ident "x"] [.ident "f", deepSelector]

/-- The function `func f() int { x, y := a.b.c, f; return y(1) + y(2) }`. -/
def lostAlias : FuncDecl :=
  { recv := none, name := "f", typ := .other [],
    body := .other [
      assignAfterSelector,
      .other [.binary (.call (.ident "y") [.other []] 40 44)
                      (.call (.ident "y") [.other []] 47 51)]] }

/-- The function `func f() int { y, x := f, a.b.c; return y(1) + y(2) }`. -/
def keptAlias : FuncDecl :=
  { recv := none, name := "f", typ := .other [],
    body := .other [
      assignBeforeSelector,
      .other [.binary (.call (.ident "y") [.other []] 40 44)
                      (.call (.ident "y") [.other []] 47 51)]] }

/-- The method `func (T) M() {}`, whose receiver has no name. -/
def unnamedReceiver : FuncDecl :=
  { recv := some [{ names := [], typ := .ident "T" }], name := "M", typ := .other [],
    body := .other [] }

/-- The call `f(f(n))`. -/
def nestedCall : Node := .call (.ident "f") [.call (.ident "f") [.ident "n"] 32 36] 30 37

/-- The function `func f(n int) int { return f(f(n)) }`. -/
def nested : FuncDecl :=
  { recv := none, name := "f", typ := .other [], body := .other [.other [nestedCall]] }

/-- The scope of a function `f` without aliases. -/
def plainF : funcScope := { name := "f", aliases := [] }

/-- The expression `y(1) + x(2)`. -/
def chainSum : Node :=
  .binary (.call (.ident "y") [.other []] 40 44) (.call (.ident "x") [.other []] 47 51)

/-- The function `func f() int { x := f; y := x; return y(1) + x(2) }`. -/
def chain : FuncDecl :=
  { recv := none, name := "f", typ := .other [],
    body := .other [
      .assign [.ident "x"] [.ident "f"],
      .assign [.ident "y"] [.ident "x"],
      .other [chainSum]] }

end Examples

/-! ## Specification-side notions for the walker -/

/-- The candidate name `registerCall` extracts from the callee `call.Fun`:
`none` when the call site is skipped. -/
def calleeName (fn : Node) : Option String :=
  match fn with
  | .selector x sel =>
    match getFullSelectorName x sel with
    | .ok funcName => some funcName
    | .error _ => none
  | .ident name => some name
  | _ => some ""

/-- The call site recorded for a call expression in the operation group
`opNo` of scope `scope`, if one is recorded. -/
def callSite (opNo scope : Int) (op : opTyp) (call : Node) : Option callContext :=
  match call with
  | .call fn _ pos endPos =>
    (calleeName fn).map fun funcName =>
      { opNo := opNo, scope := scope, opType := op, boundedFuncAlias := funcName,
        start := pos, endPos := endPos }
  | _ => none

/-- The call sites of the operation group opened on the expression `e`: one
for every call expression of the subtree of `e`, the root included. -/
def groupSites (opNo scope : Int) (op : opTyp) (e : Node) : List callContext :=
  ((preorder e).filter Node.isCall).filterMap (callSite opNo scope op)

/-- The call sites of consecutive operation groups, the first one with
operation id `k + 1`. -/
def opsFrom (k scope : Int) : List (opTyp × Node) → List callContext
  | [] => []
  | (op, e) :: ops => groupSites (k + 1) scope op e ++ opsFrom (k + 1) scope ops

/-- The assignment statements of a declaration, in traversal order. -/
def FuncDecl.assigns (d : FuncDecl) : List Node := d.nodes.filter Node.isAssign

/-- The operations of a declaration in the order the walker opens their
groups: every binary expression, then every call expression. -/
def FuncDecl.ops (d : FuncDecl) : List (opTyp × Node) :=
  (d.nodes.filter Node.isBinary).map (fun e => (opTyp.fnCallInBinOp, e)) ++
  (d.nodes.filter Node.isCall).map (fun e => (opTyp.fnCallInArgs, e))

/-- The number of operation ids a declaration consumes: one per assignment
statement, one per operation and one at its end. -/
def FuncDecl.ticks (d : FuncDecl) : Int :=
  (d.assigns.length : Int) + (d.ops.length : Int) + 1

/-- The call sites the walker records for a declaration visited at counter
`n`. -/
def declSites (n : Int) (d : FuncDecl) : List callContext :=
  opsFrom (n + (d.assigns.length : Int)) n d.ops

/-- The counter after the declarations `ds`, started at `n`. -/
def counterAfter (n : Int) : List FuncDecl → Int
  | [] => n
  | d :: ds => counterAfter (n + d.ticks) ds

/-- The call sites the walker records for the declarations `ds`, started at
counter `n`. -/
def walkSites (n : Int) : List FuncDecl → List callContext
  | [] => []
  | d :: ds => declSites n d ++ walkSites (n + d.ticks) ds

/-- The canonical name `handleFuncDeclaration` derives: the declared name of a
function, `<first name of the first receiver field>.<name>` of a method; `none`
when the receiver list is empty or its first field has no name. -/
def canonicalName (d : FuncDecl) : Option String :=
  match d.recv with
  | none => some d.name
  | some [] => none
  | some (field :: _) =>
    match field.names with
    | [] => none
    | first :: _ => some (first ++ "." ++ d.name)

/-- The state at the start of a pass: the queue is empty and every registered
scope id lies below the counter. -/
def passStart (lr : linter) : Prop :=
  lr.calls = [] ∧ ∀ id ∈ Map.keys lr.scopes, id < lr.opNo

instance (lr : linter) : Decidable (passStart lr) := by unfold passStart; exact inferInstance

/-- The start position `call.Pos()` of a call expression. -/
def Node.startPos : Node → Int
  | .call _ _ pos _ => pos
  | _ => 0

/-- A call expression whose callee name is the canonical name of the scope or
a key of its alias table. -/
def isSelfCall (fs : funcScope) (call : Node) : Bool :=
  match call with
  | .call fn _ _ _ =>
    match calleeName fn with
    | some funcName => decide (funcName = fs.name) || decide (funcName ∈ Map.keys fs.aliases)
    | none => false
  | _ => false

/-- The self-calls in the subtree of an expression, the root included. -/
def selfCalls (fs : funcScope) (e : Node) : List Node :=
  ((preorder e).filter Node.isCall).filter (isSelfCall fs)

/-- The self-calls in the argument list of a call expression, the call itself
left out; for any other node, those of its subtree. -/
def selfCallsInArgs (fs : funcScope) (e : Node) : List Node :=
  match e with
  | .call _ args _ _ => ((preorderList args).filter Node.isCall).filter (isSelfCall fs)
  | _ => selfCalls fs e

/-- The message of a diagnostic for the function `name`. -/
def messageFor (name : String) : String := "tree recursion in call '" ++ name ++ "'"

/-- The scope table `s2` extends `s` at scope id `n`: the same scope ids are
registered, every other scope is untouched, and the scope `n` keeps its name and
its alias keys. -/
def scopesExtend (n : Int) (s s2 : List (Int × funcScope)) : Prop :=
  Map.keys s2 = Map.keys s ∧
  (∀ id, id ≠ n → Map.get s2 id = Map.get s id) ∧
  ∀ fs, Map.get s n = some fs →
    ∃ fs2, Map.get s2 n = some fs2 ∧ fs2.name = fs.name ∧
      ∀ key ∈ Map.keys fs.aliases, key ∈ Map.keys fs2.aliases

/-- Every registered scope id lies below the counter: the next declaration
gets a scope id that is not registered yet. -/
def scopesBelow (lr : linter) : Prop := ∀ id ∈ Map.keys lr.scopes, id < lr.opNo

/-- A right-hand side the alias-capture rule accepts: an identifier or a
selector whose receiver is an identifier. -/
def isNameExpr : Node → Bool
  | .ident _ => true
  | .selector (.ident _) _ => true
  | _ => false

/-- Every receiver field of the declaration carries a name. -/
def namedReceivers (d : FuncDecl) : Bool :=
  match d.recv with
  | none => true
  | some fields => fields.all fun f => !f.names.isEmpty

/-! ## Specification-side notions for the registry and for repeated passes -/

/-- The alias table `a2` holds every alias key of `a` with at least the origins
recorded in `a`. -/
def aliasesGrow (a a2 : List (String × List String)) : Prop :=
  ∀ key origins, Map.get a key = some origins →
    ∃ origins2, Map.get a2 key = some origins2 ∧ ∀ o ∈ origins, o ∈ origins2

/-- The scope table `s2` holds every scope of `s` under the same canonical name
with an alias table that has only grown. -/
def scopesGrow (s s2 : List (Int × funcScope)) : Prop :=
  ∀ id fs, Map.get s id = some fs →
    ∃ fs2, Map.get s2 id = some fs2 ∧ fs2.name = fs.name ∧ aliasesGrow fs.aliases fs2.aliases

/-- The declaration has a receiver list with a field without names. -/
def hasUnnamedField (d : FuncDecl) : Prop :=
  ∃ fields, d.recv = some fields ∧ ∃ f ∈ fields, f.names = []

/-- The statement `a, b := pair()`. -/
def Examples.unpacking : Node :=
  .assign [.ident "a", .ident "b"] [.call (.ident "pair") [] 20 26]

/-- The queue a walk leaves, `none` when the walk aborts. -/
def recorded (lr : linter) (decls : List FuncDecl) : Option (List callContext) :=
  match walk lr decls with
  | .error _ => none
  | .ok lr1 => some lr1.calls

/-- The call `a.b.c()`, whose callee is a selector with the receiver `a.b`. -/
def Examples.deepCall : Node := .call Examples.deepSelector [] 20 27

/-- The expression `a.b.c() + 1`. -/
def Examples.deepCallSum : Node := .binary Examples.deepCall (.other [])

/-- The function `func f() int { return a.b.c() + 1 }`. -/
def Examples.skipped : FuncDecl :=
  { recv := none, name := "f", typ := .other [],
    body := .other [.other [Examples.deepCallSum]] }

/-- Ascending order of operation ids. -/
def leOp (a b : report) : Prop := a.opNo ≤ b.opNo

instance : DecidableRel leOp := fun a b => by unfold leOp; exact inferInstance

instance : IsTotal report leOp := ⟨fun a b => by unfold leOp; exact le_total a.opNo b.opNo⟩

instance : IsTrans report leOp := ⟨fun a b c hab hbc => by unfold leOp at *; exact le_trans hab hbc⟩

/-- Strictly ascending order of operation ids. -/
def ltOp (a b : report) : Prop := a.opNo < b.opNo

instance : IsAntisymm report ltOp :=
  ⟨fun a b hab hba => by unfold ltOp at *; exact absurd hab (not_lt.mpr (le_of_lt hba))⟩

/-- The operation counter holds a non-negative 64-bit value, as it does in
every state the linter reaches. -/
def counterInRange (lr : linter) : Prop := 0 ≤ lr.opNo ∧ lr.opNo ≤ maxInt64

instance (lr : linter) : Decidable (counterInRange lr) := by
  unfold counterInRange; exact inferInstance

/-- A call site with its operation id and its scope id moved by `delta`. -/
def shiftSite (delta : Int) (c : callContext) : callContext :=
  { c with opNo := c.opNo + delta, scope := c.scope + delta }

/-- A report with its operation id moved by `delta`. -/
def shiftReport (delta : Int) (r : report) : report :=
  { r with opNo := r.opNo + delta }

/-- The effect of the pair loop of an assignment statement on the scope it
is applied to. -/
def pairsOn (fs : funcScope) : List Node → List Node → funcScope
  | [], _ => fs
  | _ :: _, [] => fs
  | lhsExpr :: ls, rhsExpr :: rs =>
    match lhsExpr, rhsExpr with
    | .ident identLeft, .ident identRight =>
      pairsOn { fs with aliases := addOrigin fs.aliases identRight identLeft } ls rs
    | .ident identLeft, .selector x sel =>
      match getFullSelectorName x sel with
      | .error _ => fs
      | .ok methodName =>
        pairsOn { fs with aliases := addOrigin fs.aliases methodName identLeft } ls rs
    | _, _ => pairsOn fs ls rs

/-- The effect of an assignment statement on the scope it is applied to. -/
def stmtOn (fs : funcScope) (c : Node) : funcScope :=
  match c with
  | .assign lhs rhs => if lhs.length > rhs.length then fs else pairsOn fs lhs rhs
  | _ => fs

/-- The scope of a declaration after its assignment pass: its canonical name
and the aliases its assignment statements capture; `none` when it has no
canonical name. -/
def scopeOf (d : FuncDecl) : Option funcScope :=
  (canonicalName d).map fun name => d.assigns.foldl stmtOn { name := name, aliases := [] }


/-! ## Lemmas on association lists -/

theorem Map.get_set {κ β : Type} [DecidableEq κ] (m : List (κ × β)) (k k2 : κ) (v : β) :
    Map.get (Map.set m k v) k2 = if k = k2 then some v else Map.get m k2 := by
  induction m with
  | nil => simp [Map.set, Map.get]
  | cons p m ih =>
    obtain ⟨k1, v1⟩ := p
    by_cases h1 : k1 = k
    · subst h1
      by_cases h2 : k1 = k2 <;> simp [Map.set, Map.get, h2]
    · by_cases h2 : k1 = k2
      · subst h2
        have h3 : ¬ k = k1 := fun h => h1 h.symm
        simp [Map.set, Map.get, h1, h3]
      · simp [Map.set, Map.get, h1, h2, ih]

theorem Map.get_set_self {κ β : Type} [DecidableEq κ] (m : List (κ × β)) (k : κ) (v : β) :
    Map.get (Map.set m k v) k = some v := by
  simp [Map.get_set]

theorem Map.get_set_ne {κ β : Type} [DecidableEq κ] (m : List (κ × β)) (k k2 : κ) (v : β)
    (h : k ≠ k2) : Map.get (Map.set m k v) k2 = Map.get m k2 := by
  simp [Map.get_set, h]

theorem Map.get_eq_none_iff {κ β : Type} [DecidableEq κ] (m : List (κ × β)) (k : κ) :
    Map.get m k = none ↔ k ∉ Map.keys m := by
  induction m with
  | nil => simp [Map.get, Map.keys]
  | cons p m ih =>
    obtain ⟨k1, v1⟩ := p
    by_cases h1 : k1 = k
    · simp [Map.get, Map.keys, h1]
    · have h2 : ¬ k = k1 := fun h => h1 h.symm
      simp only [Map.keys] at ih
      simp [Map.get, Map.keys, h1, h2, ih]

theorem Map.keys_set {κ β : Type} [DecidableEq κ] (m : List (κ × β)) (k : κ) (v : β) :
    Map.keys (Map.set m k v) = if k ∈ Map.keys m then Map.keys m else Map.keys m ++ [k] := by
  induction m with
  | nil => simp [Map.set, Map.keys]
  | cons p m ih =>
    obtain ⟨k1, v1⟩ := p
    by_cases h1 : k1 = k
    · simp [Map.set, Map.keys, h1]
    · have h2 : ¬ k = k1 := fun h => h1 h.symm
      simp only [Map.keys] at ih
      by_cases h3 : k ∈ m.map Prod.fst
      · simp [Map.set, Map.keys, h1, h2, ih, h3]
      · simp [Map.set, Map.keys, h1, h2, ih, h3]

theorem Map.nodup_keys_set {κ β : Type} [DecidableEq κ] (m : List (κ × β)) (k : κ) (v : β)
    (h : (Map.keys m).Nodup) : (Map.keys (Map.set m k v)).Nodup := by
  rw [Map.keys_set]
  by_cases hk : k ∈ Map.keys m
  · simpa [hk] using h
  · simp only [hk, if_false]
    exact List.Nodup.append h (List.nodup_singleton k) (by simpa using hk)

theorem Map.get_of_mem {κ β : Type} [DecidableEq κ] (m : List (κ × β)) (k : κ) (v : β)
    (h : (Map.keys m).Nodup) (hm : (k, v) ∈ m) : Map.get m k = some v := by
  induction m with
  | nil => simp at hm
  | cons p m ih =>
    obtain ⟨k1, v1⟩ := p
    simp only [Map.keys, List.map_cons, List.nodup_cons] at h
    rcases List.mem_cons.mp hm with heq | hmem
    · cases heq
      simp [Map.get]
    · have hne : k1 ≠ k := by
        intro hk
        apply h.1
        rw [hk]
        exact List.mem_map.mpr ⟨(k, v), hmem, rfl⟩
      simp only [Map.get, hne, if_false]
      exact ih h.2 hmem

theorem Map.mem_of_get {κ β : Type} [DecidableEq κ] (m : List (κ × β)) (k : κ) (v : β)
    (h : Map.get m k = some v) : (k, v) ∈ m := by
  induction m with
  | nil => simp [Map.get] at h
  | cons p m ih =>
    obtain ⟨k1, v1⟩ := p
    by_cases h1 : k1 = k
    · simp only [Map.get, h1, if_true, Option.some.injEq] at h
      simp [h1, h]
    · simp only [Map.get, h1, if_false] at h
      exact List.mem_cons_of_mem _ (ih h)
/-! ## The draining loop, one operation id at a time -/

theorem get_analyzeStep (scopes : List (Int × funcScope)) (R : List (Int × report))
    (c : callContext) (k : Int) :
    Map.get (analyzeStep scopes R c) k =
      if c.opNo = k then stepEntry scopes (Map.get R k) c else Map.get R k := by
  unfold analyzeStep stepEntry
  by_cases hk : c.opNo = k
  · subst hk
    cases hres : resolve scopes c with
    | none => simp
    | some fs =>
      cases hget : Map.get R c.opNo with
      | none => simp [Map.get_set, firstReport]
      | some r =>
        by_cases hc : r.opType = c.opType ∧ r.opNo = c.opNo
        · simp [hc, Map.get_set, bump]
        · simp [hc, hget]
  · cases hres : resolve scopes c with
    | none => simp
    | some fs =>
      cases hget : Map.get R c.opNo with
      | none => simp [Map.get_set, hk]
      | some r =>
        by_cases hc : r.opType = c.opType ∧ r.opNo = c.opNo
        · simp [hc, Map.get_set, hk]
        · simp [hc, hk]

theorem get_foldl_analyzeStep (scopes : List (Int × funcScope)) (q : List callContext)
    (R : List (Int × report)) (k : Int) :
    Map.get (q.foldl (analyzeStep scopes) R) k =
      (q.filter (fun c => decide (c.opNo = k))).foldl (stepEntry scopes) (Map.get R k) := by
  induction q generalizing R with
  | nil => simp
  | cons c q ih =>
    rw [List.foldl_cons, ih, get_analyzeStep]
    by_cases hk : c.opNo = k
    · simp [List.filter_cons, hk]
    · simp [List.filter_cons, hk]

theorem bump_opType (r : report) (c : callContext) : (bump r c).opType = r.opType := rfl

theorem bump_opNo (r : report) (c : callContext) : (bump r c).opNo = r.opNo := rfl

theorem bump_funcName (r : report) (c : callContext) : (bump r c).funcName = r.funcName := rfl

theorem foldl_bump_opType (l : List callContext) (r : report) :
    (l.foldl bump r).opType = r.opType := by
  induction l generalizing r with
  | nil => rfl
  | cons c l ih => rw [List.foldl_cons, ih, bump_opType]

theorem foldl_bump_opNo (l : List callContext) (r : report) :
    (l.foldl bump r).opNo = r.opNo := by
  induction l generalizing r with
  | nil => rfl
  | cons c l ih => rw [List.foldl_cons, ih, bump_opNo]

theorem foldl_bump_funcName (l : List callContext) (r : report) :
    (l.foldl bump r).funcName = r.funcName := by
  induction l generalizing r with
  | nil => rfl
  | cons c l ih => rw [List.foldl_cons, ih, bump_funcName]

theorem foldl_bump_count (l : List callContext) (r : report) :
    (l.foldl bump r).count = r.count + (l.length : Int) := by
  induction l generalizing r with
  | nil => simp
  | cons c l ih =>
    rw [List.foldl_cons, ih]
    simp only [bump, List.length_cons, Nat.cast_add, Nat.cast_one]
    ring

theorem foldl_bump_start_le (l : List callContext) (r : report) :
    (l.foldl bump r).start ≤ r.start ∧ ∀ c ∈ l, (l.foldl bump r).start ≤ c.start := by
  induction l generalizing r with
  | nil => simp
  | cons c l ih =>
    rw [List.foldl_cons]
    obtain ⟨h1, h2⟩ := ih (bump r c)
    have hb : (bump r c).start ≤ r.start ∧ (bump r c).start ≤ c.start := by
      simp only [bump]
      split <;> constructor <;> omega
    refine ⟨le_trans h1 hb.1, ?_⟩
    intro c2 hc2
    rcases List.mem_cons.mp hc2 with h | h
    · subst h
      exact le_trans h1 hb.2
    · exact h2 c2 h

theorem foldl_bump_start_mem (l : List callContext) (r : report) :
    (l.foldl bump r).start = r.start ∨ ∃ c ∈ l, (l.foldl bump r).start = c.start := by
  induction l generalizing r with
  | nil => simp
  | cons c l ih =>
    rw [List.foldl_cons]
    rcases ih (bump r c) with h | ⟨c2, hc2, h⟩
    · by_cases hlt : c.start < r.start
      · right
        exact ⟨c, List.mem_cons_self _ _, by rw [h]; simp [bump, hlt]⟩
      · left
        rw [h]; simp [bump, hlt]
    · right
      exact ⟨c2, List.mem_cons_of_mem _ hc2, h⟩

/-- Folding the entry of operation id `k` over call sites of that id, from an
existing report on. -/
theorem foldl_stepEntry_some (scopes : List (Int × funcScope)) (k : Int)
    (l : List callContext) (r : report) (hr : r.opNo = k) (hl : ∀ c ∈ l, c.opNo = k) :
    l.foldl (stepEntry scopes) (some r) =
      some (((l.filter (contributes scopes)).filter
        (fun c2 => decide (c2.opType = r.opType))).foldl bump r) := by
  induction l generalizing r with
  | nil => simp
  | cons c l ih =>
    have hc : c.opNo = k := hl c (List.mem_cons_self _ _)
    have hl2 : ∀ c2 ∈ l, c2.opNo = k := fun c2 h => hl c2 (List.mem_cons_of_mem _ h)
    rw [List.foldl_cons]
    cases hres : resolve scopes c with
    | none =>
      have hstep : stepEntry scopes (some r) c = some r := by simp [stepEntry, hres]
      rw [hstep, ih r hr hl2]
      simp [List.filter_cons, contributes, hres]
    | some fs =>
      by_cases hty : r.opType = c.opType
      · have hstep : stepEntry scopes (some r) c = some (bump r c) := by
          simp [stepEntry, hres, hty, hr, hc]
        rw [hstep, ih (bump r c) (by rw [bump_opNo, hr]) hl2]
        simp [List.filter_cons, contributes, hres, hty, bump_opType]
      · have hstep : stepEntry scopes (some r) c = some r := by
          simp [stepEntry, hres, hty]
        have hty2 : ¬ c.opType = r.opType := fun h => hty h.symm
        rw [hstep, ih r hr hl2]
        simp [List.filter_cons, contributes, hres, hty2]

/-- Folding the entry of operation id `k` over call sites of that id, from the
empty entry on. -/
theorem foldl_stepEntry_none (scopes : List (Int × funcScope)) (k : Int)
    (l : List callContext) (hl : ∀ c ∈ l, c.opNo = k) :
    l.foldl (stepEntry scopes) none =
      match l.filter (contributes scopes) with
      | [] => none
      | c :: rest =>
        (resolve scopes c).map fun fs =>
          (rest.filter (fun c2 => decide (c2.opType = c.opType))).foldl bump (firstReport fs c) := by
  induction l with
  | nil => simp
  | cons c l ih =>
    have hc : c.opNo = k := hl c (List.mem_cons_self _ _)
    have hl2 : ∀ c2 ∈ l, c2.opNo = k := fun c2 h => hl c2 (List.mem_cons_of_mem _ h)
    rw [List.foldl_cons]
    cases hres : resolve scopes c with
    | none =>
      have hstep : stepEntry scopes none c = none := by simp [stepEntry, hres]
      rw [hstep, ih hl2]
      simp [List.filter_cons, contributes, hres]
    | some fs =>
      have hstep : stepEntry scopes none c = some (firstReport fs c) := by
        simp [stepEntry, hres]
      rw [hstep, foldl_stepEntry_some scopes k l (firstReport fs c) hc hl2]
      simp [List.filter_cons, contributes, hres, firstReport]

/-- The entry of the report map for operation id `k` once the queue is
drained. -/
theorem get_drain (scopes : List (Int × funcScope)) (q : List callContext) (k : Int) :
    Map.get (drain scopes q) k =
      match sitesOf scopes q k with
      | [] => none
      | c :: rest =>
        (resolve scopes c).map fun fs =>
          (rest.filter (fun c2 => decide (c2.opType = c.opType))).foldl bump (firstReport fs c) := by
  unfold drain sitesOf
  rw [get_foldl_analyzeStep]
  simp only [Map.get]
  exact foldl_stepEntry_none scopes k _ (by intro c hc; simpa using (List.mem_filter.mp hc).2)

/-! ## Shape of the drained report map -/

theorem mem_sitesOf (scopes : List (Int × funcScope)) (q : List callContext) (k : Int)
    (c : callContext) :
    c ∈ sitesOf scopes q k ↔ c ∈ q ∧ c.opNo = k ∧ contributes scopes c = true := by
  simp only [sitesOf, List.mem_filter, decide_eq_true_eq]
  tauto

theorem nodup_keys_analyzeStep (scopes : List (Int × funcScope)) (R : List (Int × report))
    (c : callContext) (h : (Map.keys R).Nodup) : (Map.keys (analyzeStep scopes R c)).Nodup := by
  unfold analyzeStep
  split
  · exact h
  · split
    · exact Map.nodup_keys_set _ _ _ h
    · split
      · exact Map.nodup_keys_set _ _ _ h
      · exact h

theorem nodup_keys_foldl (scopes : List (Int × funcScope)) (q : List callContext)
    (R : List (Int × report)) (h : (Map.keys R).Nodup) :
    (Map.keys (q.foldl (analyzeStep scopes) R)).Nodup := by
  induction q generalizing R with
  | nil => exact h
  | cons c q ih => exact ih _ (nodup_keys_analyzeStep scopes R c h)

theorem nodup_keys_drain (scopes : List (Int × funcScope)) (q : List callContext) :
    (Map.keys (drain scopes q)).Nodup :=
  nodup_keys_foldl scopes q [] (by simp [Map.keys])

/-- The entry of operation id `k` in the drained map, spelled out. -/
theorem drain_entry (scopes : List (Int × funcScope)) (q : List callContext) (k : Int)
    (r : report) :
    Map.get (drain scopes q) k = some r ↔
      ∃ c rest fs, sitesOf scopes q k = c :: rest ∧ resolve scopes c = some fs ∧
        r = (rest.filter (fun c2 => decide (c2.opType = c.opType))).foldl bump
              (firstReport fs c) := by
  rw [get_drain]
  cases hs : sitesOf scopes q k with
  | nil => simp
  | cons c rest =>
    simp only [List.cons.injEq, Option.map_eq_some']
    constructor
    · rintro ⟨fs, hfs, hr⟩
      exact ⟨c, rest, fs, ⟨rfl, rfl⟩, hfs, hr.symm⟩
    · rintro ⟨c2, rest2, fs, ⟨h1, h2⟩, hfs, hr⟩
      subst h1 h2
      exact ⟨fs, hfs, hr.symm⟩

theorem drain_entry_opNo (scopes : List (Int × funcScope)) (q : List callContext) (k : Int)
    (r : report) (h : Map.get (drain scopes q) k = some r) : r.opNo = k := by
  obtain ⟨c, rest, fs, hs, -, hr⟩ := (drain_entry scopes q k r).mp h
  have hc : c ∈ sitesOf scopes q k := by rw [hs]; exact List.mem_cons_self _ _
  rw [hr, foldl_bump_opNo]
  exact ((mem_sitesOf scopes q k c).mp hc).2.1

/-- Membership in the result of `analyzeCalls`. -/
theorem mem_analyzeCalls (scopes : List (Int × funcScope)) (q : List callContext) (r : report) :
    r ∈ analyzeCalls scopes q ↔ Map.get (drain scopes q) r.opNo = some r ∧ 2 ≤ r.count := by
  unfold analyzeCalls
  simp only [List.mem_filter, List.mem_map, decide_eq_true_eq]
  constructor
  · rintro ⟨⟨⟨k, r2⟩, hmem, hr⟩, hcount⟩
    simp only at hr
    subst hr
    have hget := Map.get_of_mem _ k r2 (nodup_keys_drain scopes q) hmem
    have hk := drain_entry_opNo scopes q k r2 hget
    rw [hk]
    exact ⟨hget, hcount⟩
  · rintro ⟨hget, hcount⟩
    exact ⟨⟨(r.opNo, r), Map.mem_of_get _ _ _ hget, rfl⟩, hcount⟩

theorem nodup_opNo_analyzeCalls (scopes : List (Int × funcScope)) (q : List callContext) :
    ((analyzeCalls scopes q).map report.opNo).Nodup := by
  have hkeys : ((drain scopes q).map Prod.snd).map report.opNo = Map.keys (drain scopes q) := by
    rw [List.map_map, Map.keys]
    apply List.map_congr_left
    rintro ⟨k, r⟩ hmem
    exact drain_entry_opNo scopes q k r (Map.get_of_mem _ k r (nodup_keys_drain scopes q) hmem)
  have hsub : ((analyzeCalls scopes q).map report.opNo).Sublist
      (((drain scopes q).map Prod.snd).map report.opNo) :=
    List.Sublist.map _ (List.filter_sublist _)
  exact List.Nodup.sublist hsub (hkeys ▸ nodup_keys_drain scopes q)

theorem foldl_analyzeStep_filter (scopes : List (Int × funcScope)) (q : List callContext)
    (R : List (Int × report)) :
    (q.filter (contributes scopes)).foldl (analyzeStep scopes) R =
      q.foldl (analyzeStep scopes) R := by
  induction q generalizing R with
  | nil => rfl
  | cons c q ih =>
    cases hres : resolve scopes c with
    | none =>
      have hstep : analyzeStep scopes R c = R := by simp [analyzeStep, hres]
      simp [List.filter_cons, contributes, hres, hstep, ih]
    | some fs =>
      simp [List.filter_cons, contributes, hres, ih]

theorem specCount_eq (scopes : List (Int × funcScope)) (q : List callContext) (k : Int) :
    specCount scopes q k = ((counted scopes q k).length : Int) := by
  unfold specCount counted
  cases sitesOf scopes q k with
  | nil => simp
  | cons c rest => simp; ring

/-- A retained report carries the kind and the canonical name of the first
counted call site, the number of counted call sites and their least start. -/
theorem analyzeCalls_report (scopes : List (Int × funcScope)) (q : List callContext)
    (r : report) (hr : r ∈ analyzeCalls scopes q) :
    ∃ c rest fs, sitesOf scopes q r.opNo = c :: rest ∧ resolve scopes c = some fs ∧
      counted scopes q r.opNo = c :: rest.filter (fun c2 => decide (c2.opType = c.opType)) ∧
      r.funcName = fs.name ∧ r.opType = c.opType ∧
      r.count = ((counted scopes q r.opNo).length : Int) ∧
      (∃ c2 ∈ counted scopes q r.opNo, r.start = c2.start) ∧
      ∀ c2 ∈ counted scopes q r.opNo, r.start ≤ c2.start := by
  obtain ⟨hget, -⟩ := (mem_analyzeCalls scopes q r).mp hr
  obtain ⟨c, rest, fs, hs, hfs, hrep⟩ := (drain_entry scopes q r.opNo r).mp hget
  have hcounted : counted scopes q r.opNo =
      c :: rest.filter (fun c2 => decide (c2.opType = c.opType)) := by
    simp [counted, hs]
  refine ⟨c, rest, fs, hs, hfs, hcounted, ?_, ?_, ?_, ?_, ?_⟩
  · rw [hrep, foldl_bump_funcName]; rfl
  · rw [hrep, foldl_bump_opType]; rfl
  · rw [hcounted]
    conv_lhs => rw [hrep]
    rw [foldl_bump_count]
    simp [firstReport]; ring
  · rw [hcounted]
    rcases foldl_bump_start_mem (rest.filter (fun c2 => decide (c2.opType = c.opType)))
      (firstReport fs c) with h | ⟨c2, hc2, h⟩
    · have hstart : r.start = (firstReport fs c).start := by conv_lhs => rw [hrep, h]
      exact ⟨c, List.mem_cons_self _ _, hstart⟩
    · exact ⟨c2, List.mem_cons_of_mem _ hc2, by conv_lhs => rw [hrep, h]⟩
  · rw [hcounted]
    obtain ⟨h1, h2⟩ := foldl_bump_start_le (rest.filter (fun c2 => decide (c2.opType = c.opType)))
      (firstReport fs c)
    intro c2 hc2
    rcases List.mem_cons.mp hc2 with h | h
    · subst h
      conv_lhs => rw [hrep]
      exact h1
    · conv_lhs => rw [hrep]
      exact h2 c2 h

/-- A report exists for every operation id whose count reaches 2. -/
theorem analyzeCalls_complete (scopes : List (Int × funcScope)) (q : List callContext)
    (k : Int) (h : 2 ≤ specCount scopes q k) : ∃ r ∈ analyzeCalls scopes q, r.opNo = k := by
  unfold specCount at h
  cases hs : sitesOf scopes q k with
  | nil => rw [hs] at h; simp at h
  | cons c rest =>
    rw [hs] at h
    simp only at h
    have hc : c ∈ sitesOf scopes q k := by rw [hs]; exact List.mem_cons_self _ _
    obtain ⟨-, hck, hcon⟩ := (mem_sitesOf scopes q k c).mp hc
    cases hres : resolve scopes c with
    | none => simp [contributes, hres] at hcon
    | some fs =>
      have hget : Map.get (drain scopes q) k = some
          ((rest.filter (fun c2 => decide (c2.opType = c.opType))).foldl bump (firstReport fs c)) :=
        (drain_entry scopes q k _).mpr ⟨c, rest, fs, hs, hres, rfl⟩
      have hk := drain_entry_opNo scopes q k _ hget
      refine ⟨_, (mem_analyzeCalls scopes q _).mpr ⟨by rw [hk]; exact hget, ?_⟩, hk⟩
      rw [foldl_bump_count]
      simpa [firstReport] using h

theorem resolve_name_congr (t1 t2 : List (Int × funcScope)) (h : sameNames t1 t2)
    (c : callContext) :
    (resolve t1 c).map funcScope.name = (resolve t2 c).map funcScope.name := by
  obtain ⟨hname, hkeys⟩ := h c.scope
  have hkey := hkeys c.boundedFuncAlias
  unfold resolve
  cases h1 : Map.get t1 c.scope with
  | none =>
    cases h2 : Map.get t2 c.scope with
    | none => rfl
    | some fs2 => rw [h1, h2] at hname; simp at hname
  | some fs1 =>
    cases h2 : Map.get t2 c.scope with
    | none => rw [h1, h2] at hname; simp at hname
    | some fs2 =>
      rw [h1, h2] at hname hkey
      simp only [Option.map_some', Option.some.injEq] at hname
      simp only [Option.some_bind] at hkey
      simp only [hname]
      by_cases hn : c.boundedFuncAlias = fs2.name
      · simp [hn, hname]
      · simp only [ne_eq, hn, not_false_eq_true, if_true]
        cases ha1 : Map.get fs1.aliases c.boundedFuncAlias with
        | none =>
          cases ha2 : Map.get fs2.aliases c.boundedFuncAlias with
          | none => rfl
          | some o2 => rw [ha1, ha2] at hkey; simp at hkey
        | some o1 =>
          cases ha2 : Map.get fs2.aliases c.boundedFuncAlias with
          | none => rw [ha1, ha2] at hkey; simp at hkey
          | some o2 => simp [hname]

theorem analyzeStep_congr (t1 t2 : List (Int × funcScope)) (R : List (Int × report))
    (c : callContext)
    (h : (resolve t1 c).map funcScope.name = (resolve t2 c).map funcScope.name) :
    analyzeStep t1 R c = analyzeStep t2 R c := by
  unfold analyzeStep
  cases h1 : resolve t1 c with
  | none =>
    cases h2 : resolve t2 c with
    | none => rfl
    | some fs2 => rw [h1, h2] at h; simp at h
  | some fs1 =>
    cases h2 : resolve t2 c with
    | none => rw [h1, h2] at h; simp at h
    | some fs2 =>
      rw [h1, h2] at h
      simp only [Option.map_some', Option.some.injEq] at h
      simp only [h]

theorem analyzeCalls_congr (t1 t2 : List (Int × funcScope)) (h : sameNames t1 t2)
    (q : List callContext) : analyzeCalls t1 q = analyzeCalls t2 q := by
  have hfold : ∀ (l : List callContext) (R : List (Int × report)),
      l.foldl (analyzeStep t1) R = l.foldl (analyzeStep t2) R := by
    intro l
    induction l with
    | nil => intro R; rfl
    | cons c l ih =>
      intro R
      rw [List.foldl_cons, List.foldl_cons, analyzeStep_congr t1 t2 R c (resolve_name_congr t1 t2 h c)]
      exact ih _
  unfold analyzeCalls drain
  rw [hfold]

theorem contributes_iff (scopes : List (Int × funcScope)) (c : callContext) :
    contributes scopes c = true ↔
      ∃ fs, Map.get scopes c.scope = some fs ∧
        (c.boundedFuncAlias = fs.name ∨ c.boundedFuncAlias ∈ Map.keys fs.aliases) := by
  unfold contributes resolve
  cases h1 : Map.get scopes c.scope with
  | none => simp
  | some fs =>
    by_cases hn : c.boundedFuncAlias = fs.name
    · simp [hn]
    · have hk := Map.get_eq_none_iff fs.aliases c.boundedFuncAlias
      cases ha : Map.get fs.aliases c.boundedFuncAlias with
      | none =>
        rw [ha] at hk
        have hk2 := hk.mp rfl
        simp [hn, hk2, ha]
      | some o =>
        rw [ha] at hk
        have hk2 : c.boundedFuncAlias ∈ Map.keys fs.aliases := by
          by_contra hcon
          exact absurd (hk.mpr hcon) (by simp)
        simp [hn, hk2, ha]

/-! ## The walker, function by function -/

/-- The loop over the pairs of an assignment fails with `ErrNoIdent` only. -/
theorem assignPairs_error (lr : linter) (scope : Int) (lhs rhs : List Node) :
    (assignPairs lr scope lhs rhs).2 = none ∨ (assignPairs lr scope lhs rhs).2 = some Err.noIdent := by
  induction lhs generalizing lr rhs with
  | nil => left; simp [assignPairs]
  | cons l ls ih =>
    cases rhs with
    | nil => left; simp [assignPairs]
    | cons r rs =>
      cases l <;> cases r <;> simp only [assignPairs] <;> try exact ih _ _
      rename_i identLeft x sel
      cases x <;> simp only [getFullSelectorName] <;> first | exact ih _ _ | simp


/-! ### Recording call sites -/

theorem registerCall_eq (lr : linter) (scope : Int) (op : opTyp) (call : Node) :
    registerCall lr scope op call =
      { lr with calls := lr.calls ++ (callSite lr.opNo scope op call).toList } := by
  cases call with
  | call fn args pos endPos =>
    cases fn with
    | selector x sel =>
      cases x <;> simp [registerCall, callSite, calleeName, getFullSelectorName]
    | _ => simp [registerCall, callSite, calleeName]
  | _ => simp [registerCall, callSite]

theorem foldl_registerCall (scope : Int) (op : opTyp) (calls : List Node) (lr : linter) :
    calls.foldl (fun st call => registerCall st scope op call) lr =
      { lr with calls := lr.calls ++ calls.filterMap (callSite lr.opNo scope op) } := by
  induction calls generalizing lr with
  | nil => simp
  | cons c cs ih =>
    rw [List.foldl_cons, ih, registerCall_eq]
    cases h : callSite lr.opNo scope op c <;> simp [List.filterMap_cons, h]

theorem preorderNestedCall_ok (lr lr1 : linter) (c : Node) (scope : Int) (op : opTyp)
    (h : preorderNestedCall lr c scope op = (lr1, none)) :
    lr.opNo ≠ maxInt64 ∧
    lr1 = { lr with opNo := lr.opNo + 1,
                    calls := lr.calls ++ groupSites (lr.opNo + 1) scope op c } := by
  unfold preorderNestedCall incOp at h
  by_cases hmax : lr.opNo = maxInt64
  · simp [hmax] at h
  · simp only [hmax, if_false] at h
    rw [foldl_registerCall] at h
    simp only [Prod.mk.injEq, and_true] at h
    exact ⟨hmax, by rw [← h]; rfl⟩

theorem groupLoop_ok (scope : Int) (op : opTyp) (es : List Node) (lr lr1 : linter)
    (h : groupLoop scope op lr es = .ok lr1) :
    lr1.opNo = lr.opNo + (es.length : Int) ∧ lr1.scopes = lr.scopes ∧
    lr1.calls = lr.calls ++ opsFrom lr.opNo scope (es.map fun e => (op, e)) ∧
    (lr.opNo = maxInt64 → es = []) := by
  induction es generalizing lr with
  | nil =>
    simp only [groupLoop, Except.ok.injEq] at h
    subst h
    simp [opsFrom]
  | cons e es ih =>
    simp only [groupLoop] at h
    cases hp : preorderNestedCall lr e scope op with
    | mk lr2 err =>
      rw [hp] at h
      cases err with
      | some e2 => simp at h
      | none =>
        simp only at h
        obtain ⟨hmax, hlr2⟩ := preorderNestedCall_ok lr lr2 e scope op hp
        obtain ⟨h1, h2, h3, -⟩ := ih lr2 h
        subst hlr2
        simp only at h1 h2 h3
        refine ⟨?_, h2, ?_, fun hm => absurd hm hmax⟩
        · rw [h1]; simp only [List.length_cons, Nat.cast_add, Nat.cast_one]; ring
        · rw [h3]; simp [opsFrom]

theorem opsFrom_append (k scope : Int) (l1 l2 : List (opTyp × Node)) :
    opsFrom k scope (l1 ++ l2) = opsFrom k scope l1 ++ opsFrom (k + (l1.length : Int)) scope l2 := by
  induction l1 generalizing k with
  | nil => simp [opsFrom]
  | cons o l1 ih =>
    obtain ⟨op, e⟩ := o
    have hk : k + 1 + (l1.length : Int) = k + ((l1.length : Int) + 1) := by ring
    rw [List.cons_append]
    simp only [opsFrom, List.length_cons, Nat.cast_add, Nat.cast_one]
    rw [ih (k + 1), hk, List.append_assoc]


/-! ### The scope registry during the assignment pass -/

theorem scopesExtend_refl (n : Int) (s : List (Int × funcScope)) : scopesExtend n s s :=
  ⟨rfl, fun _ _ => rfl, fun fs h => ⟨fs, h, rfl, fun _ hk => hk⟩⟩

theorem scopesExtend_trans (n : Int) (s1 s2 s3 : List (Int × funcScope))
    (h12 : scopesExtend n s1 s2) (h23 : scopesExtend n s2 s3) : scopesExtend n s1 s3 := by
  obtain ⟨k12, o12, a12⟩ := h12
  obtain ⟨k23, o23, a23⟩ := h23
  refine ⟨k23.trans k12, fun id hid => (o23 id hid).trans (o12 id hid), ?_⟩
  intro fs hfs
  obtain ⟨fs2, hfs2, hn2, hk2⟩ := a12 fs hfs
  obtain ⟨fs3, hfs3, hn3, hk3⟩ := a23 fs2 hfs2
  exact ⟨fs3, hfs3, hn3.trans hn2, fun key hk => hk3 key (hk2 key hk)⟩

theorem Map.mem_keys_of_get {κ β : Type} [DecidableEq κ] (m : List (κ × β)) (k : κ) (v : β)
    (h : Map.get m k = some v) : k ∈ Map.keys m := by
  by_contra hcon
  rw [(Map.get_eq_none_iff m k).mpr hcon] at h
  simp at h

theorem mem_keys_addOrigin (aliases : List (String × List String)) (fName aliasName key : String) :
    key ∈ Map.keys (addOrigin aliases fName aliasName) ↔
      key ∈ Map.keys aliases ∨ key = aliasName := by
  unfold addOrigin
  cases hget : Map.get aliases aliasName with
  | none =>
    have hnot : aliasName ∉ Map.keys aliases := (Map.get_eq_none_iff _ _).mp hget
    simp [Map.keys_set, hnot]
  | some origins =>
    have hmem : aliasName ∈ Map.keys aliases := Map.mem_keys_of_get _ _ _ hget
    by_cases hin : fName ∈ origins
    · simp only [hin, if_true]
      constructor
      · exact fun h => Or.inl h
      · rintro (h | h)
        · exact h
        · rw [h]; exact hmem
    · simp only [hin, if_false, Map.keys_set, hmem, if_true]
      constructor
      · exact fun h => Or.inl h
      · rintro (h | h)
        · exact h
        · rw [h]; exact hmem

theorem registerAlias_calls (lr : linter) (n : Int) (fName aliasName : String) :
    (registerAlias lr n fName aliasName).calls = lr.calls ∧
    (registerAlias lr n fName aliasName).opNo = lr.opNo := by
  unfold registerAlias
  cases Map.get lr.scopes n <;> simp

theorem registerAlias_extend (lr : linter) (n : Int) (fName aliasName : String) :
    scopesExtend n lr.scopes (registerAlias lr n fName aliasName).scopes := by
  unfold registerAlias
  cases hget : Map.get lr.scopes n with
  | none => exact scopesExtend_refl n lr.scopes
  | some fs =>
    have hmem : n ∈ Map.keys lr.scopes := Map.mem_keys_of_get _ _ _ hget
    refine ⟨by simp [Map.keys_set, hmem], ?_, ?_⟩
    · intro id hid
      exact Map.get_set_ne _ _ _ _ (fun h => hid h.symm)
    · intro fs0 hfs0
      rw [hget] at hfs0
      simp only [Option.some.injEq] at hfs0
      subst hfs0
      refine ⟨_, Map.get_set_self _ _ _, rfl, ?_⟩
      intro key hk
      exact (mem_keys_addOrigin _ _ _ _).mpr (Or.inl hk)

theorem registerAlias_key (lr : linter) (n : Int) (fName aliasName : String) (fs : funcScope)
    (h : Map.get lr.scopes n = some fs) :
    ∃ fs2, Map.get (registerAlias lr n fName aliasName).scopes n = some fs2 ∧
      aliasName ∈ Map.keys fs2.aliases := by
  unfold registerAlias
  rw [h]
  exact ⟨_, Map.get_set_self _ _ _, (mem_keys_addOrigin _ _ _ _).mpr (Or.inr rfl)⟩

theorem assignPairs_frame (n : Int) (lhs rhs : List Node) (lr : linter) :
    (assignPairs lr n lhs rhs).1.calls = lr.calls ∧
    (assignPairs lr n lhs rhs).1.opNo = lr.opNo ∧
    scopesExtend n lr.scopes (assignPairs lr n lhs rhs).1.scopes := by
  induction lhs generalizing lr rhs with
  | nil => simp [assignPairs, scopesExtend_refl]
  | cons l ls ih =>
    cases rhs with
    | nil => simp [assignPairs, scopesExtend_refl]
    | cons r rs =>
      have hreg : ∀ (fName aliasName : String),
          (assignPairs (registerAlias lr n fName aliasName) n ls rs).1.calls = lr.calls ∧
          (assignPairs (registerAlias lr n fName aliasName) n ls rs).1.opNo = lr.opNo ∧
          scopesExtend n lr.scopes
            (assignPairs (registerAlias lr n fName aliasName) n ls rs).1.scopes := by
        intro fName aliasName
        obtain ⟨h1, h2, h3⟩ := ih rs (registerAlias lr n fName aliasName)
        obtain ⟨hc, ho⟩ := registerAlias_calls lr n fName aliasName
        exact ⟨h1.trans hc, h2.trans ho,
          scopesExtend_trans n _ _ _ (registerAlias_extend lr n fName aliasName) h3⟩
      cases l <;> cases r <;> simp only [assignPairs] <;>
        first
        | exact ih rs lr
        | exact hreg _ _
        | skip
      rename_i identLeft x sel
      cases x <;> simp only [getFullSelectorName] <;>
        first
        | exact hreg _ _
        | simp [scopesExtend_refl]

theorem handleAssignmentExpression_frame (lr : linter) (c : Node) (n : Int) :
    (handleAssignmentExpression lr c n).1.calls = lr.calls ∧
    ((handleAssignmentExpression lr c n).1.opNo = lr.opNo + 1 ∧ lr.opNo ≠ maxInt64 ∨
     (handleAssignmentExpression lr c n).1.opNo = lr.opNo ∧ lr.opNo = maxInt64) ∧
    scopesExtend n lr.scopes (handleAssignmentExpression lr c n).1.scopes := by
  have hinc : (incOp lr).1.calls = lr.calls ∧ (incOp lr).1.scopes = lr.scopes ∧
      ((incOp lr).1.opNo = lr.opNo + 1 ∧ lr.opNo ≠ maxInt64 ∨
       (incOp lr).1.opNo = lr.opNo ∧ lr.opNo = maxInt64) := by
    unfold incOp
    by_cases hmax : lr.opNo = maxInt64 <;> simp [hmax]
  obtain ⟨hc, hs, ho⟩ := hinc
  have hbase : (incOp lr).1.calls = lr.calls ∧
      ((incOp lr).1.opNo = lr.opNo + 1 ∧ lr.opNo ≠ maxInt64 ∨
       (incOp lr).1.opNo = lr.opNo ∧ lr.opNo = maxInt64) ∧
      scopesExtend n lr.scopes (incOp lr).1.scopes :=
    ⟨hc, ho, hs ▸ scopesExtend_refl n lr.scopes⟩
  unfold handleAssignmentExpression
  cases c with
  | assign lhs rhs =>
    simp only
    split
    · exact hbase
    · obtain ⟨h1, h2, h3⟩ := assignPairs_frame n lhs rhs (incOp lr).1
      refine ⟨h1.trans hc, ?_, ?_⟩
      · rw [h2]; exact ho
      · rw [hs] at h3; exact h3
  | _ => exact hbase

theorem handleAssignmentExpression_error (lr : linter) (c : Node) (n : Int) :
    (handleAssignmentExpression lr c n).2 = none ∨
    (handleAssignmentExpression lr c n).2 = some Err.noIdent := by
  unfold handleAssignmentExpression
  cases c with
  | assign lhs rhs =>
    simp only
    split
    · left; rfl
    · exact assignPairs_error (incOp lr).1 n lhs rhs
  | _ => left; rfl

theorem assignLoop_cons (n : Int) (c : Node) (cs : List Node) (lr : linter) :
    assignLoop n lr (c :: cs) = assignLoop n (handleAssignmentExpression lr c n).1 cs := by
  have herr := handleAssignmentExpression_error lr c n
  simp only [assignLoop]
  cases hh : handleAssignmentExpression lr c n with
  | mk lr2 err =>
    cases err with
    | none => rfl
    | some e =>
      rw [hh] at herr
      simp only at herr
      rcases herr with h | h
      · simp at h
      · simp only [Option.some.injEq] at h
        simp [h]

theorem assignLoop_ok (n : Int) (cs : List Node) (lr : linter) :
    ∃ lr1, assignLoop n lr cs = .ok lr1 ∧ lr1.calls = lr.calls ∧
      (lr.opNo = maxInt64 → lr1.opNo = maxInt64) ∧
      (lr1.opNo = lr.opNo + (cs.length : Int) ∨ lr1.opNo = maxInt64) ∧
      scopesExtend n lr.scopes lr1.scopes := by
  induction cs generalizing lr with
  | nil => exact ⟨lr, rfl, rfl, fun h => h, Or.inl (by simp), scopesExtend_refl n lr.scopes⟩
  | cons c cs ih =>
    obtain ⟨hc, ho, hs⟩ := handleAssignmentExpression_frame lr c n
    obtain ⟨lr1, hl1, hc1, hm1, ho1, hs1⟩ := ih (handleAssignmentExpression lr c n).1
    have hmax : lr.opNo = maxInt64 → lr1.opNo = maxInt64 := by
      intro h
      rcases ho with ⟨-, h3⟩ | ⟨h2, -⟩
      · exact absurd h h3
      · exact hm1 (h2.trans h)
    refine ⟨lr1, (assignLoop_cons n c cs lr).trans hl1, hc1.trans hc, hmax, ?_,
      scopesExtend_trans n _ _ _ hs hs1⟩
    rcases ho with ⟨h2, -⟩ | ⟨-, h3⟩
    · rcases ho1 with h | h
      · left
        rw [h, h2]; simp only [List.length_cons, Nat.cast_add, Nat.cast_one]; ring
      · exact Or.inr h
    · exact Or.inr (hmax h3)

/-! ### Registration of a declaration -/

theorem registerFunc_fresh (lr : linter) (n : Int) (fName : String)
    (h : Map.get lr.scopes n = none) :
    registerFunc lr n fName =
      { lr with scopes := Map.set lr.scopes n { name := fName, aliases := [] } } := by
  simp [registerFunc, h]

theorem registerFunc_known (lr : linter) (n : Int) (fName : String) (fs : funcScope)
    (h : Map.get lr.scopes n = some fs) : registerFunc lr n fName = lr := by
  simp [registerFunc, h]

theorem registerReceivers_known (n : Int) (methName : String) (fields : List Field)
    (lr : linter) (fs : funcScope) (h : Map.get lr.scopes n = some fs) :
    (registerReceivers lr n methName fields).1 = lr := by
  induction fields with
  | nil => rfl
  | cons field rest ih =>
    simp only [registerReceivers]
    cases hn : field.names with
    | nil => rfl
    | cons first more =>
      simp only
      rw [registerFunc_known lr n _ fs h]
      exact ih

/-- The state after a successful `handleFuncDeclaration` on a scope id that is
not registered yet. -/
theorem handleFuncDeclaration_ok (lr lr1 : linter) (d : FuncDecl) (n : Int)
    (hfresh : Map.get lr.scopes n = none)
    (h : handleFuncDeclaration lr d n = (lr1, none)) :
    lr1.calls = lr.calls ∧ lr1.opNo = lr.opNo ∧
    lr1.scopes =
      match canonicalName d with
      | some name => Map.set lr.scopes n { name := name, aliases := [] }
      | none => lr.scopes := by
  unfold handleFuncDeclaration at h
  unfold canonicalName
  cases hrecv : d.recv with
  | none =>
    rw [hrecv] at h
    simp only [Prod.mk.injEq, and_true] at h
    subst h
    simp [registerFunc_fresh lr n d.name hfresh]
  | some fields =>
    rw [hrecv] at h
    simp only at h
    cases fields with
    | nil =>
      simp only [registerReceivers, Prod.mk.injEq, and_true] at h
      subst h
      simp
    | cons field rest =>
      simp only [registerReceivers] at h
      cases hn : field.names with
      | nil => rw [hn] at h; simp at h
      | cons first more =>
        rw [hn] at h
        simp only at h
        have hreg := registerFunc_fresh lr n (first ++ "." ++ d.name) hfresh
        have hknown : Map.get (registerFunc lr n (first ++ "." ++ d.name)).scopes n =
            some { name := first ++ "." ++ d.name, aliases := [] } := by
          rw [hreg]; exact Map.get_set_self _ _ _
        have hstate := registerReceivers_known n d.name rest _ _ hknown
        rw [h] at hstate
        simp only at hstate
        rw [hstate, hreg]
        simp [hn]

theorem ops_length (d : FuncDecl) :
    (d.ops.length : Int) =
      ((d.nodes.filter Node.isBinary).length : Int) + ((d.nodes.filter Node.isCall).length : Int) := by
  simp [FuncDecl.ops]

/-- The state after a successful `inspectAst` on a declaration whose scope id
is not registered yet. -/
theorem inspectAst_ok (lr lr5 : linter) (d : FuncDecl)
    (hfresh : Map.get lr.scopes lr.opNo = none) (h : inspectAst lr d = .ok lr5) :
    lr5.opNo = lr.opNo + d.ticks ∧
    lr5.calls = lr.calls ++ declSites lr.opNo d ∧
    ∃ lr1 lr2, handleFuncDeclaration lr d lr.opNo = (lr1, none) ∧
      assignLoop lr.opNo lr1 d.assigns = .ok lr2 ∧ lr5.scopes = lr2.scopes ∧
      scopesExtend lr.opNo lr1.scopes lr2.scopes := by
  unfold inspectAst at h
  simp only at h
  cases hd : handleFuncDeclaration lr d lr.opNo with
  | mk lr1 err =>
    rw [hd] at h
    cases err with
    | some e => simp at h
    | none =>
      simp only at h
      obtain ⟨hc1, ho1, -⟩ := handleFuncDeclaration_ok lr lr1 d lr.opNo hfresh hd
      obtain ⟨lr2, hl2, hc2, -, ho2, hs2⟩ := assignLoop_ok lr.opNo (d.nodes.filter Node.isAssign) lr1
      rw [hl2] at h
      simp only at h
      cases hg3 : groupLoop lr.opNo opTyp.fnCallInBinOp lr2 (d.nodes.filter Node.isBinary) with
      | error e => rw [hg3] at h; simp at h
      | ok lr3 =>
        rw [hg3] at h
        simp only at h
        obtain ⟨ho3, hs3, hc3, hm3⟩ := groupLoop_ok _ _ _ lr2 lr3 hg3
        cases hg4 : groupLoop lr.opNo opTyp.fnCallInArgs lr3 (d.nodes.filter Node.isCall) with
        | error e => rw [hg4] at h; simp at h
        | ok lr4 =>
          rw [hg4] at h
          simp only at h
          obtain ⟨ho4, hs4, hc4, hm4⟩ := groupLoop_ok _ _ _ lr3 lr4 hg4
          unfold incOp at h
          by_cases hmax : lr4.opNo = maxInt64
          · simp [hmax] at h
          · simp only [hmax, if_false, Except.ok.injEq] at h
            subst h
            have hno2 : lr2.opNo ≠ maxInt64 := by
              intro hm
              have hB := hm3 hm
              rw [hB] at ho3
              have h3max : lr3.opNo = maxInt64 := by rw [ho3, hm]; simp
              have hC := hm4 h3max
              rw [hC] at ho4
              apply hmax
              rw [ho4, h3max]; simp
            have ho2b : lr2.opNo = lr.opNo + ((d.nodes.filter Node.isAssign).length : Int) := by
              rcases ho2 with h2 | h2
              · rw [h2, ho1]
              · exact absurd h2 hno2
            refine ⟨?_, ?_, lr1, lr2, rfl, hl2, ?_, hs2⟩
            · simp only [FuncDecl.ticks, ops_length, FuncDecl.assigns]
              rw [ho4, ho3, ho2b]; ring
            · simp only [declSites, FuncDecl.ops, FuncDecl.assigns]
              rw [hc4, hc3, hc2, hc1, opsFrom_append, ho3, ho2b, List.append_assoc]
              simp
            · simp only
              rw [hs4, hs3]

/-! ### The walk over the declarations of a pass -/

theorem ticks_pos (d : FuncDecl) : 1 ≤ d.ticks := by
  unfold FuncDecl.ticks
  omega

theorem counterAfter_le (ds : List FuncDecl) (n : Int) : n ≤ counterAfter n ds := by
  induction ds generalizing n with
  | nil => exact le_refl n
  | cons d ds ih =>
    have h1 := ih (n + d.ticks)
    have h2 := ticks_pos d
    simp only [counterAfter]
    omega

theorem counterAfter_append (pre post : List FuncDecl) (n : Int) :
    counterAfter n (pre ++ post) = counterAfter (counterAfter n pre) post := by
  induction pre generalizing n with
  | nil => rfl
  | cons d pre ih =>
    rw [List.cons_append]
    simp only [counterAfter]
    exact ih _

theorem walkSites_append (pre post : List FuncDecl) (n : Int) :
    walkSites n (pre ++ post) = walkSites n pre ++ walkSites (counterAfter n pre) post := by
  induction pre generalizing n with
  | nil => rfl
  | cons d pre ih =>
    rw [List.cons_append]
    simp only [walkSites, counterAfter]
    rw [ih, List.append_assoc]

theorem scopesBelow_fresh (lr : linter) (h : scopesBelow lr) :
    Map.get lr.scopes lr.opNo = none := by
  apply (Map.get_eq_none_iff _ _).mpr
  intro hmem
  exact lt_irrefl _ (h _ hmem)

/-- One declaration: counter, queue, and the scope table seen from outside. -/
theorem inspectAst_frame (lr lr5 : linter) (d : FuncDecl) (hinv : scopesBelow lr)
    (h : inspectAst lr d = .ok lr5) :
    lr5.opNo = lr.opNo + d.ticks ∧
    lr5.calls = lr.calls ++ declSites lr.opNo d ∧
    scopesBelow lr5 ∧
    (∀ id, id ≠ lr.opNo → Map.get lr5.scopes id = Map.get lr.scopes id) ∧
    (Map.get lr5.scopes lr.opNo).map funcScope.name = canonicalName d := by
  have hfresh := scopesBelow_fresh lr hinv
  obtain ⟨ho, hc, lr1, lr2, hd, -, hs5, hext⟩ := inspectAst_ok lr lr5 d hfresh h
  obtain ⟨-, -, hs1⟩ := handleFuncDeclaration_ok lr lr1 d lr.opNo hfresh hd
  obtain ⟨hkeys, hother, hsame⟩ := hext
  have hnotmem : lr.opNo ∉ Map.keys lr.scopes := (Map.get_eq_none_iff _ _).mp hfresh
  have hpos := ticks_pos d
  refine ⟨ho, hc, ?_, ?_, ?_⟩
  · intro id hid
    rw [hs5, hkeys, hs1] at hid
    rw [ho]
    cases hcn : canonicalName d with
    | none =>
      rw [hcn] at hid
      have := hinv id hid
      omega
    | some name =>
      rw [hcn] at hid
      simp only [Map.keys_set, hnotmem, if_false, List.mem_append, List.mem_singleton] at hid
      rcases hid with hid | hid
      · have := hinv id hid
        omega
      · omega
  · intro id hid
    rw [hs5, hother id hid, hs1]
    cases hcn : canonicalName d with
    | none => rfl
    | some name => exact Map.get_set_ne _ _ _ _ (fun hh => hid hh.symm)
  · rw [hs5]
    cases hcn : canonicalName d with
    | none =>
      rw [hcn] at hs1
      have hnone : Map.get lr2.scopes lr.opNo = none := by
        apply (Map.get_eq_none_iff _ _).mpr
        rw [hkeys, hs1]
        exact hnotmem
      rw [hnone]; rfl
    | some name =>
      rw [hcn] at hs1
      have hget : Map.get lr1.scopes lr.opNo = some { name := name, aliases := [] } := by
        rw [hs1]; exact Map.get_set_self _ _ _
      obtain ⟨fs2, hfs2, hn2, -⟩ := hsame _ hget
      rw [hfs2]
      simp [hn2]

/-- The whole walk: counter, queue, and the scopes registered before it. -/
theorem walk_frame (ds : List FuncDecl) (lr lrF : linter) (hinv : scopesBelow lr)
    (h : walk lr ds = .ok lrF) :
    lrF.opNo = counterAfter lr.opNo ds ∧
    lrF.calls = lr.calls ++ walkSites lr.opNo ds ∧
    scopesBelow lrF ∧
    ∀ id, id < lr.opNo → Map.get lrF.scopes id = Map.get lr.scopes id := by
  induction ds generalizing lr with
  | nil =>
    simp only [walk, Except.ok.injEq] at h
    subst h
    simp [counterAfter, walkSites, hinv]
  | cons d ds ih =>
    simp only [walk] at h
    cases hi : inspectAst lr d with
    | error e => rw [hi] at h; simp at h
    | ok lr1 =>
      rw [hi] at h
      simp only at h
      obtain ⟨ho1, hc1, hinv1, hother1, -⟩ := inspectAst_frame lr lr1 d hinv hi
      obtain ⟨hoF, hcF, hinvF, hotherF⟩ := ih lr1 hinv1 h
      have hpos := ticks_pos d
      refine ⟨?_, ?_, hinvF, ?_⟩
      · rw [hoF, ho1]; rfl
      · rw [hcF, hc1, ho1, List.append_assoc]; rfl
      · intro id hid
        rw [hotherF id (by omega), hother1 id (by omega)]

theorem walk_split (pre : List FuncDecl) (d : FuncDecl) (post : List FuncDecl)
    (lr lrF : linter) (h : walk lr (pre ++ d :: post) = .ok lrF) :
    ∃ lr1 lr2, walk lr pre = .ok lr1 ∧ inspectAst lr1 d = .ok lr2 ∧ walk lr2 post = .ok lrF := by
  induction pre generalizing lr with
  | nil =>
    simp only [List.nil_append, walk] at h
    cases hi : inspectAst lr d with
    | error e => rw [hi] at h; simp at h
    | ok lr2 =>
      rw [hi] at h
      exact ⟨lr, lr2, rfl, hi, h⟩
  | cons p pre ih =>
    simp only [List.cons_append, walk] at h
    cases hi : inspectAst lr p with
    | error e => rw [hi] at h; simp at h
    | ok lr0 =>
      rw [hi] at h
      simp only at h
      obtain ⟨lr1, lr2, h1, h2, h3⟩ := ih lr0 h
      exact ⟨lr1, lr2, by simp only [walk, hi]; exact h1, h2, h3⟩

/-- The scope of the declaration `d` in the final table of a walk over
`pre ++ d :: post`: it is the one left by the assignment pass of `d`, and its
name is the canonical name of `d`. -/
theorem walk_scope (pre : List FuncDecl) (d : FuncDecl) (post : List FuncDecl)
    (lr lrF : linter) (hinv : scopesBelow lr) (h : walk lr (pre ++ d :: post) = .ok lrF) :
    (Map.get lrF.scopes (counterAfter lr.opNo pre)).map funcScope.name = canonicalName d ∧
    ∃ lrd lr1 lr2, lrd.opNo = counterAfter lr.opNo pre ∧
      Map.get lrd.scopes lrd.opNo = none ∧
      handleFuncDeclaration lrd d lrd.opNo = (lr1, none) ∧
      assignLoop lrd.opNo lr1 d.assigns = .ok lr2 ∧
      Map.get lrF.scopes lrd.opNo = Map.get lr2.scopes lrd.opNo := by
  obtain ⟨lrd, lr5, hpre, hins, hpost⟩ := walk_split pre d post lr lrF h
  obtain ⟨hod, -, hinvd, -⟩ := walk_frame pre lr lrd hinv hpre
  obtain ⟨ho5, -, hinv5, -, hname5⟩ := inspectAst_frame lrd lr5 d hinvd hins
  obtain ⟨-, -, -, hframe⟩ := walk_frame post lr5 lrF hinv5 hpost
  have hpos := ticks_pos d
  have hkeep : Map.get lrF.scopes lrd.opNo = Map.get lr5.scopes lrd.opNo :=
    hframe lrd.opNo (by omega)
  have hfresh := scopesBelow_fresh lrd hinvd
  obtain ⟨-, -, lr1, lr2, hd, hl2, hs5, -⟩ := inspectAst_ok lrd lr5 d hfresh hins
  refine ⟨?_, lrd, lr1, lr2, hod, hfresh, hd, hl2, ?_⟩
  · rw [← hod, hkeep]; exact hname5
  · rw [hkeep, hs5]

/-! ### Operation ids and scopes of the recorded call sites -/

theorem mem_groupSites (k s : Int) (op : opTyp) (e : Node) (c : callContext)
    (h : c ∈ groupSites k s op e) : c.opNo = k ∧ c.scope = s ∧ c.opType = op := by
  unfold groupSites at h
  obtain ⟨call, -, hcall⟩ := List.mem_filterMap.mp h
  cases call with
  | call fn args pos endPos =>
    simp only [callSite, Option.map_eq_some'] at hcall
    obtain ⟨funcName, -, hc⟩ := hcall
    subst hc
    exact ⟨rfl, rfl, rfl⟩
  | _ => simp [callSite] at hcall

/-- A call site of consecutive groups belongs to one of them, and its operation
id is the id of that group. -/
theorem mem_opsFrom (ops : List (opTyp × Node)) (base s : Int) (c : callContext)
    (h : c ∈ opsFrom base s ops) :
    ∃ o1 kind e o2, ops = o1 ++ (kind, e) :: o2 ∧ c.opNo = base + (o1.length : Int) + 1 ∧
      c ∈ groupSites (base + (o1.length : Int) + 1) s kind e := by
  induction ops generalizing base with
  | nil => simp [opsFrom] at h
  | cons o ops ih =>
    obtain ⟨kind, e⟩ := o
    simp only [opsFrom, List.mem_append] at h
    rcases h with h | h
    · refine ⟨[], kind, e, ops, rfl, ?_, ?_⟩
      · simpa using (mem_groupSites _ _ _ _ _ h).1
      · simpa using h
    · obtain ⟨o1, kind2, e2, o2, hops, hno, hmem⟩ := ih (base + 1) h
      have harith : base + 1 + (o1.length : Int) + 1 = base + (((kind, e) :: o1).length : Int) + 1 := by
        simp only [List.length_cons, Nat.cast_add, Nat.cast_one]; ring
      refine ⟨(kind, e) :: o1, kind2, e2, o2, by rw [hops]; rfl, ?_, ?_⟩
      · rw [hno, harith]
      · rw [← harith]; exact hmem

theorem opsFrom_range (ops : List (opTyp × Node)) (base s : Int) (c : callContext)
    (h : c ∈ opsFrom base s ops) :
    base < c.opNo ∧ c.opNo ≤ base + (ops.length : Int) ∧ c.scope = s := by
  obtain ⟨o1, kind, e, o2, hops, hno, hmem⟩ := mem_opsFrom ops base s c h
  have hlen : (ops.length : Int) = (o1.length : Int) + (o2.length : Int) + 1 := by
    rw [hops]; simp only [List.length_append, List.length_cons, Nat.cast_add, Nat.cast_one]; ring
  refine ⟨by omega, by omega, (mem_groupSites _ _ _ _ _ hmem).2.1⟩

theorem declSites_range (n : Int) (d : FuncDecl) (c : callContext) (h : c ∈ declSites n d) :
    n < c.opNo ∧ c.opNo < n + d.ticks ∧ c.scope = n := by
  obtain ⟨h1, h2, h3⟩ := opsFrom_range _ _ _ _ h
  unfold FuncDecl.ticks
  refine ⟨by omega, by omega, h3⟩

theorem walkSites_range (ds : List FuncDecl) (k : Int) (c : callContext)
    (h : c ∈ walkSites k ds) : k < c.opNo ∧ c.opNo < counterAfter k ds := by
  induction ds generalizing k with
  | nil => simp [walkSites] at h
  | cons d ds ih =>
    simp only [walkSites, List.mem_append] at h
    simp only [counterAfter]
    have hpos := ticks_pos d
    rcases h with h | h
    · obtain ⟨h1, h2, -⟩ := declSites_range k d c h
      have h3 := counterAfter_le ds (k + d.ticks)
      exact ⟨h1, by omega⟩
    · obtain ⟨h1, h2⟩ := ih (k + d.ticks) h
      exact ⟨by omega, h2⟩

theorem filter_opNo_nil (l : List callContext) (j : Int) (h : ∀ c ∈ l, c.opNo ≠ j) :
    l.filter (fun c => decide (c.opNo = j)) = [] := by
  apply List.filter_eq_nil_iff.mpr
  intro c hc
  simpa using h c hc

theorem filter_opNo_self (l : List callContext) (j : Int) (h : ∀ c ∈ l, c.opNo = j) :
    l.filter (fun c => decide (c.opNo = j)) = l := by
  apply List.filter_eq_self.mpr
  intro c hc
  simpa using h c hc

/-- The call sites of the group with a given operation id within one
declaration. -/
theorem opsFrom_filter (base s : Int) (o1 o2 : List (opTyp × Node)) (kind : opTyp) (e : Node) :
    (opsFrom base s (o1 ++ (kind, e) :: o2)).filter
        (fun c => decide (c.opNo = base + (o1.length : Int) + 1)) =
      groupSites (base + (o1.length : Int) + 1) s kind e := by
  rw [opsFrom_append]
  simp only [opsFrom, List.filter_append]
  rw [filter_opNo_nil, filter_opNo_self, filter_opNo_nil]
  · simp
  · intro c hc
    have := (opsFrom_range _ _ _ _ hc).1
    omega
  · intro c hc
    exact (mem_groupSites _ _ _ _ _ hc).1
  · intro c hc
    have := (opsFrom_range _ _ _ _ hc).2.1
    omega

/-- The call sites of an operation id of `d` in the queue of the whole walk are
those recorded for `d`. -/
theorem walkSites_filter (pre : List FuncDecl) (d : FuncDecl) (post : List FuncDecl)
    (k j : Int) (h1 : counterAfter k pre ≤ j) (h2 : j < counterAfter k pre + d.ticks) :
    (walkSites k (pre ++ d :: post)).filter (fun c => decide (c.opNo = j)) =
      (declSites (counterAfter k pre) d).filter (fun c => decide (c.opNo = j)) := by
  rw [walkSites_append]
  simp only [walkSites, List.filter_append]
  rw [filter_opNo_nil (walkSites k pre), filter_opNo_nil (walkSites _ post)]
  · simp
  · intro c hc
    have := (walkSites_range _ _ _ hc).1
    omega
  · intro c hc
    have := (walkSites_range _ _ _ hc).2
    omega

/-- A call site of the walk belongs to one declaration. -/
theorem mem_walkSites (ds : List FuncDecl) (k : Int) (c : callContext)
    (h : c ∈ walkSites k ds) :
    ∃ pre d post, ds = pre ++ d :: post ∧ c ∈ declSites (counterAfter k pre) d := by
  induction ds generalizing k with
  | nil => simp [walkSites] at h
  | cons d ds ih =>
    simp only [walkSites, List.mem_append] at h
    rcases h with h | h
    · exact ⟨[], d, ds, rfl, h⟩
    · obtain ⟨pre, d2, post, hds, hmem⟩ := ih (k + d.ticks) h
      exact ⟨d :: pre, d2, post, by rw [hds]; rfl, hmem⟩

/-! ### Resolving call sites and self-calls -/

theorem contributes_callSite (scopes : List (Int × funcScope)) (fs : funcScope)
    (k s : Int) (op : opTyp) (call : Node) (c : callContext)
    (hs : Map.get scopes s = some fs) (hc : callSite k s op call = some c) :
    contributes scopes c = isSelfCall fs call := by
  cases call with
  | call fn args pos endPos =>
    simp only [callSite, Option.map_eq_some'] at hc
    obtain ⟨funcName, hname, hc⟩ := hc
    subst hc
    simp only [contributes, resolve, hs, isSelfCall, hname]
    by_cases hn : funcName = fs.name
    · simp [hn]
    · cases ha : Map.get fs.aliases funcName with
      | none =>
        have := (Map.get_eq_none_iff _ _).mp ha
        simp [hn, this]
      | some o =>
        have := Map.mem_keys_of_get _ _ _ ha
        simp [hn, this]
  | _ => simp [callSite] at hc

theorem isSelfCall_callSite (fs : funcScope) (k s : Int) (op : opTyp) (call : Node)
    (h : isSelfCall fs call = true) :
    ∃ c, callSite k s op call = some c ∧ c.start = call.startPos := by
  cases call with
  | call fn args pos endPos =>
    simp only [isSelfCall] at h
    cases hname : calleeName fn with
    | none => rw [hname] at h; simp at h
    | some funcName =>
      exact ⟨{ opNo := k, scope := s, opType := op, boundedFuncAlias := funcName,
               start := pos, endPos := endPos }, by simp [callSite, hname], rfl⟩
  | _ => simp [isSelfCall] at h

theorem filterMap_filter_selfCall (scopes : List (Int × funcScope)) (fs : funcScope)
    (k s : Int) (op : opTyp) (hs : Map.get scopes s = some fs) (calls : List Node) :
    (calls.filterMap (callSite k s op)).filter (contributes scopes) =
      (calls.filter (isSelfCall fs)).filterMap (callSite k s op) := by
  induction calls with
  | nil => rfl
  | cons call calls ih =>
    cases hc : callSite k s op call with
    | none =>
      have hself : isSelfCall fs call = false := by
        by_contra hcon
        obtain ⟨c, hc2, -⟩ := isSelfCall_callSite fs k s op call (by simpa using hcon)
        rw [hc] at hc2
        simp at hc2
      simp [List.filterMap_cons, List.filter_cons, hc, hself, ih]
    | some c =>
      have hcon := contributes_callSite scopes fs k s op call c hs hc
      cases hself : isSelfCall fs call with
      | false =>
        rw [hself] at hcon
        simp [List.filterMap_cons, List.filter_cons, hc, hself, hcon, ih]
      | true =>
        rw [hself] at hcon
        simp [List.filterMap_cons, List.filter_cons, hc, hself, hcon, ih]

/-- The resolving call sites of a group are the call sites of the self-calls of
its expression. -/
theorem groupSites_contributes (scopes : List (Int × funcScope)) (fs : funcScope)
    (k s : Int) (op : opTyp) (e : Node) (hs : Map.get scopes s = some fs) :
    (groupSites k s op e).filter (contributes scopes) =
      (selfCalls fs e).filterMap (callSite k s op) := by
  unfold groupSites selfCalls
  exact filterMap_filter_selfCall scopes fs k s op hs _

theorem selfSites_starts (fs : funcScope) (k s : Int) (op : opTyp) (calls : List Node)
    (h : ∀ call ∈ calls, isSelfCall fs call = true) :
    (calls.filterMap (callSite k s op)).map callContext.start = calls.map Node.startPos := by
  induction calls with
  | nil => rfl
  | cons call calls ih =>
    obtain ⟨c, hc, hstart⟩ := isSelfCall_callSite fs k s op call (h call (List.mem_cons_self _ _))
    have ih2 := ih (fun x hx => h x (List.mem_cons_of_mem _ hx))
    simp [List.filterMap_cons, hc, hstart, ih2]

theorem groupSites_none (scopes : List (Int × funcScope)) (k s : Int) (op : opTyp) (e : Node)
    (hs : Map.get scopes s = none) :
    (groupSites k s op e).filter (contributes scopes) = [] := by
  apply List.filter_eq_nil_iff.mpr
  intro c hc
  have hscope := (mem_groupSites _ _ _ _ _ hc).2.1
  simp [contributes, resolve, hscope, hs]

/-! ### From the walk to the reports of a pass -/

theorem sortedReports_of_walk (lr lrF : linter) (decls : List FuncDecl)
    (h : walk lr decls = .ok lrF) :
    sortedReports lr decls = .ok ((analyzeCalls lrF.scopes lrF.calls).insertionSort opNoLe) ∧
    diagnostics lr decls =
      some (linter.report ((analyzeCalls lrF.scopes lrF.calls).insertionSort opNoLe)) := by
  simp [sortedReports, diagnostics, run, h]

theorem mem_insertionSort_iff (l : List report) (r : report) :
    r ∈ l.insertionSort opNoLe ↔ r ∈ l :=
  (List.perm_insertionSort opNoLe l).mem_iff

theorem filter_eq_singleton_of_nodup (l : List report) (r : report)
    (hn : (l.map report.opNo).Nodup) (hr : r ∈ l) :
    l.filter (fun x => decide (x.opNo = r.opNo)) = [r] := by
  induction l with
  | nil => simp at hr
  | cons a l ih =>
    simp only [List.map_cons, List.nodup_cons] at hn
    rcases List.mem_cons.mp hr with h | h
    · subst h
      have hnil : l.filter (fun x => decide (x.opNo = r.opNo)) = [] := by
        apply List.filter_eq_nil_iff.mpr
        intro x hx hxeq
        apply hn.1
        have : x.opNo = r.opNo := by simpa using hxeq
        rw [← this]
        exact List.mem_map_of_mem _ hx
      simp [List.filter_cons, hnil]
    · have hne : ¬ a.opNo = r.opNo := by
        intro heq
        apply hn.1
        rw [heq]
        exact List.mem_map_of_mem _ h
      simp [List.filter_cons, hne, ih hn.2 h]

/-- In the sorted reports of a queue, the reports of one operation id are a
single report. -/
theorem sorted_filter_singleton (scopes : List (Int × funcScope)) (q : List callContext)
    (r : report) (hr : r ∈ analyzeCalls scopes q) :
    ((analyzeCalls scopes q).insertionSort opNoLe).filter (fun x => decide (x.opNo = r.opNo)) =
      [r] := by
  have hperm : List.Perm
      (((analyzeCalls scopes q).insertionSort opNoLe).filter (fun x => decide (x.opNo = r.opNo)))
      ((analyzeCalls scopes q).filter (fun x => decide (x.opNo = r.opNo))) :=
    (List.perm_insertionSort opNoLe _).filter _
  rw [filter_eq_singleton_of_nodup _ r (nodup_opNo_analyzeCalls scopes q) hr] at hperm
  exact List.perm_singleton.mp hperm

theorem counted_eq_sitesOf (scopes : List (Int × funcScope)) (q : List callContext) (k : Int)
    (kind : opTyp) (h : ∀ c ∈ sitesOf scopes q k, c.opType = kind) :
    counted scopes q k = sitesOf scopes q k := by
  unfold counted
  cases hs : sitesOf scopes q k with
  | nil => rfl
  | cons c rest =>
    simp only [List.cons.injEq, true_and]
    apply List.filter_eq_self.mpr
    intro c2 hc2
    have h1 := h c (by rw [hs]; exact List.mem_cons_self _ _)
    have h2 := h c2 (by rw [hs]; exact List.mem_cons_of_mem _ hc2)
    simp [h1, h2]

/-- The call sites of an operation of `d` in the final queue of a pass. -/
theorem pass_filter_op (lr lrF : linter) (pre : List FuncDecl) (d : FuncDecl)
    (post : List FuncDecl) (o1 o2 : List (opTyp × Node)) (kind : opTyp) (e : Node)
    (hstart : passStart lr) (hwalk : walk lr (pre ++ d :: post) = .ok lrF)
    (hop : d.ops = o1 ++ (kind, e) :: o2) :
    lrF.calls.filter (fun c => decide (c.opNo =
        counterAfter lr.opNo pre + (d.assigns.length : Int) + (o1.length : Int) + 1)) =
      groupSites (counterAfter lr.opNo pre + (d.assigns.length : Int) + (o1.length : Int) + 1)
        (counterAfter lr.opNo pre) kind e := by
  obtain ⟨hempty, hinv⟩ := hstart
  obtain ⟨-, hcalls, -, -⟩ := walk_frame _ lr lrF hinv hwalk
  rw [hcalls, hempty, List.nil_append]
  have hlen : (d.ops.length : Int) = (o1.length : Int) + (o2.length : Int) + 1 := by
    rw [hop]; simp only [List.length_append, List.length_cons, Nat.cast_add, Nat.cast_one]; ring
  rw [walkSites_filter pre d post lr.opNo _ (by omega) (by unfold FuncDecl.ticks; omega)]
  unfold declSites
  rw [hop]
  exact opsFrom_filter _ _ o1 o2 kind e

/-- The call sites counted for an operation of `d` are the call sites of the
self-calls of its expression. -/
theorem pass_counted (lr lrF : linter) (pre : List FuncDecl) (d : FuncDecl)
    (post : List FuncDecl) (o1 o2 : List (opTyp × Node)) (kind : opTyp) (e : Node)
    (fs : funcScope)
    (hstart : passStart lr) (hwalk : walk lr (pre ++ d :: post) = .ok lrF)
    (hop : d.ops = o1 ++ (kind, e) :: o2)
    (hscope : Map.get lrF.scopes (counterAfter lr.opNo pre) = some fs) :
    counted lrF.scopes lrF.calls
        (counterAfter lr.opNo pre + (d.assigns.length : Int) + (o1.length : Int) + 1) =
      (selfCalls fs e).filterMap
        (callSite (counterAfter lr.opNo pre + (d.assigns.length : Int) + (o1.length : Int) + 1)
          (counterAfter lr.opNo pre) kind) := by
  have hsites : sitesOf lrF.scopes lrF.calls
      (counterAfter lr.opNo pre + (d.assigns.length : Int) + (o1.length : Int) + 1) =
      (selfCalls fs e).filterMap
        (callSite (counterAfter lr.opNo pre + (d.assigns.length : Int) + (o1.length : Int) + 1)
          (counterAfter lr.opNo pre) kind) := by
    unfold sitesOf
    rw [pass_filter_op lr lrF pre d post o1 o2 kind e hstart hwalk hop]
    exact groupSites_contributes _ fs _ _ kind e hscope
  rw [counted_eq_sitesOf _ _ _ kind, hsites]
  intro c hc
  unfold sitesOf at hc
  rw [pass_filter_op lr lrF pre d post o1 o2 kind e hstart hwalk hop] at hc
  exact (mem_groupSites _ _ _ _ _ (List.mem_filter.mp hc).1).2.2

theorem length_selfSites (fs : funcScope) (k s : Int) (op : opTyp) (calls : List Node)
    (h : ∀ call ∈ calls, isSelfCall fs call = true) :
    (calls.filterMap (callSite k s op)).length = calls.length := by
  have := congrArg List.length (selfSites_starts fs k s op calls h)
  simpa using this

theorem selfCalls_isSelfCall (fs : funcScope) (e : Node) :
    ∀ call ∈ selfCalls fs e, isSelfCall fs call = true := by
  intro call h
  exact (List.mem_filter.mp h).2

/-- The report of an operation with at least two self-calls. -/
theorem pass_report (lr lrF : linter) (pre : List FuncDecl) (d : FuncDecl)
    (post : List FuncDecl) (o1 o2 : List (opTyp × Node)) (kind : opTyp) (e : Node)
    (fs : funcScope)
    (hstart : passStart lr) (hwalk : walk lr (pre ++ d :: post) = .ok lrF)
    (hop : d.ops = o1 ++ (kind, e) :: o2)
    (hscope : Map.get lrF.scopes (counterAfter lr.opNo pre) = some fs)
    (hself : 2 ≤ (selfCalls fs e).length) :
    ∃ r ∈ analyzeCalls lrF.scopes lrF.calls,
      r.opNo = counterAfter lr.opNo pre + (d.assigns.length : Int) + (o1.length : Int) + 1 ∧
      r.funcName = fs.name ∧ r.opType = kind ∧
      r.count = ((selfCalls fs e).length : Int) ∧
      (∃ call ∈ selfCalls fs e, r.start = call.startPos) ∧
      ∀ call ∈ selfCalls fs e, r.start ≤ call.startPos := by
  have hcounted := pass_counted lr lrF pre d post o1 o2 kind e fs hstart hwalk hop hscope
  have hstarts := selfSites_starts fs
    (counterAfter lr.opNo pre + (d.assigns.length : Int) + (o1.length : Int) + 1)
    (counterAfter lr.opNo pre) kind (selfCalls fs e) (selfCalls_isSelfCall fs e)
  have hlen := length_selfSites fs
    (counterAfter lr.opNo pre + (d.assigns.length : Int) + (o1.length : Int) + 1)
    (counterAfter lr.opNo pre) kind (selfCalls fs e) (selfCalls_isSelfCall fs e)
  have hcount : 2 ≤ specCount lrF.scopes lrF.calls
      (counterAfter lr.opNo pre + (d.assigns.length : Int) + (o1.length : Int) + 1) := by
    rw [specCount_eq, hcounted, hlen]
    exact_mod_cast hself
  obtain ⟨r, hr, hk⟩ := analyzeCalls_complete _ _ _ hcount
  obtain ⟨c, rest, fs2, hsites, hres, hcnt0, hname, hty, hcnt, hmem, hle⟩ :=
    analyzeCalls_report _ _ r hr
  rw [hk] at hcnt0 hcnt hmem hle hsites
  have hc : c ∈ counted lrF.scopes lrF.calls
      (counterAfter lr.opNo pre + (d.assigns.length : Int) + (o1.length : Int) + 1) := by
    rw [hcnt0]; exact List.mem_cons_self _ _
  rw [hcounted] at hc hcnt hmem hle
  obtain ⟨call0, -, hcall0⟩ := List.mem_filterMap.mp hc
  have hcsite : c.scope = counterAfter lr.opNo pre ∧ c.opType = kind := by
    cases call0 with
    | call fn args pos endPos =>
      simp only [callSite, Option.map_eq_some'] at hcall0
      obtain ⟨funcName, -, hc0⟩ := hcall0
      subst hc0
      exact ⟨rfl, rfl⟩
    | _ => simp [callSite] at hcall0
  have hfs2 : fs2 = fs := by
    unfold resolve at hres
    rw [hcsite.1, hscope] at hres
    simp only at hres
    split at hres
    · split at hres
      · simp at hres
      · simpa using hres.symm
    · simpa using hres.symm
  have hstartmem : ∀ x, x ∈ (selfCalls fs e).map Node.startPos ↔
      ∃ call ∈ selfCalls fs e, x = call.startPos := by
    intro x
    simp only [List.mem_map]
    constructor
    · rintro ⟨call, h1, h2⟩; exact ⟨call, h1, h2.symm⟩
    · rintro ⟨call, h1, h2⟩; exact ⟨call, h1, h2.symm⟩
  refine ⟨r, hr, hk, by rw [hname, hfs2], by rw [hty, hcsite.2], by rw [hcnt, hlen], ?_, ?_⟩
  · obtain ⟨c2, hc2, hst⟩ := hmem
    apply (hstartmem r.start).mp
    rw [← hstarts]
    exact List.mem_map.mpr ⟨c2, hc2, hst.symm⟩
  · intro call hcall
    have hin : call.startPos ∈ (selfCalls fs e).map Node.startPos :=
      List.mem_map_of_mem _ hcall
    rw [← hstarts] at hin
    obtain ⟨c2, hc2, hst⟩ := List.mem_map.mp hin
    rw [← hst]
    exact hle c2 hc2


/-- A report of a pass whose operation id lies in the range of `d` belongs to an
operation of `d` with at least two self-calls. -/
theorem pass_report_origin (lr lrF : linter) (pre : List FuncDecl) (d : FuncDecl)
    (post : List FuncDecl) (r : report)
    (hstart : passStart lr) (hwalk : walk lr (pre ++ d :: post) = .ok lrF)
    (hr : r ∈ analyzeCalls lrF.scopes lrF.calls)
    (h1 : counterAfter lr.opNo pre ≤ r.opNo)
    (h2 : r.opNo < counterAfter lr.opNo pre + d.ticks) :
    ∃ fs o1 kind e o2, Map.get lrF.scopes (counterAfter lr.opNo pre) = some fs ∧
      d.ops = o1 ++ (kind, e) :: o2 ∧
      r.opNo = counterAfter lr.opNo pre + (d.assigns.length : Int) + (o1.length : Int) + 1 ∧
      r.funcName = fs.name ∧
      r.count = ((selfCalls fs e).length : Int) ∧ 2 ≤ (selfCalls fs e).length := by
  obtain ⟨hempty, hinv⟩ := hstart
  obtain ⟨-, hcalls, -, -⟩ := walk_frame _ lr lrF hinv hwalk
  obtain ⟨c, rest, fs2, hsites, hres, -, hname, -, hcnt, -, -⟩ := analyzeCalls_report _ _ r hr
  have h2r := ((mem_analyzeCalls _ _ r).mp hr).2
  have hc : c ∈ sitesOf lrF.scopes lrF.calls r.opNo := by
    rw [hsites]; exact List.mem_cons_self _ _
  obtain ⟨hcq, hcno, hccon⟩ := (mem_sitesOf _ _ _ c).mp hc
  have hcd : c ∈ declSites (counterAfter lr.opNo pre) d := by
    have hf : c ∈ lrF.calls.filter (fun x => decide (x.opNo = r.opNo)) :=
      List.mem_filter.mpr ⟨hcq, by simpa using hcno⟩
    rw [hcalls, hempty, List.nil_append, walkSites_filter pre d post lr.opNo r.opNo h1 h2] at hf
    exact (List.mem_filter.mp hf).1
  obtain ⟨o1, kind, e, o2, hop, hno, hgs⟩ := mem_opsFrom _ _ _ c hcd
  have hscope_c := (mem_groupSites _ _ _ _ _ hgs).2.1
  have hk : r.opNo =
      counterAfter lr.opNo pre + (d.assigns.length : Int) + (o1.length : Int) + 1 := by
    rw [← hcno, hno]
  cases hscope : Map.get lrF.scopes (counterAfter lr.opNo pre) with
  | none =>
    simp [contributes, resolve, hscope_c, hscope] at hccon
  | some fs =>
    have hcounted := pass_counted lr lrF pre d post o1 o2 kind e fs ⟨hempty, hinv⟩ hwalk hop hscope
    have hlen := length_selfSites fs
      (counterAfter lr.opNo pre + (d.assigns.length : Int) + (o1.length : Int) + 1)
      (counterAfter lr.opNo pre) kind (selfCalls fs e) (selfCalls_isSelfCall fs e)
    rw [hk, hcounted, hlen] at hcnt
    have hfs2 : fs2 = fs := by
      unfold resolve at hres
      rw [hscope_c, hscope] at hres
      simp only at hres
      split at hres
      · split at hres
        · simp at hres
        · simpa using hres.symm
      · simpa using hres.symm
    refine ⟨fs, o1, kind, e, o2, rfl, hop, hk, by rw [hname, hfs2], hcnt, ?_⟩
    rw [hcnt] at h2r
    exact_mod_cast h2r


theorem counted_subset (scopes : List (Int × funcScope)) (q : List callContext) (k : Int)
    (c : callContext) (h : c ∈ counted scopes q k) : c ∈ sitesOf scopes q k := by
  unfold counted at h
  cases hs : sitesOf scopes q k with
  | nil => rw [hs] at h; simp at h
  | cons c0 rest =>
    rw [hs] at h
    simp only at h
    rcases List.mem_cons.mp h with h1 | h1
    · rw [h1]; exact List.mem_cons_self _ _
    · exact List.mem_cons_of_mem _ (List.mem_filter.mp h1).1

theorem registerReceivers_named (n : Int) (methName : String) (fields : List Field)
    (lr : linter) (h : ∀ f ∈ fields, f.names ≠ []) :
    (registerReceivers lr n methName fields).2 = none := by
  induction fields generalizing lr with
  | nil => rfl
  | cons field rest ih =>
    simp only [registerReceivers]
    cases hn : field.names with
    | nil => exact absurd hn (h field (List.mem_cons_self _ _))
    | cons first more => exact ih _ (fun f hf => h f (List.mem_cons_of_mem _ hf))

/-! ### Alias capture by single assignments -/

theorem handleAssignmentExpression_captures (lr : linter) (n : Int) (x : String) (src : Node)
    (fs : funcScope) (hsrc : isNameExpr src = true) (hs : Map.get lr.scopes n = some fs) :
    ∃ fs2, Map.get (handleAssignmentExpression lr (.assign [.ident x] [src]) n).1.scopes n =
        some fs2 ∧ x ∈ Map.keys fs2.aliases := by
  have hinc : Map.get (incOp lr).1.scopes n = some fs := by
    unfold incOp
    by_cases hmax : lr.opNo = maxInt64 <;> simp [hmax, hs]
  cases src with
  | ident s =>
    simp only [handleAssignmentExpression, List.length_singleton, gt_iff_lt, lt_self_iff_false,
      if_false, assignPairs]
    exact registerAlias_key _ n s x fs hinc
  | selector recv m =>
    cases recv with
    | ident r =>
      simp only [handleAssignmentExpression, List.length_singleton, gt_iff_lt, lt_self_iff_false,
        if_false, assignPairs, getFullSelectorName]
      exact registerAlias_key _ n _ x fs hinc
    | _ => simp [isNameExpr] at hsrc
  | _ => simp [isNameExpr] at hsrc

theorem assignLoop_captures (n : Int) (x : String) (src : Node) (hsrc : isNameExpr src = true)
    (cs : List Node) (lr lr2 : linter) (fs : funcScope)
    (hs : Map.get lr.scopes n = some fs) (hmem : Node.assign [.ident x] [src] ∈ cs)
    (hl : assignLoop n lr cs = .ok lr2) :
    ∃ fs2, Map.get lr2.scopes n = some fs2 ∧ fs2.name = fs.name ∧ x ∈ Map.keys fs2.aliases := by
  induction cs generalizing lr fs with
  | nil => simp at hmem
  | cons c cs ih =>
    rw [assignLoop_cons] at hl
    obtain ⟨-, -, hext⟩ := handleAssignmentExpression_frame lr c n
    obtain ⟨fs1, hfs1, hn1, -⟩ := hext.2.2 fs hs
    rcases List.mem_cons.mp hmem with h | h
    · subst h
      obtain ⟨fs3, hfs3, hx3⟩ := handleAssignmentExpression_captures lr n x src fs hsrc hs
      obtain ⟨lr3, hl3, -, -, -, hext3⟩ := assignLoop_ok n cs
        (handleAssignmentExpression lr (.assign [.ident x] [src]) n).1
      rw [hl3] at hl
      simp only [Except.ok.injEq] at hl
      subst hl
      obtain ⟨fs4, hfs4, hn4, hk4⟩ := hext3.2.2 fs3 hfs3
      rw [hfs1] at hfs3
      simp only [Option.some.injEq] at hfs3
      subst hfs3
      exact ⟨fs4, hfs4, hn4.trans hn1, hk4 x hx3⟩
    · obtain ⟨fs2, hfs2, hn2, hx2⟩ := ih _ fs1 hfs1 h hl
      exact ⟨fs2, hfs2, hn2.trans hn1, hx2⟩

/-- After a walk, the name of an assignment captured in `d` is an alias key of
the scope of `d`. -/
theorem walk_alias_key (lr lrF : linter) (pre : List FuncDecl) (d : FuncDecl)
    (post : List FuncDecl) (name x : String) (src : Node)
    (hinv : scopesBelow lr) (hwalk : walk lr (pre ++ d :: post) = .ok lrF)
    (hname : canonicalName d = some name) (hsrc : isNameExpr src = true)
    (hx : Node.assign [.ident x] [src] ∈ d.nodes) :
    ∃ fs, Map.get lrF.scopes (counterAfter lr.opNo pre) = some fs ∧ fs.name = name ∧
      x ∈ Map.keys fs.aliases := by
  obtain ⟨-, lrd, lr1, lr2, hod, hfresh, hd, hl2, hkeep⟩ := walk_scope pre d post lr lrF hinv hwalk
  obtain ⟨-, -, hs1⟩ := handleFuncDeclaration_ok lrd lr1 d lrd.opNo hfresh hd
  rw [hname] at hs1
  have hget : Map.get lr1.scopes lrd.opNo = some { name := name, aliases := [] } := by
    rw [hs1]; exact Map.get_set_self _ _ _
  have hmem : Node.assign [.ident x] [src] ∈ d.assigns :=
    List.mem_filter.mpr ⟨hx, rfl⟩
  obtain ⟨fs2, hfs2, hn2, hx2⟩ := assignLoop_captures lrd.opNo x src hsrc d.assigns lr1 lr2 _
    hget hmem hl2
  rw [← hod]
  exact ⟨fs2, hkeep.trans hfs2, hn2, hx2⟩

theorem isSelfCall_of_key (fs : funcScope) (u : String) (args : List Node) (p e : Int)
    (h : u ∈ Map.keys fs.aliases) : isSelfCall fs (.call (.ident u) args p e) = true := by
  simp [isSelfCall, calleeName, h]

/-- A binary expression of two calls through alias keys holds two self-calls. -/
theorem selfCalls_binary (fs : funcScope) (u v : String) (a1 a2 : List Node)
    (p1 e1 p2 e2 : Int) (hu : u ∈ Map.keys fs.aliases) (hv : v ∈ Map.keys fs.aliases) :
    Node.call (.ident u) a1 p1 e1 ∈ selfCalls fs (.binary (.call (.ident u) a1 p1 e1)
        (.call (.ident v) a2 p2 e2)) ∧
    Node.call (.ident v) a2 p2 e2 ∈ selfCalls fs (.binary (.call (.ident u) a1 p1 e1)
        (.call (.ident v) a2 p2 e2)) ∧
    2 ≤ (selfCalls fs (.binary (.call (.ident u) a1 p1 e1) (.call (.ident v) a2 p2 e2))).length := by
  have h1 := isSelfCall_of_key fs u a1 p1 e1 hu
  have h2 := isSelfCall_of_key fs v a2 p2 e2 hv
  have hshape : selfCalls fs (.binary (.call (.ident u) a1 p1 e1) (.call (.ident v) a2 p2 e2)) =
      (Node.call (.ident u) a1 p1 e1 ::
        ((preorderList a1).filter Node.isCall).filter (isSelfCall fs)) ++
      (Node.call (.ident v) a2 p2 e2 ::
        ((preorderList a2).filter Node.isCall).filter (isSelfCall fs)) := by
    simp [selfCalls, preorder, List.filter_cons, Node.isCall, h1, h2]
  rw [hshape]
  refine ⟨by simp, by simp, ?_⟩
  simp only [List.length_append, List.length_cons]
  omega

/-! ### When the walk does not abort -/

theorem incOp_ok (lr : linter) (h : lr.opNo < maxInt64) :
    incOp lr = ({ lr with opNo := lr.opNo + 1 }, none) := by
  have hne : lr.opNo ≠ maxInt64 := ne_of_lt h
  simp [incOp, hne]

theorem registerFunc_opNo (lr : linter) (n : Int) (fName : String) :
    (registerFunc lr n fName).opNo = lr.opNo := by
  unfold registerFunc
  cases Map.get lr.scopes n <;> rfl

theorem registerReceivers_opNo (n : Int) (methName : String) (fields : List Field)
    (lr : linter) : (registerReceivers lr n methName fields).1.opNo = lr.opNo := by
  induction fields generalizing lr with
  | nil => rfl
  | cons field rest ih =>
    simp only [registerReceivers]
    cases hn : field.names with
    | nil => rfl
    | cons first more => simp only; rw [ih, registerFunc_opNo]

theorem handleFuncDeclaration_total (lr : linter) (d : FuncDecl) (n : Int)
    (h : namedReceivers d = true) :
    (handleFuncDeclaration lr d n).2 = none ∧ (handleFuncDeclaration lr d n).1.opNo = lr.opNo := by
  unfold handleFuncDeclaration
  unfold namedReceivers at h
  cases hrecv : d.recv with
  | none => exact ⟨rfl, registerFunc_opNo lr n d.name⟩
  | some fields =>
    rw [hrecv] at h
    simp only [List.all_eq_true, Bool.not_eq_eq_eq_not, Bool.not_true, List.isEmpty_eq_false] at h
    exact ⟨registerReceivers_named n d.name fields lr h, registerReceivers_opNo n d.name fields lr⟩

theorem assignLoop_exact (n : Int) (cs : List Node) (lr : linter)
    (h : lr.opNo + (cs.length : Int) ≤ maxInt64) :
    ∃ lr1, assignLoop n lr cs = .ok lr1 ∧ lr1.opNo = lr.opNo + (cs.length : Int) := by
  induction cs generalizing lr with
  | nil => exact ⟨lr, rfl, by simp⟩
  | cons c cs ih =>
    obtain ⟨-, ho, -⟩ := handleAssignmentExpression_frame lr c n
    simp only [List.length_cons, Nat.cast_add, Nat.cast_one] at h
    have hstep : (handleAssignmentExpression lr c n).1.opNo = lr.opNo + 1 := by
      rcases ho with ⟨h1, -⟩ | ⟨-, h2⟩
      · exact h1
      · omega
    obtain ⟨lr1, hl1, ho1⟩ := ih (handleAssignmentExpression lr c n).1 (by rw [hstep]; omega)
    refine ⟨lr1, (assignLoop_cons n c cs lr).trans hl1, ?_⟩
    rw [ho1, hstep]
    simp only [List.length_cons, Nat.cast_add, Nat.cast_one]
    ring

theorem groupLoop_total (scope : Int) (op : opTyp) (es : List Node) (lr : linter)
    (h : lr.opNo + (es.length : Int) ≤ maxInt64) :
    ∃ lr1, groupLoop scope op lr es = .ok lr1 ∧ lr1.opNo = lr.opNo + (es.length : Int) := by
  induction es generalizing lr with
  | nil => exact ⟨lr, rfl, by simp⟩
  | cons e es ih =>
    simp only [List.length_cons, Nat.cast_add, Nat.cast_one] at h
    have hlt : lr.opNo < maxInt64 := by omega
    have hp : preorderNestedCall lr e scope op =
        ((((preorder e).filter Node.isCall).foldl
            (fun st call => registerCall st scope op call) { lr with opNo := lr.opNo + 1 }), none) := by
      simp [preorderNestedCall, incOp_ok lr hlt]
    have hop : (((preorder e).filter Node.isCall).foldl
        (fun st call => registerCall st scope op call) { lr with opNo := lr.opNo + 1 }).opNo =
        lr.opNo + 1 := by
      rw [foldl_registerCall]
    obtain ⟨lr1, hl1, ho1⟩ := ih _ (by rw [hop]; omega)
    refine ⟨lr1, by simp only [groupLoop, hp]; exact hl1, ?_⟩
    rw [ho1, hop]
    simp only [List.length_cons, Nat.cast_add, Nat.cast_one]
    ring

/-- A declaration whose receiver fields are named is walked without abort when
the counter has room for its ticks. -/
theorem inspectAst_total (lr : linter) (d : FuncDecl) (hnamed : namedReceivers d = true)
    (hroom : lr.opNo + d.ticks ≤ maxInt64) :
    ∃ lr5, inspectAst lr d = .ok lr5 ∧ lr5.opNo = lr.opNo + d.ticks := by
  obtain ⟨herr, hop1⟩ := handleFuncDeclaration_total lr d lr.opNo hnamed
  have hlen := ops_length d
  unfold FuncDecl.ticks at hroom
  unfold FuncDecl.assigns at hroom
  obtain ⟨lr2, hl2, ho2⟩ := assignLoop_exact lr.opNo (d.nodes.filter Node.isAssign)
    (handleFuncDeclaration lr d lr.opNo).1 (by rw [hop1]; omega)
  obtain ⟨lr3, hl3, ho3⟩ := groupLoop_total lr.opNo opTyp.fnCallInBinOp
    (d.nodes.filter Node.isBinary) lr2 (by rw [ho2, hop1]; omega)
  obtain ⟨lr4, hl4, ho4⟩ := groupLoop_total lr.opNo opTyp.fnCallInArgs
    (d.nodes.filter Node.isCall) lr3 (by rw [ho3, ho2, hop1]; omega)
  have hlt : lr4.opNo < maxInt64 := by rw [ho4, ho3, ho2, hop1]; omega
  refine ⟨{ lr4 with opNo := lr4.opNo + 1 }, ?_, ?_⟩
  · unfold inspectAst
    simp only
    cases hd : handleFuncDeclaration lr d lr.opNo with
    | mk lr1 err =>
      rw [hd] at herr hl2
      simp only at herr hl2
      subst herr
      simp only [hl2, hl3, hl4, incOp_ok lr4 hlt]
  · simp only [FuncDecl.ticks, FuncDecl.assigns, hlen]
    rw [ho4, ho3, ho2, hop1]
    ring

/-- The walk does not abort when every receiver field is named and the counter
has room for all declarations. -/
theorem walk_total (ds : List FuncDecl) (lr : linter)
    (hnamed : ∀ d ∈ ds, namedReceivers d = true)
    (hroom : counterAfter lr.opNo ds ≤ maxInt64) :
    ∃ lrF, walk lr ds = .ok lrF := by
  induction ds generalizing lr with
  | nil => exact ⟨lr, rfl⟩
  | cons d ds ih =>
    simp only [counterAfter] at hroom
    have hle := counterAfter_le ds (lr.opNo + d.ticks)
    obtain ⟨lr5, h5, ho5⟩ := inspectAst_total lr d (hnamed d (List.mem_cons_self _ _))
      (le_trans hle hroom)
    obtain ⟨lrF, hF⟩ := ih lr5 (fun d2 h2 => hnamed d2 (List.mem_cons_of_mem _ h2))
      (by rw [ho5]; exact hroom)
    exact ⟨lrF, by simp only [walk, h5]; exact hF⟩

/-! ### The registry operations on their own -/

theorem incOp_frame (lr : linter) :
    (incOp lr).1.calls = lr.calls ∧ (incOp lr).1.scopes = lr.scopes := by
  unfold incOp
  by_cases h : lr.opNo = maxInt64 <;> simp [h]

theorem aliasesGrow_refl (a : List (String × List String)) : aliasesGrow a a :=
  fun _ origins h => ⟨origins, h, fun _ ho => ho⟩

theorem aliasesGrow_trans (a b c : List (String × List String)) (hab : aliasesGrow a b)
    (hbc : aliasesGrow b c) : aliasesGrow a c := by
  intro key origins h
  obtain ⟨o2, h2, hsub2⟩ := hab key origins h
  obtain ⟨o3, h3, hsub3⟩ := hbc key o2 h2
  exact ⟨o3, h3, fun o ho => hsub3 o (hsub2 o ho)⟩

theorem scopesGrow_refl (s : List (Int × funcScope)) : scopesGrow s s :=
  fun _ fs h => ⟨fs, h, rfl, aliasesGrow_refl fs.aliases⟩

theorem scopesGrow_trans (s1 s2 s3 : List (Int × funcScope)) (h12 : scopesGrow s1 s2)
    (h23 : scopesGrow s2 s3) : scopesGrow s1 s3 := by
  intro id fs h
  obtain ⟨fs2, hfs2, hn2, ha2⟩ := h12 id fs h
  obtain ⟨fs3, hfs3, hn3, ha3⟩ := h23 id fs2 hfs2
  exact ⟨fs3, hfs3, hn3.trans hn2, aliasesGrow_trans _ _ _ ha2 ha3⟩

/-- The alias table after `fs.aliases[alias][fName] = struct{}{}`. -/
theorem addOrigin_spec (aliases : List (String × List String)) (fName aliasName : String) :
    (∃ origins, Map.get (addOrigin aliases fName aliasName) aliasName = some origins ∧
      fName ∈ origins) ∧
    aliasesGrow aliases (addOrigin aliases fName aliasName) := by
  unfold addOrigin
  cases hget : Map.get aliases aliasName with
  | none =>
    refine ⟨⟨[fName], Map.get_set_self _ _ _, by simp⟩, ?_⟩
    intro key origins hk
    have hne : aliasName ≠ key := by
      intro h
      rw [h] at hget
      rw [hget] at hk
      simp at hk
    exact ⟨origins, by rw [Map.get_set_ne _ _ _ _ hne]; exact hk, fun _ ho => ho⟩
  | some origins0 =>
    by_cases hin : fName ∈ origins0
    · simp only [hin, if_true]
      exact ⟨⟨origins0, hget, hin⟩, aliasesGrow_refl aliases⟩
    · simp only [hin, if_false]
      refine ⟨⟨origins0 ++ [fName], Map.get_set_self _ _ _, by simp⟩, ?_⟩
      intro key origins hk
      by_cases hkey : aliasName = key
      · subst hkey
        rw [hget] at hk
        simp only [Option.some.injEq] at hk
        subst hk
        exact ⟨origins0 ++ [fName], Map.get_set_self _ _ _,
          fun o ho => List.mem_append_left _ ho⟩
      · exact ⟨origins, by rw [Map.get_set_ne _ _ _ _ hkey]; exact hk, fun _ ho => ho⟩

theorem registerAlias_unknown (lr : linter) (scope : Int) (fName aliasName : String)
    (h : Map.get lr.scopes scope = none) : registerAlias lr scope fName aliasName = lr := by
  simp [registerAlias, h]

theorem registerAlias_known (lr : linter) (scope : Int) (fName aliasName : String)
    (fs : funcScope) (h : Map.get lr.scopes scope = some fs) :
    registerAlias lr scope fName aliasName =
      { lr with scopes := Map.set lr.scopes scope
                  { fs with aliases := addOrigin fs.aliases fName aliasName } } := by
  simp [registerAlias, h]

theorem registerAlias_grow (lr : linter) (scope : Int) (fName aliasName : String) :
    scopesGrow lr.scopes (registerAlias lr scope fName aliasName).scopes := by
  cases hget : Map.get lr.scopes scope with
  | none =>
    rw [registerAlias_unknown lr scope fName aliasName hget]
    exact scopesGrow_refl lr.scopes
  | some fs =>
    rw [registerAlias_known lr scope fName aliasName fs hget]
    intro id fs0 h0
    by_cases hid : scope = id
    · subst hid
      rw [hget] at h0
      simp only [Option.some.injEq] at h0
      subst h0
      exact ⟨_, Map.get_set_self _ _ _, rfl, (addOrigin_spec fs.aliases fName aliasName).2⟩
    · exact ⟨fs0, by simp only; rw [Map.get_set_ne _ _ _ _ hid]; exact h0, rfl,
        aliasesGrow_refl _⟩

theorem registerFunc_grow (lr : linter) (scope : Int) (fName : String) :
    scopesGrow lr.scopes (registerFunc lr scope fName).scopes := by
  cases hget : Map.get lr.scopes scope with
  | none =>
    rw [registerFunc_fresh lr scope fName hget]
    intro id fs0 h0
    have hid : scope ≠ id := by
      intro h
      rw [h] at hget
      rw [hget] at h0
      simp at h0
    exact ⟨fs0, by simp only; rw [Map.get_set_ne _ _ _ _ hid]; exact h0, rfl,
      aliasesGrow_refl _⟩
  | some fs =>
    rw [registerFunc_known lr scope fName fs hget]
    exact scopesGrow_refl lr.scopes

theorem registerFunc_calls (lr : linter) (n : Int) (fName : String) :
    (registerFunc lr n fName).calls = lr.calls := by
  unfold registerFunc
  cases Map.get lr.scopes n <;> rfl

theorem registerReceivers_grow (scope : Int) (methName : String) (fields : List Field)
    (lr : linter) :
    scopesGrow lr.scopes (registerReceivers lr scope methName fields).1.scopes := by
  induction fields generalizing lr with
  | nil => exact scopesGrow_refl lr.scopes
  | cons field rest ih =>
    simp only [registerReceivers]
    cases hn : field.names with
    | nil => exact scopesGrow_refl lr.scopes
    | cons first more =>
      exact scopesGrow_trans _ _ _ (registerFunc_grow lr scope _) (ih _)

theorem handleFuncDeclaration_grow (lr : linter) (d : FuncDecl) (scope : Int) :
    scopesGrow lr.scopes (handleFuncDeclaration lr d scope).1.scopes := by
  unfold handleFuncDeclaration
  cases d.recv with
  | none => exact registerFunc_grow lr scope d.name
  | some fields => exact registerReceivers_grow scope d.name fields lr

theorem assignPairs_grow (n : Int) (lhs rhs : List Node) (lr : linter) :
    scopesGrow lr.scopes (assignPairs lr n lhs rhs).1.scopes := by
  induction lhs generalizing lr rhs with
  | nil => simp [assignPairs, scopesGrow_refl]
  | cons l ls ih =>
    cases rhs with
    | nil => simp [assignPairs, scopesGrow_refl]
    | cons r rs =>
      have hreg : ∀ (fName aliasName : String),
          scopesGrow lr.scopes
            (assignPairs (registerAlias lr n fName aliasName) n ls rs).1.scopes :=
        fun fName aliasName =>
          scopesGrow_trans _ _ _ (registerAlias_grow lr n fName aliasName) (ih rs _)
      cases l <;> cases r <;> simp only [assignPairs] <;>
        first
        | exact ih rs lr
        | exact hreg _ _
        | skip
      rename_i identLeft x sel
      cases x <;> simp only [getFullSelectorName] <;>
        first
        | exact hreg _ _
        | exact scopesGrow_refl lr.scopes

theorem handleAssignmentExpression_grow (lr : linter) (c : Node) (n : Int) :
    scopesGrow lr.scopes (handleAssignmentExpression lr c n).1.scopes := by
  have hs := (incOp_frame lr).2
  unfold handleAssignmentExpression
  cases c with
  | assign lhs rhs =>
    simp only
    split
    · rw [hs]; exact scopesGrow_refl lr.scopes
    · have h := assignPairs_grow n lhs rhs (incOp lr).1
      rw [hs] at h
      exact h
  | _ => simp only; rw [hs]; exact scopesGrow_refl lr.scopes

theorem assignLoop_grow (n : Int) (cs : List Node) (lr lr1 : linter)
    (h : assignLoop n lr cs = .ok lr1) : scopesGrow lr.scopes lr1.scopes := by
  induction cs generalizing lr with
  | nil =>
    simp only [assignLoop, Except.ok.injEq] at h
    subst h
    exact scopesGrow_refl lr.scopes
  | cons c cs ih =>
    rw [assignLoop_cons] at h
    exact scopesGrow_trans _ _ _ (handleAssignmentExpression_grow lr c n) (ih _ h)

/-- The steps of a successful `inspectAst`. -/
theorem inspectAst_steps (lr lr5 : linter) (d : FuncDecl) (h : inspectAst lr d = .ok lr5) :
    ∃ lr1 lr2 lr3 lr4, handleFuncDeclaration lr d lr.opNo = (lr1, none) ∧
      assignLoop lr.opNo lr1 d.assigns = .ok lr2 ∧
      groupLoop lr.opNo opTyp.fnCallInBinOp lr2 (d.nodes.filter Node.isBinary) = .ok lr3 ∧
      groupLoop lr.opNo opTyp.fnCallInArgs lr3 (d.nodes.filter Node.isCall) = .ok lr4 ∧
      incOp lr4 = (lr5, none) := by
  unfold inspectAst at h
  simp only at h
  cases hd : handleFuncDeclaration lr d lr.opNo with
  | mk lr1 err =>
    rw [hd] at h
    cases err with
    | some e => simp at h
    | none =>
      simp only at h
      cases h2 : assignLoop lr.opNo lr1 (d.nodes.filter Node.isAssign) with
      | error e => rw [h2] at h; simp at h
      | ok lr2 =>
        rw [h2] at h
        simp only at h
        cases h3 : groupLoop lr.opNo opTyp.fnCallInBinOp lr2 (d.nodes.filter Node.isBinary) with
        | error e => rw [h3] at h; simp at h
        | ok lr3 =>
          rw [h3] at h
          simp only at h
          cases h4 : groupLoop lr.opNo opTyp.fnCallInArgs lr3 (d.nodes.filter Node.isCall) with
          | error e => rw [h4] at h; simp at h
          | ok lr4 =>
            rw [h4] at h
            simp only at h
            cases h5 : incOp lr4 with
            | mk lr5b err5 =>
              rw [h5] at h
              cases err5 with
              | some e => simp at h
              | none =>
                simp only [Except.ok.injEq] at h
                subst h
                exact ⟨lr1, lr2, lr3, lr4, rfl, h2, h3, h4, h5⟩

theorem inspectAst_grow (lr lr5 : linter) (d : FuncDecl) (h : inspectAst lr d = .ok lr5) :
    scopesGrow lr.scopes lr5.scopes := by
  obtain ⟨lr1, lr2, lr3, lr4, h1, h2, h3, h4, h5⟩ := inspectAst_steps lr lr5 d h
  have g1 := handleFuncDeclaration_grow lr d lr.opNo
  rw [h1] at g1
  have g2 := assignLoop_grow lr.opNo d.assigns lr1 lr2 h2
  have s3 := (groupLoop_ok _ _ _ lr2 lr3 h3).2.1
  have s4 := (groupLoop_ok _ _ _ lr3 lr4 h4).2.1
  have s5 := (incOp_frame lr4).2
  rw [h5] at s5
  simp only at s5
  rw [s5, s4, s3]
  exact scopesGrow_trans _ _ _ g1 g2

theorem walk_grow (ds : List FuncDecl) (lr lrF : linter) (h : walk lr ds = .ok lrF) :
    scopesGrow lr.scopes lrF.scopes := by
  induction ds generalizing lr with
  | nil =>
    simp only [walk, Except.ok.injEq] at h
    subst h
    exact scopesGrow_refl lr.scopes
  | cons d ds ih =>
    simp only [walk] at h
    cases hi : inspectAst lr d with
    | error e => rw [hi] at h; simp at h
    | ok lr1 =>
      rw [hi] at h
      exact scopesGrow_trans _ _ _ (inspectAst_grow lr lr1 d hi) (ih lr1 h)

/-- The loop over the receiver fields fails exactly on a field without names. -/
theorem registerReceivers_error_iff (scope : Int) (methName : String) (fields : List Field)
    (lr : linter) :
    (registerReceivers lr scope methName fields).2 ≠ none ↔ ∃ f ∈ fields, f.names = [] := by
  induction fields generalizing lr with
  | nil => simp [registerReceivers]
  | cons field rest ih =>
    simp only [registerReceivers]
    cases hn : field.names with
    | nil => simp [hn]
    | cons first more =>
      simp only
      rw [ih]
      simp [hn]

theorem handleFuncDeclaration_error_iff (lr : linter) (d : FuncDecl) (scope : Int) :
    (handleFuncDeclaration lr d scope).2 ≠ none ↔ hasUnnamedField d := by
  unfold handleFuncDeclaration hasUnnamedField
  cases hrecv : d.recv with
  | none => simp
  | some fields =>
    simp only [Option.some.injEq, exists_eq_left']
    exact registerReceivers_error_iff scope d.name fields lr

theorem inspectAst_error_of_unnamed (lr : linter) (d : FuncDecl) (h : hasUnnamedField d) :
    ∃ e, inspectAst lr d = .error e := by
  have herr := (handleFuncDeclaration_error_iff lr d lr.opNo).mpr h
  unfold inspectAst
  simp only
  cases hd : handleFuncDeclaration lr d lr.opNo with
  | mk lr1 err =>
    rw [hd] at herr
    cases err with
    | none => simp at herr
    | some e => exact ⟨e, rfl⟩

/-- A walk over declarations one of which has an unnamed receiver field aborts,
whatever the state it starts from. -/
theorem walk_error_of_unnamed (pre : List FuncDecl) (d : FuncDecl) (post : List FuncDecl)
    (lr : linter) (h : hasUnnamedField d) : ∃ e, walk lr (pre ++ d :: post) = .error e := by
  induction pre generalizing lr with
  | nil =>
    obtain ⟨e, he⟩ := inspectAst_error_of_unnamed lr d h
    exact ⟨e, by simp [walk, he]⟩
  | cons p pre ih =>
    simp only [List.cons_append, walk]
    cases hi : inspectAst lr p with
    | error e => exact ⟨e, rfl⟩
    | ok lr1 => exact ih lr1

theorem diagnostics_none_of_walk_error (lr : linter) (decls : List FuncDecl) (e : Err)
    (h : walk lr decls = .error e) : diagnostics lr decls = none := by
  simp [diagnostics, run, h]

/-! ### Shape of the queue of a walk -/

theorem opsFrom_same_op (ops : List (opTyp × Node)) (base s : Int) (c1 c2 : callContext)
    (h1 : c1 ∈ opsFrom base s ops) (h2 : c2 ∈ opsFrom base s ops) (h : c1.opNo = c2.opNo) :
    c1.scope = c2.scope ∧ c1.opType = c2.opType := by
  obtain ⟨o1, k1, e1, r1, hops1, hno1, hg1⟩ := mem_opsFrom ops base s c1 h1
  obtain ⟨o2, k2, e2, r2, hops2, hno2, hg2⟩ := mem_opsFrom ops base s c2 h2
  have hlen : o1.length = o2.length := by
    rw [hno1, hno2] at h
    omega
  rw [hops1] at hops2
  obtain ⟨-, htail⟩ := List.append_inj hops2 hlen
  have hk : k1 = k2 := by
    have := (List.cons.inj htail).1
    exact (Prod.mk.inj this).1
  obtain ⟨-, hs1, ht1⟩ := mem_groupSites _ _ _ _ _ hg1
  obtain ⟨-, hs2, ht2⟩ := mem_groupSites _ _ _ _ _ hg2
  exact ⟨hs1.trans hs2.symm, by rw [ht1, ht2, hk]⟩

theorem walkSites_same_op (ds : List FuncDecl) (n : Int) (c1 c2 : callContext)
    (h1 : c1 ∈ walkSites n ds) (h2 : c2 ∈ walkSites n ds) (h : c1.opNo = c2.opNo) :
    c1.scope = c2.scope ∧ c1.opType = c2.opType := by
  induction ds generalizing n with
  | nil => simp [walkSites] at h1
  | cons d ds ih =>
    simp only [walkSites, List.mem_append] at h1 h2
    rcases h1 with h1 | h1 <;> rcases h2 with h2 | h2
    · exact opsFrom_same_op _ _ _ c1 c2 h1 h2 h
    · have a := (declSites_range _ _ _ h1).2.1
      have b := (walkSites_range _ _ _ h2).1
      omega
    · have a := (declSites_range _ _ _ h2).2.1
      have b := (walkSites_range _ _ _ h1).1
      omega
    · exact ih _ h1 h2

theorem opsFrom_pairwise (ops : List (opTyp × Node)) (base s : Int) :
    (opsFrom base s ops).Pairwise (fun a b => a.opNo ≤ b.opNo) := by
  induction ops generalizing base with
  | nil => simp [opsFrom]
  | cons o ops ih =>
    obtain ⟨kind, e⟩ := o
    simp only [opsFrom]
    refine List.pairwise_append.mpr ⟨?_, ih (base + 1), ?_⟩
    · apply List.pairwise_of_forall_mem_list
      intro a ha b hb
      rw [(mem_groupSites _ _ _ _ _ ha).1, (mem_groupSites _ _ _ _ _ hb).1]
    · intro a ha b hb
      have h1 := (mem_groupSites _ _ _ _ _ ha).1
      have h2 := (opsFrom_range _ _ _ _ hb).1
      omega

theorem walkSites_pairwise (ds : List FuncDecl) (n : Int) :
    (walkSites n ds).Pairwise (fun a b => a.opNo ≤ b.opNo) := by
  induction ds generalizing n with
  | nil => simp [walkSites]
  | cons d ds ih =>
    simp only [walkSites]
    refine List.pairwise_append.mpr ⟨opsFrom_pairwise _ _ _, ih _, ?_⟩
    intro a ha b hb
    have h1 := (declSites_range _ _ _ ha).2.1
    have h2 := (walkSites_range _ _ _ hb).1
    omega

theorem walk_calls (lr lrF : linter) (decls : List FuncDecl) (hstart : passStart lr)
    (hwalk : walk lr decls = .ok lrF) : lrF.calls = walkSites lr.opNo decls := by
  obtain ⟨-, hcalls, -, -⟩ := walk_frame decls lr lrF hstart.2 hwalk
  rw [hcalls, hstart.1, List.nil_append]

theorem counted_walk (lr lrF : linter) (decls : List FuncDecl) (hstart : passStart lr)
    (hwalk : walk lr decls = .ok lrF) (k : Int) :
    counted lrF.scopes lrF.calls k = sitesOf lrF.scopes lrF.calls k := by
  have hcalls := walk_calls lr lrF decls hstart hwalk
  cases hs : sitesOf lrF.scopes lrF.calls k with
  | nil => simp [counted, hs]
  | cons c0 rest =>
    rw [← hs]
    apply counted_eq_sitesOf _ _ _ c0.opType
    intro c hc
    have h0 : c0 ∈ sitesOf lrF.scopes lrF.calls k := by rw [hs]; exact List.mem_cons_self _ _
    obtain ⟨hq0, hk0, -⟩ := (mem_sitesOf _ _ _ c0).mp h0
    obtain ⟨hq, hk, -⟩ := (mem_sitesOf _ _ _ c).mp hc
    rw [hcalls] at hq0 hq
    exact (walkSites_same_op decls lr.opNo c c0 hq hq0 (hk.trans hk0.symm)).2


theorem counterAfter_lt (d : FuncDecl) (mid : List FuncDecl) (n : Int) :
    n < counterAfter n (d :: mid) := by
  simp only [counterAfter]
  have h1 := counterAfter_le mid (n + d.ticks)
  have h2 := ticks_pos d
  omega

theorem callSite_eq (k s : Int) (op : opTyp) (fn : Node) (args : List Node) (p q : Int) :
    callSite k s op (.call fn args p q) =
      (calleeName fn).map fun funcName =>
        { opNo := k, scope := s, opType := op, boundedFuncAlias := funcName,
          start := p, endPos := q } := rfl

theorem calleeName_selector_none (x : Node) (sel : String) :
    calleeName (.selector x sel) = none ↔ ∀ recv, x ≠ .ident recv := by
  cases x with
  | ident recv =>
    simp only [calleeName, getFullSelectorName]
    constructor
    · intro h; simp at h
    · intro h; exact absurd rfl (h recv)
  | _ => simp [calleeName, getFullSelectorName]

theorem calleeName_other (fn : Node) (h : ∀ x sel, fn ≠ .selector x sel) :
    (calleeName fn).isSome = true := by
  cases fn with
  | selector x sel => exact absurd rfl (h x sel)
  | _ => simp [calleeName]

/-- A call site of the final queue whose operation id lies in the range of `d`
belongs to one of the groups of `d`. -/
theorem pass_site_group (lr lrF : linter) (pre : List FuncDecl) (d : FuncDecl)
    (post : List FuncDecl) (c : callContext)
    (hstart : passStart lr) (hwalk : walk lr (pre ++ d :: post) = .ok lrF)
    (hc : c ∈ lrF.calls) (h1 : counterAfter lr.opNo pre ≤ c.opNo)
    (h2 : c.opNo < counterAfter lr.opNo pre + d.ticks) :
    c ∈ declSites (counterAfter lr.opNo pre) d ∧
    ∃ o1 kind e o2, d.ops = o1 ++ (kind, e) :: o2 ∧
      c.opNo = counterAfter lr.opNo pre + (d.assigns.length : Int) + (o1.length : Int) + 1 := by
  have hcalls := walk_calls lr lrF _ hstart hwalk
  have hf : c ∈ lrF.calls.filter (fun x => decide (x.opNo = c.opNo)) :=
    List.mem_filter.mpr ⟨hc, by simp⟩
  rw [hcalls, walkSites_filter pre d post lr.opNo c.opNo h1 h2] at hf
  have hd := (List.mem_filter.mp hf).1
  obtain ⟨o1, kind, e, o2, hop, hno, -⟩ := mem_opsFrom _ _ _ c hd
  exact ⟨hd, o1, kind, e, o2, hop, hno⟩

theorem declSites_mem_walk (lr lrF : linter) (pre : List FuncDecl) (d : FuncDecl)
    (post : List FuncDecl) (c : callContext) (hbelow : scopesBelow lr)
    (hwalk : walk lr (pre ++ d :: post) = .ok lrF)
    (hc : c ∈ declSites (counterAfter lr.opNo pre) d) : c ∈ lrF.calls := by
  obtain ⟨-, hcalls, -, -⟩ := walk_frame _ lr lrF hbelow hwalk
  rw [hcalls, walkSites_append]
  simp only [walkSites]
  exact List.mem_append_right _ (List.mem_append_right _ (List.mem_append_left _ hc))

/-! ### The counter stays a 64-bit value -/

theorem handleFuncDeclaration_opNo (lr : linter) (d : FuncDecl) (n : Int) :
    (handleFuncDeclaration lr d n).1.opNo = lr.opNo := by
  unfold handleFuncDeclaration
  cases d.recv with
  | none => exact registerFunc_opNo lr n d.name
  | some fields => exact registerReceivers_opNo n d.name fields lr

theorem assignLoop_le_max (n : Int) (cs : List Node) (lr lr1 : linter)
    (hmax : lr.opNo ≤ maxInt64) (h : assignLoop n lr cs = .ok lr1) :
    lr.opNo ≤ lr1.opNo ∧ lr1.opNo ≤ maxInt64 := by
  induction cs generalizing lr with
  | nil =>
    simp only [assignLoop, Except.ok.injEq] at h
    subst h
    exact ⟨le_refl _, hmax⟩
  | cons c cs ih =>
    rw [assignLoop_cons] at h
    obtain ⟨-, ho, -⟩ := handleAssignmentExpression_frame lr c n
    have hstep : lr.opNo ≤ (handleAssignmentExpression lr c n).1.opNo ∧
        (handleAssignmentExpression lr c n).1.opNo ≤ maxInt64 := by
      rcases ho with ⟨h1, h2⟩ | ⟨h1, -⟩
      · constructor <;> omega
      · constructor <;> omega
    obtain ⟨h1, h2⟩ := ih _ hstep.2 h
    exact ⟨le_trans hstep.1 h1, h2⟩

theorem groupLoop_le_max (scope : Int) (op : opTyp) (es : List Node) (lr lr1 : linter)
    (hmax : lr.opNo ≤ maxInt64) (h : groupLoop scope op lr es = .ok lr1) :
    lr1.opNo ≤ maxInt64 := by
  induction es generalizing lr with
  | nil =>
    simp only [groupLoop, Except.ok.injEq] at h
    subst h
    exact hmax
  | cons e es ih =>
    simp only [groupLoop] at h
    cases hp : preorderNestedCall lr e scope op with
    | mk lr2 err =>
      rw [hp] at h
      cases err with
      | some e2 => simp at h
      | none =>
        simp only at h
        obtain ⟨hne, hlr2⟩ := preorderNestedCall_ok lr lr2 e scope op hp
        apply ih lr2 _ h
        rw [hlr2]
        simp only
        omega

theorem inspectAst_le_max (lr lr5 : linter) (d : FuncDecl) (hmax : lr.opNo ≤ maxInt64)
    (h : inspectAst lr d = .ok lr5) : lr5.opNo ≤ maxInt64 := by
  obtain ⟨lr1, lr2, lr3, lr4, h1, h2, h3, h4, h5⟩ := inspectAst_steps lr lr5 d h
  have ho1 := handleFuncDeclaration_opNo lr d lr.opNo
  rw [h1] at ho1
  simp only at ho1
  have hm2 := (assignLoop_le_max lr.opNo d.assigns lr1 lr2 (by rw [ho1]; exact hmax) h2).2
  have hm3 := groupLoop_le_max _ _ _ lr2 lr3 hm2 h3
  have hm4 := groupLoop_le_max _ _ _ lr3 lr4 hm3 h4
  unfold incOp at h5
  by_cases hne : lr4.opNo = maxInt64
  · simp [hne] at h5
  · simp only [hne, if_false, Prod.mk.injEq, and_true] at h5
    rw [← h5]
    simp only
    omega

theorem walk_le_max (ds : List FuncDecl) (lr lrF : linter) (hmax : lr.opNo ≤ maxInt64)
    (h : walk lr ds = .ok lrF) : lrF.opNo ≤ maxInt64 := by
  induction ds generalizing lr with
  | nil =>
    simp only [walk, Except.ok.injEq] at h
    subst h
    exact hmax
  | cons d ds ih =>
    simp only [walk] at h
    cases hi : inspectAst lr d with
    | error e => rw [hi] at h; simp at h
    | ok lr1 =>
      rw [hi] at h
      exact ih lr1 (inspectAst_le_max lr lr1 d hmax hi) h

/-! ### Sorting the reports by operation id -/

theorem opNoLe_iff (a b : report) (ha : 0 ≤ a.opNo ∧ a.opNo ≤ maxInt64)
    (hb : 0 ≤ b.opNo ∧ b.opNo ≤ maxInt64) : opNoLe a b ↔ leOp a b := by
  unfold opNoLe leOp
  unfold maxInt64 at ha hb
  omega

theorem orderedInsert_congr (r s : report → report → Prop) [DecidableRel r] [DecidableRel s]
    (a : report) (l : List report) (h : ∀ b ∈ l, (r a b ↔ s a b)) :
    l.orderedInsert r a = l.orderedInsert s a := by
  induction l with
  | nil => rfl
  | cons b l ih =>
    have hb := h b (List.mem_cons_self _ _)
    have ih2 := ih (fun x hx => h x (List.mem_cons_of_mem _ hx))
    by_cases hr : r a b
    · have hs : s a b := hb.mp hr
      simp [List.orderedInsert, hr, hs]
    · have hs : ¬ s a b := fun hh => hr (hb.mpr hh)
      simp [List.orderedInsert, hr, hs, ih2]

theorem insertionSort_congr (r s : report → report → Prop) [DecidableRel r] [DecidableRel s]
    (l : List report) (h : ∀ a ∈ l, ∀ b ∈ l, (r a b ↔ s a b)) :
    l.insertionSort r = l.insertionSort s := by
  induction l with
  | nil => rfl
  | cons a l ih =>
    have ih2 := ih (fun x hx y hy => h x (List.mem_cons_of_mem _ hx) y (List.mem_cons_of_mem _ hy))
    simp only [List.insertionSort]
    rw [ih2]
    apply orderedInsert_congr
    intro b hb
    have hbl : b ∈ l := (List.mem_insertionSort s).mp hb
    exact h a (List.mem_cons_self _ _) b (List.mem_cons_of_mem _ hbl)

/-- Sorting reports with distinct operation ids in the 64-bit range gives a
strictly ascending list. -/
theorem sort_strict (l : List report) (hrange : ∀ r ∈ l, 0 ≤ r.opNo ∧ r.opNo ≤ maxInt64)
    (hnodup : (l.map report.opNo).Nodup) : (l.insertionSort opNoLe).Pairwise ltOp := by
  have hcongr : l.insertionSort opNoLe = l.insertionSort leOp :=
    insertionSort_congr opNoLe leOp l
      (fun a ha b hb => opNoLe_iff a b (hrange a ha) (hrange b hb))
  rw [hcongr]
  have hsorted : (l.insertionSort leOp).Pairwise leOp := List.sorted_insertionSort leOp l
  have hperm := List.perm_insertionSort leOp l
  have hnd : ((l.insertionSort leOp).map report.opNo).Nodup :=
    (List.Perm.nodup_iff (hperm.map report.opNo)).mpr hnodup
  have hne : (l.insertionSort leOp).Pairwise (fun a b => a.opNo ≠ b.opNo) :=
    List.pairwise_map.mp hnd
  exact List.Pairwise.imp₂ (fun a b h1 h2 => by unfold leOp at h1; unfold ltOp; omega) hsorted hne

/-- The sorted reports do not depend on the order in which they are handed to
the sort. -/
theorem sort_perm_eq (l p : List report) (hperm : List.Perm p l)
    (hrange : ∀ r ∈ l, 0 ≤ r.opNo ∧ r.opNo ≤ maxInt64)
    (hnodup : (l.map report.opNo).Nodup) :
    p.insertionSort opNoLe = l.insertionSort opNoLe := by
  have hl := sort_strict l hrange hnodup
  have hp := sort_strict p (fun r hr => hrange r (hperm.mem_iff.mp hr))
    ((List.Perm.nodup_iff (hperm.map report.opNo)).mpr hnodup)
  have hpp : List.Perm (p.insertionSort opNoLe) (l.insertionSort opNoLe) :=
    ((List.perm_insertionSort opNoLe p).trans hperm).trans (List.perm_insertionSort opNoLe l).symm
  exact List.eq_of_perm_of_sorted hpp hp hl

/-- The operation ids of the reports of a pass lie between the counter at its
start and the counter at its end. -/
theorem pass_report_range (lr lrF : linter) (decls : List FuncDecl) (hstart : passStart lr)
    (hwalk : walk lr decls = .ok lrF) (r : report)
    (hr : r ∈ analyzeCalls lrF.scopes lrF.calls) : lr.opNo < r.opNo ∧ r.opNo < lrF.opNo := by
  obtain ⟨c, rest, -, hsites, -, -, -, -, -, -, -⟩ := analyzeCalls_report _ _ r hr
  have hc : c ∈ sitesOf lrF.scopes lrF.calls r.opNo := by
    rw [hsites]; exact List.mem_cons_self _ _
  obtain ⟨hcq, hcno, -⟩ := (mem_sitesOf _ _ _ c).mp hc
  rw [walk_calls lr lrF decls hstart hwalk] at hcq
  obtain ⟨h1, h2⟩ := walkSites_range _ _ _ hcq
  obtain ⟨ho, -, -, -⟩ := walk_frame decls lr lrF hstart.2 hwalk
  rw [ho, ← hcno]
  exact ⟨h1, h2⟩

theorem pass_reports_in_range (lr lrF : linter) (decls : List FuncDecl) (hstart : passStart lr)
    (hrange : counterInRange lr) (hwalk : walk lr decls = .ok lrF) :
    ∀ r ∈ analyzeCalls lrF.scopes lrF.calls, 0 ≤ r.opNo ∧ r.opNo ≤ maxInt64 := by
  intro r hr
  obtain ⟨h1, h2⟩ := pass_report_range lr lrF decls hstart hwalk r hr
  have h3 := walk_le_max decls lr lrF hrange.2 hwalk
  have h4 := hrange.1
  constructor <;> omega

/-! ### The scope of a declaration depends on the declaration alone -/

theorem get_registerAlias (lr : linter) (n : Int) (fName aliasName : String) :
    Map.get (registerAlias lr n fName aliasName).scopes n =
      (Map.get lr.scopes n).map fun fs =>
        { fs with aliases := addOrigin fs.aliases fName aliasName } := by
  cases hget : Map.get lr.scopes n with
  | none => rw [registerAlias_unknown lr n fName aliasName hget, hget]; rfl
  | some fs =>
    rw [registerAlias_known lr n fName aliasName fs hget]
    simp [Map.get_set_self]

theorem get_assignPairs (n : Int) (lhs rhs : List Node) (lr : linter) :
    Map.get (assignPairs lr n lhs rhs).1.scopes n =
      (Map.get lr.scopes n).map fun fs => pairsOn fs lhs rhs := by
  induction lhs generalizing lr rhs with
  | nil => simp [assignPairs, pairsOn]
  | cons l ls ih =>
    cases rhs with
    | nil => simp [assignPairs, pairsOn]
    | cons r rs =>
      have hreg : ∀ (fName aliasName : String),
          Map.get (assignPairs (registerAlias lr n fName aliasName) n ls rs).1.scopes n =
            (Map.get lr.scopes n).map fun fs =>
              pairsOn { fs with aliases := addOrigin fs.aliases fName aliasName } ls rs := by
        intro fName aliasName
        rw [ih rs, get_registerAlias, Option.map_map]
        rfl
      cases l <;> cases r <;> simp only [assignPairs, pairsOn] <;>
        first
        | exact ih rs lr
        | exact hreg _ _
        | skip
      rename_i identLeft x sel
      cases x <;> simp only [getFullSelectorName] <;>
        first
        | exact hreg _ _
        | simp

theorem get_handleAssignmentExpression (lr : linter) (c : Node) (n : Int) :
    Map.get (handleAssignmentExpression lr c n).1.scopes n =
      (Map.get lr.scopes n).map fun fs => stmtOn fs c := by
  have hs := (incOp_frame lr).2
  unfold handleAssignmentExpression stmtOn
  cases c with
  | assign lhs rhs =>
    simp only
    split
    · rw [hs]; simp
    · rw [get_assignPairs, hs]
  | _ => simp only; rw [hs]; simp

theorem get_assignLoop (n : Int) (cs : List Node) (lr lr1 : linter)
    (h : assignLoop n lr cs = .ok lr1) :
    Map.get lr1.scopes n = (Map.get lr.scopes n).map fun fs => cs.foldl stmtOn fs := by
  induction cs generalizing lr with
  | nil =>
    simp only [assignLoop, Except.ok.injEq] at h
    subst h
    simp
  | cons c cs ih =>
    rw [assignLoop_cons] at h
    rw [ih _ h, get_handleAssignmentExpression, Option.map_map]
    rfl

/-- The scope of `d` in the final table of a walk is the one its canonical name
and its assignment statements give. -/
theorem walk_scope_eq (pre : List FuncDecl) (d : FuncDecl) (post : List FuncDecl)
    (lr lrF : linter) (hinv : scopesBelow lr) (h : walk lr (pre ++ d :: post) = .ok lrF) :
    Map.get lrF.scopes (counterAfter lr.opNo pre) = scopeOf d := by
  obtain ⟨-, lrd, lr1, lr2, hod, hfresh, hd, hl2, hkeep⟩ := walk_scope pre d post lr lrF hinv h
  obtain ⟨-, -, hs1⟩ := handleFuncDeclaration_ok lrd lr1 d lrd.opNo hfresh hd
  rw [← hod, hkeep, get_assignLoop lrd.opNo d.assigns lr1 lr2 hl2, hs1]
  unfold scopeOf
  cases hcn : canonicalName d with
  | none => simp [hfresh]
  | some name => simp [Map.get_set_self]

/-! ### Moving the counter moves the call sites -/

theorem counterAfter_shift (ds : List FuncDecl) (n delta : Int) :
    counterAfter (n + delta) ds = counterAfter n ds + delta := by
  induction ds generalizing n with
  | nil => rfl
  | cons d ds ih =>
    simp only [counterAfter]
    rw [← ih (n + d.ticks)]
    congr 1
    ring

theorem callSite_shift (k s delta : Int) (op : opTyp) (call : Node) :
    callSite (k + delta) (s + delta) op call = (callSite k s op call).map (shiftSite delta) := by
  cases call with
  | call fn args p q =>
    simp only [callSite]
    cases calleeName fn <;> simp [shiftSite]
  | _ => simp [callSite]

theorem groupSites_shift (k s delta : Int) (op : opTyp) (e : Node) :
    groupSites (k + delta) (s + delta) op e = (groupSites k s op e).map (shiftSite delta) := by
  unfold groupSites
  generalize (preorder e).filter Node.isCall = calls
  induction calls with
  | nil => rfl
  | cons c cs ih =>
    simp only [List.filterMap_cons, callSite_shift]
    cases callSite k s op c <;> simp [ih]

theorem opsFrom_shift (ops : List (opTyp × Node)) (k s delta : Int) :
    opsFrom (k + delta) (s + delta) ops = (opsFrom k s ops).map (shiftSite delta) := by
  induction ops generalizing k with
  | nil => rfl
  | cons o ops ih =>
    obtain ⟨op, e⟩ := o
    have hk : k + delta + 1 = k + 1 + delta := by ring
    simp only [opsFrom, List.map_append, hk, groupSites_shift, ih]

theorem walkSites_shift (ds : List FuncDecl) (n delta : Int) :
    walkSites (n + delta) ds = (walkSites n ds).map (shiftSite delta) := by
  induction ds generalizing n with
  | nil => rfl
  | cons d ds ih =>
    have h1 : n + delta + (d.assigns.length : Int) = n + (d.assigns.length : Int) + delta := by
      ring
    have h2 : n + delta + d.ticks = n + d.ticks + delta := by ring
    simp only [walkSites, declSites, List.map_append, h1, h2, opsFrom_shift, ih]

theorem resolve_congr_get (s1 s2 : List (Int × funcScope)) (c1 c2 : callContext)
    (hget : Map.get s1 c1.scope = Map.get s2 c2.scope)
    (hname : c1.boundedFuncAlias = c2.boundedFuncAlias) : resolve s1 c1 = resolve s2 c2 := by
  unfold resolve
  rw [hget, hname]


/-! ### Moving the call sites moves the reports -/

theorem bump_shift (delta : Int) (r : report) (c : callContext) :
    bump (shiftReport delta r) (shiftSite delta c) = shiftReport delta (bump r c) := rfl

theorem firstReport_shift (delta : Int) (fs : funcScope) (c : callContext) :
    firstReport fs (shiftSite delta c) = shiftReport delta (firstReport fs c) := rfl

theorem foldl_bump_shift (delta : Int) (l : List callContext) (r : report) :
    (l.map (shiftSite delta)).foldl bump (shiftReport delta r) =
      shiftReport delta (l.foldl bump r) := by
  induction l generalizing r with
  | nil => rfl
  | cons c l ih => simp only [List.map_cons, List.foldl_cons, bump_shift, ih]

theorem filter_opNo_shift (delta k : Int) (q : List callContext) :
    (q.map (shiftSite delta)).filter (fun c => decide (c.opNo = k + delta)) =
      (q.filter (fun c => decide (c.opNo = k))).map (shiftSite delta) := by
  rw [List.filter_map]
  congr 1
  apply List.filter_congr
  intro c _
  simp [shiftSite]

theorem filter_kind_shift (delta : Int) (kind : opTyp) (q : List callContext) :
    (q.map (shiftSite delta)).filter (fun c => decide (c.opType = kind)) =
      (q.filter (fun c => decide (c.opType = kind))).map (shiftSite delta) := by
  rw [List.filter_map]
  congr 1

theorem sitesOf_shift (s1 s2 : List (Int × funcScope)) (delta k : Int) (q : List callContext)
    (h : ∀ c ∈ q, resolve s2 (shiftSite delta c) = resolve s1 c) :
    sitesOf s2 (q.map (shiftSite delta)) (k + delta) =
      (sitesOf s1 q k).map (shiftSite delta) := by
  unfold sitesOf
  rw [filter_opNo_shift, List.filter_map]
  congr 1
  apply List.filter_congr
  intro c hc
  have hcq : c ∈ q := (List.mem_filter.mp hc).1
  simp [contributes, h c hcq]

/-- The entry of the report map under a moved operation id. -/
theorem get_drain_shift (s1 s2 : List (Int × funcScope)) (delta k : Int)
    (q : List callContext) (h : ∀ c ∈ q, resolve s2 (shiftSite delta c) = resolve s1 c) :
    Map.get (drain s2 (q.map (shiftSite delta))) (k + delta) =
      (Map.get (drain s1 q) k).map (shiftReport delta) := by
  rw [get_drain, get_drain, sitesOf_shift s1 s2 delta k q h]
  cases hs : sitesOf s1 q k with
  | nil => rfl
  | cons c rest =>
    have hc : c ∈ sitesOf s1 q k := by rw [hs]; exact List.mem_cons_self _ _
    have hcq : c ∈ q := ((mem_sitesOf _ _ _ c).mp hc).1
    simp only [List.map_cons]
    rw [h c hcq]
    cases resolve s1 c with
    | none => rfl
    | some fs =>
      simp only [Option.map_some', Option.some.injEq]
      have hk : (shiftSite delta c).opType = c.opType := rfl
      rw [hk, filter_kind_shift, firstReport_shift, foldl_bump_shift]

theorem mem_analyzeCalls_shift (s1 s2 : List (Int × funcScope)) (delta : Int)
    (q : List callContext) (h : ∀ c ∈ q, resolve s2 (shiftSite delta c) = resolve s1 c)
    (r : report) :
    r ∈ analyzeCalls s2 (q.map (shiftSite delta)) ↔
      ∃ r0 ∈ analyzeCalls s1 q, r = shiftReport delta r0 := by
  constructor
  · intro hr
    obtain ⟨hget, hcount⟩ := (mem_analyzeCalls _ _ r).mp hr
    have hk : r.opNo = r.opNo - delta + delta := by ring
    rw [hk, get_drain_shift s1 s2 delta (r.opNo - delta) q h] at hget
    cases hg : Map.get (drain s1 q) (r.opNo - delta) with
    | none => rw [hg] at hget; simp at hget
    | some r0 =>
      rw [hg] at hget
      simp only [Option.map_some', Option.some.injEq] at hget
      have hno := drain_entry_opNo s1 q _ r0 hg
      refine ⟨r0, (mem_analyzeCalls _ _ r0).mpr ⟨by rw [hno]; exact hg, ?_⟩, hget.symm⟩
      rw [← hget] at hcount
      exact hcount
  · rintro ⟨r0, hr0, hr⟩
    obtain ⟨hget, hcount⟩ := (mem_analyzeCalls _ _ r0).mp hr0
    subst hr
    refine (mem_analyzeCalls _ _ _).mpr ⟨?_, hcount⟩
    have hno : (shiftReport delta r0).opNo = r0.opNo + delta := rfl
    rw [hno, get_drain_shift s1 s2 delta r0.opNo q h, hget]
    rfl

theorem report_shift (delta : Int) (l : List report) :
    linter.report (l.map (shiftReport delta)) = linter.report l := by
  unfold linter.report
  rw [List.map_map]
  rfl

theorem nodup_of_pairwise_ltOp (l : List report) (h : l.Pairwise ltOp) : l.Nodup := by
  apply List.Pairwise.imp _ h
  intro a b hab heq
  unfold ltOp at hab
  rw [heq] at hab
  exact lt_irrefl _ hab

/-- Two strictly ascending lists of reports with the same members are equal. -/
theorem eq_of_strict_of_mem (l1 l2 : List report) (h1 : l1.Pairwise ltOp)
    (h2 : l2.Pairwise ltOp) (hmem : ∀ r, r ∈ l1 ↔ r ∈ l2) : l1 = l2 :=
  List.eq_of_perm_of_sorted
    ((List.perm_ext_iff_of_nodup (nodup_of_pairwise_ltOp l1 h1)
      (nodup_of_pairwise_ltOp l2 h2)).mpr hmem) h1 h2

/-- The resolution of the call sites of a walk repeated at a later counter. -/
theorem walk_resolve_shift (decls : List FuncDecl) (lrA lrFA lrB lrFB : linter) (delta : Int)
    (hbelowA : scopesBelow lrA) (hbelowB : scopesBelow lrB)
    (hwalkA : walk lrA decls = .ok lrFA) (hwalkB : walk lrB decls = .ok lrFB)
    (hdelta : lrB.opNo = lrA.opNo + delta) :
    ∀ c ∈ walkSites lrA.opNo decls,
      resolve lrFB.scopes (shiftSite delta c) = resolve lrFA.scopes c := by
  intro c hc
  obtain ⟨pre, d, post, hdecls, hcd⟩ := mem_walkSites decls lrA.opNo c hc
  subst hdecls
  have hscope := (declSites_range _ _ _ hcd).2.2
  have hA := walk_scope_eq pre d post lrA lrFA hbelowA hwalkA
  have hB := walk_scope_eq pre d post lrB lrFB hbelowB hwalkB
  apply resolve_congr_get
  · have hs : (shiftSite delta c).scope = counterAfter lrB.opNo pre := by
      rw [hdelta, counterAfter_shift]
      simp [shiftSite, hscope]
    rw [hs, hB, hscope, hA]
  · rfl

/-- The diagnostics of a pass repeated at a later counter. -/
theorem pass_repeat (decls : List FuncDecl) (lrA lrFA lrB lrFB : linter)
    (hstartA : passStart lrA) (hstartB : passStart lrB)
    (hrangeA : counterInRange lrA) (hrangeB : counterInRange lrB)
    (hwalkA : walk lrA decls = .ok lrFA) (hwalkB : walk lrB decls = .ok lrFB) :
    linter.report ((analyzeCalls lrFB.scopes lrFB.calls).insertionSort opNoLe) =
      linter.report ((analyzeCalls lrFA.scopes lrFA.calls).insertionSort opNoLe) := by
  have hdelta : lrB.opNo = lrA.opNo + (lrB.opNo - lrA.opNo) := by ring
  have hres := walk_resolve_shift decls lrA lrFA lrB lrFB (lrB.opNo - lrA.opNo)
    hstartA.2 hstartB.2 hwalkA hwalkB hdelta
  have hcA := walk_calls lrA lrFA decls hstartA hwalkA
  have hcB : lrFB.calls = (walkSites lrA.opNo decls).map (shiftSite (lrB.opNo - lrA.opNo)) := by
    rw [walk_calls lrB lrFB decls hstartB hwalkB, ← walkSites_shift, ← hdelta]
  have hinA := pass_reports_in_range lrA lrFA decls hstartA hrangeA hwalkA
  have hinB := pass_reports_in_range lrB lrFB decls hstartB hrangeB hwalkB
  have hsA := sort_strict _ hinA (nodup_opNo_analyzeCalls lrFA.scopes lrFA.calls)
  have hsB := sort_strict _ hinB (nodup_opNo_analyzeCalls lrFB.scopes lrFB.calls)
  have hsA2 : (((analyzeCalls lrFA.scopes lrFA.calls).insertionSort opNoLe).map
      (shiftReport (lrB.opNo - lrA.opNo))).Pairwise ltOp := by
    apply List.pairwise_map.mpr
    apply List.Pairwise.imp _ hsA
    intro a b hab
    unfold ltOp at *
    simp only [shiftReport]
    omega
  have heq : (analyzeCalls lrFB.scopes lrFB.calls).insertionSort opNoLe =
      ((analyzeCalls lrFA.scopes lrFA.calls).insertionSort opNoLe).map
        (shiftReport (lrB.opNo - lrA.opNo)) := by
    apply eq_of_strict_of_mem _ _ hsB hsA2
    intro r
    rw [List.mem_insertionSort, hcB, hcA,
      mem_analyzeCalls_shift lrFA.scopes lrFB.scopes (lrB.opNo - lrA.opNo)
        (walkSites lrA.opNo decls) hres r]
    simp only [List.mem_map, List.mem_insertionSort]
    constructor
    · rintro ⟨r0, hr0, hr⟩
      exact ⟨r0, hr0, hr.symm⟩
    · rintro ⟨r0, hr0, hr⟩
      exact ⟨r0, hr0, hr.symm⟩
  rw [heq, report_shift]

theorem hasUnnamedField_of_not_named (d : FuncDecl) (h : namedReceivers d = false) :
    hasUnnamedField d := by
  unfold namedReceivers at h
  unfold hasUnnamedField
  cases hrecv : d.recv with
  | none => rw [hrecv] at h; simp at h
  | some fields =>
    rw [hrecv] at h
    simp only [List.all_eq_false] at h
    obtain ⟨f, hf, hnames⟩ := h
    refine ⟨fields, rfl, f, hf, ?_⟩
    cases hn : f.names with
    | nil => rfl
    | cons a rest => rw [hn] at hnames; simp at hnames


/-- A new linter is at the start of a pass, and `run` leaves a state at the
start of a pass: the conditions `passStart` and `counterInRange` hold in every
state from which a pass begins. -/
theorem passStart_reachable :
    (passStart NewLinter ∧ counterInRange NewLinter) ∧
    ∀ (lr lr2 : linter) (decls : List FuncDecl) (ds : List Diagnostic),
      passStart lr → counterInRange lr → run lr decls = .ok (ds, lr2) →
      passStart lr2 ∧ counterInRange lr2 := by
  refine ⟨⟨by decide, by decide⟩, ?_⟩
  intro lr lr2 decls ds hstart hrange hrun
  unfold run at hrun
  cases hwalk : walk lr decls with
  | error e => rw [hwalk] at hrun; simp at hrun
  | ok lrF =>
    rw [hwalk] at hrun
    simp only [Except.ok.injEq, Prod.mk.injEq] at hrun
    obtain ⟨-, hlr2⟩ := hrun
    obtain ⟨hoF, -, hinvF, -⟩ := walk_frame decls lr lrF hstart.2 hwalk
    have hmax := walk_le_max decls lr lrF hrange.2 hwalk
    have hle := counterAfter_le decls lr.opNo
    have h0 := hrange.1
    subst hlr2
    refine ⟨⟨rfl, hinvF⟩, ?_, hmax⟩
    show 0 ≤ lrF.opNo
    omega

/-! ## The claims -/

/-- C1: `analyzeCalls` returns at most one report per operation id; it returns
a report for operation id `k` exactly when the count of `k` is at least 2, the
count being 1 for the first resolving call site of `k` plus 1 for every later
resolving call site of `k` of the same kind as the first; call sites that do not
resolve can be removed from the queue without changing the result. -/
theorem C1_analyzeCalls_threshold (scopes : List (Int × funcScope)) (q : List callContext) :
    ((analyzeCalls scopes q).map report.opNo).Nodup ∧
    (∀ k : Int, (∃ r ∈ analyzeCalls scopes q, r.opNo = k) ↔ 2 ≤ specCount scopes q k) ∧
    analyzeCalls scopes (q.filter fun c => (resolve scopes c).isSome) = analyzeCalls scopes q := by
  refine ⟨nodup_opNo_analyzeCalls scopes q, ?_, ?_⟩
  · intro k
    constructor
    · rintro ⟨r, hr, hk⟩
      obtain ⟨-, -, -, -, -, -, -, -, hcount, -, -⟩ := analyzeCalls_report scopes q r hr
      have h2 := ((mem_analyzeCalls scopes q r).mp hr).2
      rw [specCount_eq, ← hk, ← hcount]
      exact h2
    · exact analyzeCalls_complete scopes q k
  · unfold analyzeCalls drain
    have h := foldl_analyzeStep_filter scopes q []
    unfold contributes at h
    rw [h]

/-- C2 as stated fails: the fixture function `fib` has the binary expression
`fn(n-1) + a(n-2)` with two self-calls, yet a pass over `fib` and a method with an
unnamed receiver aborts and emits no diagnostic. -/
theorem C2_counterexample :
    (opTyp.fnCallInBinOp, Fixture.fibSum) ∈ Fixture.fib.ops ∧
    (selfCalls Fixture.fibScope Fixture.fibSum).length = 2 ∧
    walk NewLinter [Fixture.fib, Examples.unnamedReceiver] = .error Err.noFieldNames ∧
    diagnostics NewLinter [Fixture.fib, Examples.unnamedReceiver] = none := by
  refine ⟨?_, by decide, by rfl, by rfl⟩
  have h : Fixture.fib.ops =
      Fixture.fib.ops.take 3 ++ (opTyp.fnCallInBinOp, Fixture.fibSum) :: Fixture.fib.ops.drop 4 := rfl
  rw [h]
  exact List.mem_append_right _ (List.mem_cons_self _ _)

/-- C2, amended: in a pass that starts with an empty queue, meets no receiver
field without a name and has room in the operation counter, the walk does not
abort, the scope of a declaration carries its canonical name, and every binary
or call expression of the declaration whose subtree holds at least two
self-calls (callee name equal to the name of that scope or a key of its alias
table) has exactly one report, hence one diagnostic: the message names the
canonical name and the position is the least start among those self-calls. -/
theorem C2_one_diagnostic_per_operation (lr : linter) (pre : List FuncDecl) (d : FuncDecl)
    (post : List FuncDecl) (o1 o2 : List (opTyp × Node)) (kind : opTyp) (e : Node)
    (hstart : passStart lr)
    (hnamed : ∀ d2 ∈ pre ++ d :: post, namedReceivers d2 = true)
    (hroom : counterAfter lr.opNo (pre ++ d :: post) ≤ maxInt64)
    (hop : d.ops = o1 ++ (kind, e) :: o2) :
    ∃ lrF rs, walk lr (pre ++ d :: post) = .ok lrF ∧
      sortedReports lr (pre ++ d :: post) = .ok rs ∧
      diagnostics lr (pre ++ d :: post) = some (linter.report rs) ∧
      (Map.get lrF.scopes (counterAfter lr.opNo pre)).map funcScope.name = canonicalName d ∧
      ∀ fs, Map.get lrF.scopes (counterAfter lr.opNo pre) = some fs →
        2 ≤ (selfCalls fs e).length →
        ∃ r, rs.filter (fun x => decide (x.opNo =
            counterAfter lr.opNo pre + (d.assigns.length : Int) + (o1.length : Int) + 1)) = [r] ∧
          linter.report [r] = [{ pos := r.start, message := messageFor fs.name }] ∧
          (∃ call ∈ selfCalls fs e, r.start = call.startPos) ∧
          ∀ call ∈ selfCalls fs e, r.start ≤ call.startPos := by
  obtain ⟨lrF, hwalk⟩ := walk_total _ lr hnamed hroom
  obtain ⟨hsorted, hdiag⟩ := sortedReports_of_walk lr lrF _ hwalk
  obtain ⟨hname, -⟩ := walk_scope pre d post lr lrF hstart.2 hwalk
  refine ⟨lrF, _, hwalk, hsorted, hdiag, hname, ?_⟩
  intro fs hscope hself
  obtain ⟨r, hr, hk, hfn, -, -, hmem, hle⟩ :=
    pass_report lr lrF pre d post o1 o2 kind e fs hstart hwalk hop hscope hself
  refine ⟨r, ?_, ?_, hmem, hle⟩
  · rw [← hk]
    exact sorted_filter_singleton _ _ r hr
  · simp [linter.report, messageFor, hfn]

/-- Witness of C2: the call `cf(cf(i-1, j), cf(k, n-1))` of the fixture function
`complexFunc`, the seventh operation of the second declaration. -/
theorem C2_one_diagnostic_per_operation_witness :
    ∃ lrF rs, walk NewLinter ([Fixture.fib] ++ Fixture.complexFunc ::
        [Fixture.methodA, Fixture.methodB, Fixture.funcA]) = .ok lrF ∧
      sortedReports NewLinter ([Fixture.fib] ++ Fixture.complexFunc ::
        [Fixture.methodA, Fixture.methodB, Fixture.funcA]) = .ok rs ∧
      diagnostics NewLinter ([Fixture.fib] ++ Fixture.complexFunc ::
        [Fixture.methodA, Fixture.methodB, Fixture.funcA]) = some (linter.report rs) ∧
      (Map.get lrF.scopes (counterAfter NewLinter.opNo [Fixture.fib])).map funcScope.name =
        canonicalName Fixture.complexFunc ∧
      ∀ fs, Map.get lrF.scopes (counterAfter NewLinter.opNo [Fixture.fib]) = some fs →
        2 ≤ (selfCalls fs Fixture.outerCall).length →
        ∃ r, rs.filter (fun x => decide (x.opNo =
            counterAfter NewLinter.opNo [Fixture.fib] +
              (Fixture.complexFunc.assigns.length : Int) +
              ((Fixture.complexFunc.ops.take 6).length : Int) + 1)) = [r] ∧
          linter.report [r] = [{ pos := r.start, message := messageFor fs.name }] ∧
          (∃ call ∈ selfCalls fs Fixture.outerCall, r.start = call.startPos) ∧
          ∀ call ∈ selfCalls fs Fixture.outerCall, r.start ≤ call.startPos :=
  C2_one_diagnostic_per_operation NewLinter [Fixture.fib] Fixture.complexFunc
    [Fixture.methodA, Fixture.methodB, Fixture.funcA]
    (Fixture.complexFunc.ops.take 6) (Fixture.complexFunc.ops.drop 7)
    opTyp.fnCallInArgs Fixture.outerCall
    (by decide) (by decide) (by decide) (by rfl)

/-- C3 as stated fails: in `func f(n int) int { return f(f(n)) }` the argument
list of each call expression holds at most one self-call and there is no binary
expression, yet the pass reports tree recursion in `f`: the group of a call
expression counts the call itself. -/
theorem C3_counterexample :
    canonicalName Examples.nested = some Examples.plainF.name ∧
    (∀ op ∈ Examples.nested.ops, (selfCallsInArgs Examples.plainF op.2).length ≤ 1) ∧
    (selfCalls Examples.plainF Examples.nestedCall).length = 2 ∧
    diagnostics NewLinter [Examples.nested] =
      some [{ pos := 30, message := "tree recursion in call 'f'" }] := by
  refine ⟨by rfl, by decide, by decide, by decide⟩

/-- C3, amended: in a pass that starts with an empty queue, when every operation
of a declaration (each binary expression and each call expression, the call
itself included) holds at most one self-call in its subtree, no report of the
pass has an operation id of that declaration, so no diagnostic is emitted for
it. -/
theorem C3_no_diagnostic_below_two_self_calls (lr : linter) (pre : List FuncDecl)
    (d : FuncDecl) (post : List FuncDecl) (rs : List report) (r : report)
    (hstart : passStart lr)
    (hfew : ∀ lrF fs, walk lr (pre ++ d :: post) = .ok lrF →
      Map.get lrF.scopes (counterAfter lr.opNo pre) = some fs →
      ∀ op ∈ d.ops, (selfCalls fs op.2).length ≤ 1)
    (hs : sortedReports lr (pre ++ d :: post) = .ok rs) (hr : r ∈ rs) :
    ¬ (counterAfter lr.opNo pre ≤ r.opNo ∧ r.opNo < counterAfter lr.opNo pre + d.ticks) := by
  unfold sortedReports at hs
  cases hwalk : walk lr (pre ++ d :: post) with
  | error e => rw [hwalk] at hs; simp at hs
  | ok lrF =>
    rw [hwalk] at hs
    simp only [Except.ok.injEq] at hs
    subst hs
    rintro ⟨h1, h2⟩
    have hr2 := (mem_insertionSort_iff _ r).mp hr
    obtain ⟨fs, o1, kind, e, o2, hscope, hop, -, -, -, hself⟩ :=
      pass_report_origin lr lrF pre d post r hstart hwalk hr2 h1 h2
    have hle := hfew lrF fs hwalk hscope (kind, e)
      (by rw [hop]; exact List.mem_append_right _ (List.mem_cons_self _ _))
    simp only at hle
    omega

/-- Witness of C3: the fixture function `A`, the last declaration, has no
self-call; the report of `t.B`, the last one of the pass, is not one of its
reports. -/
theorem C3_no_diagnostic_below_two_self_calls_witness :
    ¬ (counterAfter NewLinter.opNo [Fixture.fib, Fixture.complexFunc, Fixture.methodA,
          Fixture.methodB] ≤ (32 : Int) ∧
        (32 : Int) < counterAfter NewLinter.opNo [Fixture.fib, Fixture.complexFunc,
          Fixture.methodA, Fixture.methodB] + Fixture.funcA.ticks) :=
  C3_no_diagnostic_below_two_self_calls NewLinter
    [Fixture.fib, Fixture.complexFunc, Fixture.methodA, Fixture.methodB] Fixture.funcA []
    [{ opType := .fnCallInBinOp, start := 104, count := 2, opNo := 6, funcName := "fib" },
     { opType := .fnCallInArgs, start := 280, count := 3, opNo := 20, funcName := "complexFunc" },
     { opType := .fnCallInBinOp, start := 433, count := 2, opNo := 27, funcName := "t.A" },
     { opType := .fnCallInBinOp, start := 523, count := 2, opNo := 32, funcName := "t.B" }]
    { opType := .fnCallInBinOp, start := 523, count := 2, opNo := 32, funcName := "t.B" }
    (by decide)
    (by
      intro lrF fs hwalk hfs
      have hfinal : walk NewLinter ([Fixture.fib, Fixture.complexFunc, Fixture.methodA,
          Fixture.methodB] ++ Fixture.funcA :: []) = .ok Fixture.final := by rfl
      rw [hfinal] at hwalk
      simp only [Except.ok.injEq] at hwalk
      subst hwalk
      have h2 : Map.get Fixture.final.scopes (counterAfter NewLinter.opNo
          [Fixture.fib, Fixture.complexFunc, Fixture.methodA, Fixture.methodB]) =
          some { name := "A", aliases := [] } := by rfl
      rw [h2] at hfs
      have h : fs = { name := "A", aliases := [] } := (Option.some.inj hfs).symm
      subst h
      decide)
    (by rfl) (by decide)

/-- C4: the start of every report returned by `analyzeCalls` is the least start
position among the call sites counted in it: it is the start of one of them and
is below or equal to the start of each. -/
theorem C4_report_start_is_minimum (scopes : List (Int × funcScope)) (q : List callContext)
    (r : report) (hr : r ∈ analyzeCalls scopes q) :
    (∃ c ∈ counted scopes q r.opNo, r.start = c.start) ∧
    ∀ c ∈ counted scopes q r.opNo, r.start ≤ c.start := by
  obtain ⟨-, -, -, -, -, -, -, -, -, hmem, hle⟩ := analyzeCalls_report scopes q r hr
  exact ⟨hmem, hle⟩

/-- Witness of C4: a queue whose earliest call site is neither first nor last. -/
theorem C4_report_start_is_minimum_witness :
    ({ opType := .fnCallInBinOp, start := 10, count := 3, opNo := 5, funcName := "f" } : report)
        ∈ analyzeCalls Examples.tableG Examples.unorderedQueue ∧
    ((∃ c ∈ counted Examples.tableG Examples.unorderedQueue 5, (10 : Int) = c.start) ∧
      ∀ c ∈ counted Examples.tableG Examples.unorderedQueue 5, (10 : Int) ≤ c.start) :=
  ⟨by decide,
   C4_report_start_is_minimum Examples.tableG Examples.unorderedQueue
     { opType := .fnCallInBinOp, start := 10, count := 3, opNo := 5, funcName := "f" }
     (by decide)⟩

/-- C5: a call site resolves exactly when its scope id is known and its
candidate name is the canonical name or a key of the alias table; two scope
tables that agree on names and alias keys give the same reports on every queue,
whatever the recorded origins; and `h := g; return h(1) + h(2)` inside `f` is
reported as tree recursion in `f`. -/
theorem C5_resolution_ignores_origins :
    (∀ (scopes : List (Int × funcScope)) (c : callContext),
      (resolve scopes c).isSome = true ↔
        ∃ fs, Map.get scopes c.scope = some fs ∧
          (c.boundedFuncAlias = fs.name ∨ c.boundedFuncAlias ∈ Map.keys fs.aliases)) ∧
    (∀ (t1 t2 : List (Int × funcScope)) (q : List callContext),
      sameNames t1 t2 → analyzeCalls t1 q = analyzeCalls t2 q) ∧
    diagnostics NewLinter [Examples.aliasOfOther] =
      some [{ pos := 30, message := "tree recursion in call 'f'" }] := by
  refine ⟨?_, ?_, by decide⟩
  · intro scopes c
    exact contributes_iff scopes c
  · intro t1 t2 q h
    exact analyzeCalls_congr t1 t2 h q

/-- Witness of C5: the tables `tableG` and `tableF` differ only in the origins
of `h` and give the same reports. -/
theorem C5_resolution_ignores_origins_witness :
    sameNames Examples.tableG Examples.tableF ∧
    analyzeCalls Examples.tableG Examples.unorderedQueue =
      analyzeCalls Examples.tableF Examples.unorderedQueue := by
  have hs : sameNames Examples.tableG Examples.tableF := by
    intro id
    by_cases h0 : (0 : Int) = id
    · subst h0
      refine ⟨by decide, ?_⟩
      intro key
      by_cases hk : "h" = key
      · subst hk; decide
      · simp [Examples.tableG, Examples.tableF, Map.get, hk]
    · simp [Examples.tableG, Examples.tableF, Map.get, h0]
  exact ⟨hs, C5_resolution_ignores_origins.2.1 _ _ _ hs⟩

/-- C6 as stated fails: `func f() int { x := f; y := x; return y(1) + x(2) }`
holds both assignments and the binary expression, yet a pass over it and a
method with an unnamed receiver aborts and emits no diagnostic. -/
theorem C6_counterexample :
    Node.assign [.ident "x"] [.ident "f"] ∈ Examples.chain.nodes ∧
    Node.assign [.ident "y"] [.ident "x"] ∈ Examples.chain.nodes ∧
    Examples.chainSum ∈ Examples.chain.nodes ∧
    diagnostics NewLinter [Examples.chain] =
      some [{ pos := 40, message := "tree recursion in call 'f'" }] ∧
    diagnostics NewLinter [Examples.chain, Examples.unnamedReceiver] = none := by
  refine ⟨?_, ?_, ?_, by decide, by rfl⟩
  · exact List.getElem?_mem (show Examples.chain.nodes[3]? = some _ from rfl)
  · exact List.getElem?_mem (show Examples.chain.nodes[6]? = some _ from rfl)
  · exact List.getElem?_mem (show Examples.chain.nodes[10]? = some _ from rfl)

/-- C6, amended: in a pass that starts with an empty queue, meets no receiver
field without a name and has room in the operation counter, a declaration with
a canonical name whose body holds an assignment of a name (an identifier such
as the function itself, or a selector with identifier receiver) to `x`, the
assignment `y := x` and a binary expression of two calls through `x` or `y` is
reported: both names are alias keys of its scope, and a report with the
canonical name starts at or before both calls. -/
theorem C6_alias_chain_reported (lr : linter) (pre : List FuncDecl) (d : FuncDecl)
    (post : List FuncDecl) (name x y u v : String) (src : Node) (a1 a2 : List Node)
    (p1 e1 p2 e2 : Int)
    (hstart : passStart lr)
    (hnamed : ∀ d2 ∈ pre ++ d :: post, namedReceivers d2 = true)
    (hroom : counterAfter lr.opNo (pre ++ d :: post) ≤ maxInt64)
    (hname : canonicalName d = some name) (hsrc : isNameExpr src = true)
    (hx : Node.assign [.ident x] [src] ∈ d.nodes)
    (hy : Node.assign [.ident y] [.ident x] ∈ d.nodes)
    (hbin : Node.binary (.call (.ident u) a1 p1 e1) (.call (.ident v) a2 p2 e2) ∈ d.nodes)
    (hu : u = x ∨ u = y) (hv : v = x ∨ v = y) :
    ∃ lrF fs rs r, walk lr (pre ++ d :: post) = .ok lrF ∧
      Map.get lrF.scopes (counterAfter lr.opNo pre) = some fs ∧
      x ∈ Map.keys fs.aliases ∧ y ∈ Map.keys fs.aliases ∧
      sortedReports lr (pre ++ d :: post) = .ok rs ∧
      diagnostics lr (pre ++ d :: post) = some (linter.report rs) ∧
      r ∈ rs ∧ linter.report [r] = [{ pos := r.start, message := messageFor name }] ∧
      r.start ≤ p1 ∧ r.start ≤ p2 := by
  obtain ⟨lrF, hwalk⟩ := walk_total _ lr hnamed hroom
  obtain ⟨fs, hfs, hfn, hxk⟩ := walk_alias_key lr lrF pre d post name x src hstart.2 hwalk
    hname hsrc hx
  obtain ⟨fs2, hfs2, -, hyk⟩ := walk_alias_key lr lrF pre d post name y (.ident x) hstart.2 hwalk
    hname rfl hy
  rw [hfs] at hfs2
  simp only [Option.some.injEq] at hfs2
  subst hfs2
  have huk : u ∈ Map.keys fs.aliases := by rcases hu with h | h <;> rw [h] <;> assumption
  have hvk : v ∈ Map.keys fs.aliases := by rcases hv with h | h <;> rw [h] <;> assumption
  obtain ⟨hm1, hm2, hlen⟩ := selfCalls_binary fs u v a1 a2 p1 e1 p2 e2 huk hvk
  have hop : (opTyp.fnCallInBinOp,
      Node.binary (.call (.ident u) a1 p1 e1) (.call (.ident v) a2 p2 e2)) ∈ d.ops := by
    unfold FuncDecl.ops
    exact List.mem_append_left _ (List.mem_map_of_mem _ (List.mem_filter.mpr ⟨hbin, rfl⟩))
  obtain ⟨o1, o2, hops⟩ := List.append_of_mem hop
  obtain ⟨r, hr, -, hrn, -, -, -, hle⟩ :=
    pass_report lr lrF pre d post o1 o2 _ _ fs hstart hwalk hops hfs hlen
  obtain ⟨hsorted, hdiag⟩ := sortedReports_of_walk lr lrF _ hwalk
  refine ⟨lrF, fs, _, r, hwalk, hfs, hxk, hyk, hsorted, hdiag,
    (mem_insertionSort_iff _ r).mpr hr, ?_, hle _ hm1, hle _ hm2⟩
  simp [linter.report, messageFor, hrn, hfn]

/-- Witness of C6: the fixture method `T.A` with `a := t.A; b := a` and
`b(2) + a(2+1)`. -/
theorem C6_alias_chain_reported_witness :
    ∃ lrF fs rs r, walk NewLinter ([Fixture.fib, Fixture.complexFunc] ++ Fixture.methodA ::
        [Fixture.methodB, Fixture.funcA]) = .ok lrF ∧
      Map.get lrF.scopes (counterAfter NewLinter.opNo [Fixture.fib, Fixture.complexFunc]) =
        some fs ∧
      "a" ∈ Map.keys fs.aliases ∧ "b" ∈ Map.keys fs.aliases ∧
      sortedReports NewLinter ([Fixture.fib, Fixture.complexFunc] ++ Fixture.methodA ::
        [Fixture.methodB, Fixture.funcA]) = .ok rs ∧
      diagnostics NewLinter ([Fixture.fib, Fixture.complexFunc] ++ Fixture.methodA ::
        [Fixture.methodB, Fixture.funcA]) = some (linter.report rs) ∧
      r ∈ rs ∧ linter.report [r] = [{ pos := r.start, message := messageFor "t.A" }] ∧
      r.start ≤ 433 ∧ r.start ≤ 440 :=
  C6_alias_chain_reported NewLinter [Fixture.fib, Fixture.complexFunc]
    Fixture.methodA [Fixture.methodB, Fixture.funcA] "t.A" "a" "b" "b" "a"
    (.selector (.ident "t") "A") [Fixture.lit] [.binary Fixture.lit Fixture.lit] 433 437 440 446
    (by decide) (by decide) (by decide) (by rfl) (by rfl)
    (List.getElem?_mem (show Fixture.methodA.nodes[12]? = some _ from rfl))
    (List.getElem?_mem (show Fixture.methodA.nodes[17]? = some _ from rfl))
    (List.getElem?_mem (show Fixture.methodA.nodes[24]? = some _ from rfl))
    (Or.inr rfl) (Or.inl rfl)

/-- C7: every report of a pass that starts with an empty queue carries the
canonical name of a declaration of the pass; the call sites counted in the
report all lie in the scope of that declaration, and the name registered for
that scope is the name of the report. -/
theorem C7_report_name_is_canonical (lr : linter) (decls : List FuncDecl) (rs : List report)
    (r : report) (hstart : passStart lr) (hs : sortedReports lr decls = .ok rs) (hr : r ∈ rs) :
    ∃ lrF pre d post, walk lr decls = .ok lrF ∧ decls = pre ++ d :: post ∧
      canonicalName d = some r.funcName ∧
      ∀ c ∈ counted lrF.scopes lrF.calls r.opNo,
        c.scope = counterAfter lr.opNo pre ∧
        (Map.get lrF.scopes c.scope).map funcScope.name = some r.funcName := by
  unfold sortedReports at hs
  cases hwalk : walk lr decls with
  | error e => rw [hwalk] at hs; simp at hs
  | ok lrF =>
    rw [hwalk] at hs
    simp only [Except.ok.injEq] at hs
    subst hs
    have hr2 := (mem_insertionSort_iff _ r).mp hr
    obtain ⟨hempty, hinv⟩ := hstart
    obtain ⟨-, hcalls, -, -⟩ := walk_frame _ lr lrF hinv hwalk
    obtain ⟨c0, rest, -, hsites, -, -, -, -, -, -, -⟩ := analyzeCalls_report _ _ r hr2
    have hc0 : c0 ∈ sitesOf lrF.scopes lrF.calls r.opNo := by
      rw [hsites]; exact List.mem_cons_self _ _
    obtain ⟨hc0q, hc0no, -⟩ := (mem_sitesOf _ _ _ c0).mp hc0
    rw [hcalls, hempty, List.nil_append] at hc0q
    obtain ⟨pre, d, post, hdecls, hc0d⟩ := mem_walkSites _ _ _ hc0q
    subst hdecls
    obtain ⟨hlo, hhi, -⟩ := declSites_range _ _ _ hc0d
    rw [hc0no] at hlo hhi
    obtain ⟨fs, -, -, -, -, hscope, -, -, hfn, -, -⟩ :=
      pass_report_origin lr lrF pre d post r ⟨hempty, hinv⟩ hwalk hr2 (le_of_lt hlo) hhi
    obtain ⟨hname, -⟩ := walk_scope pre d post lr lrF hinv hwalk
    refine ⟨lrF, pre, d, post, rfl, rfl, ?_, ?_⟩
    · rw [← hname, hscope, hfn]; rfl
    · intro c hc
      obtain ⟨hcq, hcno, -⟩ := (mem_sitesOf _ _ _ c).mp (counted_subset _ _ _ c hc)
      have hf : c ∈ lrF.calls.filter (fun x => decide (x.opNo = r.opNo)) :=
        List.mem_filter.mpr ⟨hcq, by simpa using hcno⟩
      rw [hcalls, hempty, List.nil_append,
        walkSites_filter pre d post lr.opNo r.opNo (le_of_lt hlo) hhi] at hf
      have hcs := (declSites_range _ _ _ (List.mem_filter.mp hf).1).2.2
      refine ⟨hcs, ?_⟩
      rw [hcs, hscope, hfn]; rfl

/-- Witness of C7: the report of the fixture function `fib` counts the calls
made through the aliases `fn` and `a` and carries the name `fib`. -/
theorem C7_report_name_is_canonical_witness :
    (counted Fixture.final.scopes Fixture.final.calls 6).map callContext.boundedFuncAlias =
      ["fn", "a"] ∧
    ∃ lrF pre d post, walk NewLinter Fixture.decls = .ok lrF ∧
      Fixture.decls = pre ++ d :: post ∧ canonicalName d = some "fib" ∧
      ∀ c ∈ counted lrF.scopes lrF.calls 6,
        c.scope = counterAfter NewLinter.opNo pre ∧
        (Map.get lrF.scopes c.scope).map funcScope.name = some "fib" :=
  ⟨by decide,
   C7_report_name_is_canonical NewLinter Fixture.decls
     [{ opType := .fnCallInBinOp, start := 104, count := 2, opNo := 6, funcName := "fib" },
      { opType := .fnCallInArgs, start := 280, count := 3, opNo := 20, funcName := "complexFunc" },
      { opType := .fnCallInBinOp, start := 433, count := 2, opNo := 27, funcName := "t.A" },
      { opType := .fnCallInBinOp, start := 523, count := 2, opNo := 32, funcName := "t.B" }]
     { opType := .fnCallInBinOp, start := 104, count := 2, opNo := 6, funcName := "fib" }
     (by decide) (by rfl) (by decide)⟩

/-- C8: on a scope id that is not registered yet (as for every call the walker
makes), `handleFuncDeclaration` registers the declared name of a function and
`<first name of the first receiver field>.<name>` of a method whose receiver
fields all carry names; a call `r.M(..)` recorded in that scope then resolves
against it; the fixture methods are reported as `t.A` and `t.B`. -/
theorem C8_canonical_name_registered :
    (∀ (lr : linter) (d : FuncDecl) (scope : Int),
      Map.get lr.scopes scope = none → d.recv = none →
      handleFuncDeclaration lr d scope =
        ({ lr with scopes := Map.set lr.scopes scope { name := d.name, aliases := [] } }, none)) ∧
    (∀ (lr : linter) (d : FuncDecl) (scope : Int) (field : Field) (rest : List Field)
      (first : String) (more : List String),
      Map.get lr.scopes scope = none → d.recv = some (field :: rest) →
      field.names = first :: more → (∀ f ∈ rest, f.names ≠ []) →
      handleFuncDeclaration lr d scope =
        ({ lr with scopes := Map.set lr.scopes scope
                     { name := first ++ "." ++ d.name, aliases := [] } }, none) ∧
      ∀ (k : Int) (op : opTyp) (args : List Node) (pos endPos : Int),
        ∃ c, callSite k scope op (.call (.selector (.ident first) d.name) args pos endPos) =
            some c ∧
          (resolve (handleFuncDeclaration lr d scope).1.scopes c).map funcScope.name =
            some (first ++ "." ++ d.name)) ∧
    diagnostics NewLinter [Fixture.methodA, Fixture.methodB] =
      some [{ pos := 433, message := "tree recursion in call 't.A'" },
            { pos := 523, message := "tree recursion in call 't.B'" }] := by
  refine ⟨?_, ?_, by decide⟩
  · intro lr d scope hfresh hrecv
    simp [handleFuncDeclaration, hrecv, registerFunc_fresh lr scope d.name hfresh]
  · intro lr d scope field rest first more hfresh hrecv hnames hrest
    have hreg := registerFunc_fresh lr scope (first ++ "." ++ d.name) hfresh
    have hknown : Map.get (registerFunc lr scope (first ++ "." ++ d.name)).scopes scope =
        some { name := first ++ "." ++ d.name, aliases := [] } := by
      rw [hreg]; exact Map.get_set_self _ _ _
    have h1 := registerReceivers_known scope d.name rest _ _ hknown
    have h2 := registerReceivers_named scope d.name rest
      (registerFunc lr scope (first ++ "." ++ d.name)) hrest
    have hres : handleFuncDeclaration lr d scope =
        ({ lr with scopes := Map.set lr.scopes scope
                     { name := first ++ "." ++ d.name, aliases := [] } }, none) := by
      simp only [handleFuncDeclaration, hrecv, registerReceivers, hnames]
      rw [← hreg]
      exact Prod.ext h1 h2
    refine ⟨hres, ?_⟩
    intro k op args pos endPos
    refine ⟨{ opNo := k, scope := scope, opType := op,
              boundedFuncAlias := first ++ "." ++ d.name, start := pos, endPos := endPos },
      by simp [callSite, calleeName, getFullSelectorName], ?_⟩
    rw [hres]
    simp [resolve, Map.get_set_self]

/-- Witness of C8: the fixture method `T.A` with receiver `t`, registered by a
new linter under scope id 0. -/
theorem C8_canonical_name_registered_witness :
    handleFuncDeclaration NewLinter Fixture.methodA 0 =
      ({ NewLinter with scopes := Map.set NewLinter.scopes 0
                          { name := "t" ++ "." ++ Fixture.methodA.name, aliases := [] } }, none) :=
  (C8_canonical_name_registered.2.1 NewLinter Fixture.methodA 0
    { names := ["t"], typ := .ident "T" } [] "t" [] rfl rfl rfl (by simp)).1

/-- C9: at the maximal counter `incOp` and `preorderNestedCall` fail and leave
the state unchanged, but `handleAssignmentExpression` never returns the overflow
error: at the exhausted state it returns no error and registers the alias. -/
theorem C9_assignment_tick_swallows_overflow :
    (∀ lr : linter, lr.opNo = maxInt64 →
      incOp lr = (lr, some Err.operationsLimit) ∧
      ∀ (c : Node) (scope : Int) (op : opTyp),
        preorderNestedCall lr c scope op = (lr, some Err.operationsLimit)) ∧
    (∀ (lr : linter) (c : Node) (scope : Int),
      (handleAssignmentExpression lr c scope).2 ≠ some Err.operationsLimit) ∧
    handleAssignmentExpression Examples.exhausted (.assign [.ident "x"] [.ident "f"]) 0 =
      ({ Examples.exhausted with scopes := [(0, { name := "f", aliases := [("x", ["f"])] })] },
        none) := by
  refine ⟨?_, ?_, by decide⟩
  · intro lr h
    refine ⟨by simp [incOp, h], ?_⟩
    intro c scope op
    simp [preorderNestedCall, incOp, h]
  · intro lr c scope
    unfold handleAssignmentExpression
    cases c with
    | assign lhs rhs =>
      simp only
      split
      · simp
      · rcases assignPairs_error (incOp lr).1 scope lhs rhs with h | h <;> simp [h]
    | _ => simp

/-- Witness of C9: the exhausted state of the example. -/
theorem C9_assignment_tick_swallows_overflow_witness :
    Examples.exhausted.opNo = maxInt64 ∧
    incOp Examples.exhausted = (Examples.exhausted, some Err.operationsLimit) :=
  ⟨rfl, (C9_assignment_tick_swallows_overflow.1 Examples.exhausted rfl).1⟩

/-- C10: in `x, y := a.b.c, f` the selector pair ends the loop: the statement
returns `ErrNoIdent`, the pair `y := f` after it is not captured, and a function
calling `y` twice is not reported, while with the pairs swapped the alias `y` is
captured and the function is reported. -/
theorem C10_selector_pair_stops_capture :
    handleAssignmentExpression Examples.inF Examples.assignAfterSelector 0 =
      ({ Examples.inF with opNo := 1 }, some Err.noIdent) ∧
    handleAssignmentExpression Examples.inF Examples.assignBeforeSelector 0 =
      ({ Examples.inF with opNo := 1,
                           scopes := [(0, { name := "f", aliases := [("y", ["f"])] })] },
        some Err.noIdent) ∧
    diagnostics NewLinter [Examples.lostAlias] = some [] ∧
    diagnostics NewLinter [Examples.keptAlias] =
      some [{ pos := 40, message := "tree recursion in call 'f'" }] := by
  refine ⟨by decide, by decide, by decide, by decide⟩

/-- C11: for an assignment statement with more left-hand than right-hand
expressions `handleAssignmentExpression` returns no error and leaves the scope
table (every canonical name and alias table) and the queue as they were. -/
theorem C11_unpacking_registers_nothing (lr : linter) (lhs rhs : List Node) (scope : Int)
    (h : lhs.length > rhs.length) :
    (handleAssignmentExpression lr (.assign lhs rhs) scope).2 = none ∧
    (handleAssignmentExpression lr (.assign lhs rhs) scope).1.scopes = lr.scopes ∧
    (handleAssignmentExpression lr (.assign lhs rhs) scope).1.calls = lr.calls := by
  obtain ⟨hc, hs⟩ := incOp_frame lr
  simp only [handleAssignmentExpression, h, if_true]
  exact ⟨trivial, hs, hc⟩

/-- Witness of C11: the statement `a, b := pair()` in the body of `f`. -/
theorem C11_unpacking_registers_nothing_witness :
    (handleAssignmentExpression Examples.inF Examples.unpacking 0).2 = none ∧
    (handleAssignmentExpression Examples.inF Examples.unpacking 0).1.scopes =
      Examples.inF.scopes ∧
    (handleAssignmentExpression Examples.inF Examples.unpacking 0).1.calls =
      Examples.inF.calls :=
  C11_unpacking_registers_nothing Examples.inF [.ident "a", .ident "b"]
    [.call (.ident "pair") [] 20 26] 0 (by decide)

/-- C12: when `run` returns, in a pass that starts with an empty queue and a
counter in the 64-bit range, its diagnostics are the reports retained by
`analyzeCalls`, one per report, in strictly ascending order of operation id,
each with the start of the report as position and the message
`tree recursion in call '<funcName>'`; and they are the same in whatever order
the report map hands over the retained reports. -/
theorem C12_diagnostics_are_sorted_reports (lr lr2 : linter) (decls : List FuncDecl)
    (ds : List Diagnostic) (hstart : passStart lr) (hrange : counterInRange lr)
    (hrun : run lr decls = .ok (ds, lr2)) :
    ∃ lrF rs, walk lr decls = .ok lrF ∧ lr2 = { lrF with calls := [] } ∧
      List.Perm rs (analyzeCalls lrF.scopes lrF.calls) ∧
      rs.Pairwise (fun a b => a.opNo < b.opNo) ∧
      ds = rs.map (fun r =>
        { pos := r.start, message := "tree recursion in call '" ++ r.funcName ++ "'" }) ∧
      ∀ p, List.Perm p (analyzeCalls lrF.scopes lrF.calls) →
        linter.report (p.insertionSort opNoLe) = ds := by
  unfold run at hrun
  cases hwalk : walk lr decls with
  | error e => rw [hwalk] at hrun; simp at hrun
  | ok lrF =>
    rw [hwalk] at hrun
    simp only [Except.ok.injEq, Prod.mk.injEq] at hrun
    obtain ⟨hds, hlr2⟩ := hrun
    have hin := pass_reports_in_range lr lrF decls hstart hrange hwalk
    have hnd := nodup_opNo_analyzeCalls lrF.scopes lrF.calls
    refine ⟨lrF, (analyzeCalls lrF.scopes lrF.calls).insertionSort opNoLe, rfl, hlr2.symm,
      List.perm_insertionSort opNoLe _, sort_strict _ hin hnd, ?_, ?_⟩
    · rw [← hds]; rfl
    · intro p hp
      rw [sort_perm_eq _ p hp hin hnd, ← hds]

/-- Witness of C12: the pass over the fixture from a new linter. -/
theorem C12_diagnostics_are_sorted_reports_witness :
    ∃ lrF rs, walk NewLinter Fixture.decls = .ok lrF ∧
      ({ Fixture.final with calls := [] } : linter) = { lrF with calls := [] } ∧
      List.Perm rs (analyzeCalls lrF.scopes lrF.calls) ∧
      rs.Pairwise (fun a b => a.opNo < b.opNo) ∧
      ([{ pos := 104, message := "tree recursion in call 'fib'" },
        { pos := 280, message := "tree recursion in call 'complexFunc'" },
        { pos := 433, message := "tree recursion in call 't.A'" },
        { pos := 523, message := "tree recursion in call 't.B'" }] : List Diagnostic) =
        rs.map (fun r =>
          { pos := r.start, message := "tree recursion in call '" ++ r.funcName ++ "'" }) ∧
      ∀ p, List.Perm p (analyzeCalls lrF.scopes lrF.calls) →
        linter.report (p.insertionSort opNoLe) =
          [{ pos := 104, message := "tree recursion in call 'fib'" },
           { pos := 280, message := "tree recursion in call 'complexFunc'" },
           { pos := 433, message := "tree recursion in call 't.A'" },
           { pos := 523, message := "tree recursion in call 't.B'" }] :=
  C12_diagnostics_are_sorted_reports NewLinter { Fixture.final with calls := [] } Fixture.decls
    _ (by decide) (by decide) (by rfl)

/-- C13: from a state at the start of a pass with the counter in the 64-bit
range, when every receiver field is named and the counter has room for two
passes, `run` returns on the declarations and `run` on the state it leaves
returns the same diagnostics in the same order; when a receiver field has no
name, a pass over the declarations emits no diagnostic from any state. -/
theorem C13_second_run_same_diagnostics (lr : linter) (decls : List FuncDecl)
    (hstart : passStart lr) (hrange : counterInRange lr) :
    ((∀ d ∈ decls, namedReceivers d = true) →
      counterAfter (counterAfter lr.opNo decls) decls ≤ maxInt64 →
      ∃ ds lr1 lr2, run lr decls = .ok (ds, lr1) ∧ run lr1 decls = .ok (ds, lr2)) ∧
    ((∃ d ∈ decls, namedReceivers d = false) → ∀ lr0, diagnostics lr0 decls = none) := by
  constructor
  · intro hnamed hroom
    have hroom1 : counterAfter lr.opNo decls ≤ maxInt64 :=
      le_trans (counterAfter_le decls _) hroom
    obtain ⟨lrF, hwalk⟩ := walk_total decls lr hnamed hroom1
    obtain ⟨hoF, -, hinvF, -⟩ := walk_frame decls lr lrF hstart.2 hwalk
    have hstart1 : passStart { lrF with calls := [] } := ⟨rfl, hinvF⟩
    have hrange1 : counterInRange { lrF with calls := [] } := by
      have h1 := counterAfter_le decls lr.opNo
      have h2 := hrange.1
      constructor
      · show 0 ≤ lrF.opNo
        omega
      · show lrF.opNo ≤ maxInt64
        omega
    obtain ⟨lrF2, hwalk2⟩ := walk_total decls { lrF with calls := [] } hnamed
      (by show counterAfter lrF.opNo decls ≤ maxInt64; rw [hoF]; exact hroom)
    have hrep := pass_repeat decls lr lrF { lrF with calls := [] } lrF2 hstart hstart1 hrange
      hrange1 hwalk hwalk2
    refine ⟨linter.report ((analyzeCalls lrF.scopes lrF.calls).insertionSort opNoLe),
      { lrF with calls := [] }, { lrF2 with calls := [] }, ?_, ?_⟩
    · simp only [run, hwalk]
    · simp only [run, hwalk2]
      rw [hrep]
  · rintro ⟨d, hd, hun⟩ lr0
    obtain ⟨pre, post, hdecls⟩ := List.append_of_mem hd
    subst hdecls
    obtain ⟨e, he⟩ := walk_error_of_unnamed pre d post lr0 (hasUnnamedField_of_not_named d hun)
    exact diagnostics_none_of_walk_error lr0 _ e he

/-- Witness of C13: two passes over the fixture, the second on the state left by
the first. -/
theorem C13_second_run_same_diagnostics_witness :
    ∃ ds lr1 lr2, run NewLinter Fixture.decls = .ok (ds, lr1) ∧
      run lr1 Fixture.decls = .ok (ds, lr2) :=
  (C13_second_run_same_diagnostics NewLinter Fixture.decls (by decide) (by decide)).1
    (by decide) (by decide)

/-- C14: `handleFuncDeclaration` returns an error exactly when the receiver list
has a field without names; when the first field has none the state is returned
unchanged; and a walk that meets such a declaration aborts, so the pass produces
no diagnostics. -/
theorem C14_unnamed_receiver_is_fatal :
    (∀ (lr : linter) (d : FuncDecl) (scope : Int),
      (handleFuncDeclaration lr d scope).2 ≠ none ↔ hasUnnamedField d) ∧
    (∀ (lr : linter) (d : FuncDecl) (scope : Int) (field : Field) (rest : List Field),
      d.recv = some (field :: rest) → field.names = [] →
      handleFuncDeclaration lr d scope = (lr, some Err.noFieldNames)) ∧
    (∀ (lr : linter) (pre : List FuncDecl) (d : FuncDecl) (post : List FuncDecl),
      hasUnnamedField d →
      (∃ e, walk lr (pre ++ d :: post) = .error e) ∧
      diagnostics lr (pre ++ d :: post) = none) := by
  refine ⟨handleFuncDeclaration_error_iff, ?_, ?_⟩
  · intro lr d scope field rest hrecv hnames
    simp [handleFuncDeclaration, hrecv, registerReceivers, hnames]
  · intro lr pre d post h
    obtain ⟨e, he⟩ := walk_error_of_unnamed pre d post lr h
    exact ⟨⟨e, he⟩, diagnostics_none_of_walk_error lr _ e he⟩

/-- Witness of C14: the fixture function `fib` followed by `func (T) M() {}`. -/
theorem C14_unnamed_receiver_is_fatal_witness :
    hasUnnamedField Examples.unnamedReceiver ∧
    diagnostics NewLinter ([Fixture.fib] ++ Examples.unnamedReceiver :: []) = none := by
  have h : hasUnnamedField Examples.unnamedReceiver :=
    ⟨[{ names := [], typ := .ident "T" }], rfl, { names := [], typ := .ident "T" },
      List.mem_cons_self _ _, rfl⟩
  exact ⟨h, (C14_unnamed_receiver_is_fatal.2.2 NewLinter [Fixture.fib]
    Examples.unnamedReceiver [] h).2⟩

/-- C15: `registerFunc` on a scope id followed by `registerFunc` on the same
id with any name leaves the state of the first call; on a scope id that is
already registered it returns the state unchanged, so no canonical name and no
alias table changes. -/
theorem C15_registerFunc_idempotent :
    (∀ (lr : linter) (s : Int) (n1 n2 : String),
      registerFunc (registerFunc lr s n1) s n2 = registerFunc lr s n1) ∧
    (∀ (lr : linter) (s : Int) (n : String) (fs : funcScope),
      Map.get lr.scopes s = some fs → registerFunc lr s n = lr) := by
  refine ⟨?_, fun lr s n fs h => registerFunc_known lr s n fs h⟩
  intro lr s n1 n2
  cases hget : Map.get lr.scopes s with
  | none =>
    have hknown : Map.get (registerFunc lr s n1).scopes s =
        some { name := n1, aliases := [] } := by
      rw [registerFunc_fresh lr s n1 hget]; exact Map.get_set_self _ _ _
    exact registerFunc_known _ s n2 _ hknown
  | some fs =>
    rw [registerFunc_known lr s n1 fs hget]
    exact registerFunc_known lr s n2 fs hget

/-- Witness of C15: the scope 0 of the example state is registered as `f`. -/
theorem C15_registerFunc_idempotent_witness :
    registerFunc Examples.inF 0 "g" = Examples.inF :=
  C15_registerFunc_idempotent.2 Examples.inF 0 "g" { name := "f", aliases := [] } rfl

/-- C16: on a registered scope `registerAlias` makes the alias a key of the
alias table of that scope with the source among its origins, keeps every alias
key with its origins, keeps the canonical name and leaves every other scope as
it was; on an unregistered scope id it returns the state unchanged; and over an
assignment statement and over a whole walk every scope keeps its name while its
alias table only grows. -/
theorem C16_registerAlias_only_grows :
    (∀ (lr : linter) (scope : Int) (source aliasName : String) (fs : funcScope),
      Map.get lr.scopes scope = some fs →
      ∃ fs2 origins,
        Map.get (registerAlias lr scope source aliasName).scopes scope = some fs2 ∧
        fs2.name = fs.name ∧
        Map.get fs2.aliases aliasName = some origins ∧ source ∈ origins ∧
        aliasesGrow fs.aliases fs2.aliases ∧
        ∀ id, id ≠ scope →
          Map.get (registerAlias lr scope source aliasName).scopes id = Map.get lr.scopes id) ∧
    (∀ (lr : linter) (scope : Int) (source aliasName : String),
      Map.get lr.scopes scope = none → registerAlias lr scope source aliasName = lr) ∧
    (∀ (lr : linter) (c : Node) (scope : Int),
      scopesGrow lr.scopes (handleAssignmentExpression lr c scope).1.scopes) ∧
    (∀ (lr lrF : linter) (decls : List FuncDecl),
      walk lr decls = .ok lrF → scopesGrow lr.scopes lrF.scopes) := by
  refine ⟨?_, registerAlias_unknown, handleAssignmentExpression_grow, ?_⟩
  · intro lr scope source aliasName fs h
    obtain ⟨⟨origins, horig, hmem⟩, hgrow⟩ := addOrigin_spec fs.aliases source aliasName
    rw [registerAlias_known lr scope source aliasName fs h]
    refine ⟨{ fs with aliases := addOrigin fs.aliases source aliasName }, origins,
      Map.get_set_self _ _ _, rfl, horig, hmem, hgrow, ?_⟩
    intro id hid
    exact Map.get_set_ne _ _ _ _ (fun hh => hid hh.symm)
  · intro lr lrF decls h
    exact walk_grow decls lr lrF h

/-- Witness of C16: a second origin for the alias `h` of the scope `f`. -/
theorem C16_registerAlias_only_grows_witness :
    ∃ fs2 origins,
      Map.get (registerAlias { calls := [], scopes := Examples.tableG, opNo := 1 } 0 "f" "h").scopes
        0 = some fs2 ∧
      fs2.name = "f" ∧
      Map.get fs2.aliases "h" = some origins ∧ "f" ∈ origins ∧
      aliasesGrow [("h", ["g"])] fs2.aliases ∧
      ∀ id, id ≠ 0 →
        Map.get (registerAlias { calls := [], scopes := Examples.tableG, opNo := 1 } 0 "f" "h").scopes
          id = Map.get Examples.tableG id :=
  C16_registerAlias_only_grows.1 { calls := [], scopes := Examples.tableG, opNo := 1 } 0 "f" "h"
    { name := "f", aliases := [("h", ["g"])] } rfl

/-- C17: in the queue of a walk that starts with an empty queue, call sites
with the same operation id have the same scope id and the same kind, and the
operation ids do not decrease from front to back; hence every resolving call
site of an operation id is counted, and the count of a report is the number of
resolving call sites of its operation id. -/
theorem C17_queue_groups_are_uniform (lr lrF : linter) (decls : List FuncDecl)
    (hstart : passStart lr) (hwalk : walk lr decls = .ok lrF) :
    (∀ c1 ∈ lrF.calls, ∀ c2 ∈ lrF.calls, c1.opNo = c2.opNo →
      c1.scope = c2.scope ∧ c1.opType = c2.opType) ∧
    lrF.calls.Pairwise (fun a b => a.opNo ≤ b.opNo) ∧
    (∀ k, counted lrF.scopes lrF.calls k = sitesOf lrF.scopes lrF.calls k) ∧
    ∀ r ∈ analyzeCalls lrF.scopes lrF.calls,
      r.count = ((sitesOf lrF.scopes lrF.calls r.opNo).length : Int) := by
  have hcalls := walk_calls lr lrF decls hstart hwalk
  refine ⟨?_, ?_, counted_walk lr lrF decls hstart hwalk, ?_⟩
  · intro c1 h1 c2 h2 h
    rw [hcalls] at h1 h2
    exact walkSites_same_op decls lr.opNo c1 c2 h1 h2 h
  · rw [hcalls]
    exact walkSites_pairwise decls lr.opNo
  · intro r hr
    obtain ⟨-, -, -, -, -, -, -, -, hcount, -, -⟩ := analyzeCalls_report _ _ r hr
    rw [hcount, counted_walk lr lrF decls hstart hwalk]

/-- Witness of C17: the queue of the walk over the fixture. -/
theorem C17_queue_groups_are_uniform_witness :
    (∀ c1 ∈ Fixture.final.calls, ∀ c2 ∈ Fixture.final.calls, c1.opNo = c2.opNo →
      c1.scope = c2.scope ∧ c1.opType = c2.opType) ∧
    Fixture.final.calls.Pairwise (fun a b => a.opNo ≤ b.opNo) ∧
    (∀ k, counted Fixture.final.scopes Fixture.final.calls k =
      sitesOf Fixture.final.scopes Fixture.final.calls k) ∧
    ∀ r ∈ analyzeCalls Fixture.final.scopes Fixture.final.calls,
      r.count = ((sitesOf Fixture.final.scopes Fixture.final.calls r.opNo).length : Int) :=
  C17_queue_groups_are_uniform NewLinter Fixture.final Fixture.decls (by decide) (by rfl)

/-- C18 as stated fails: in `func f() int { return a.b.c() + 1 }` the subtree
of the binary expression holds one call expression, yet its group (and the
group of the call itself) records no call site: the callee is a selector whose
receiver is no identifier. -/
theorem C18_counterexample :
    ((preorder Examples.deepCallSum).filter Node.isCall).length = 1 ∧
    Examples.skipped.ops =
      [(opTyp.fnCallInBinOp, Examples.deepCallSum), (opTyp.fnCallInArgs, Examples.deepCall)] ∧
    recorded NewLinter [Examples.skipped] = some [] := by
  refine ⟨by decide, by rfl, by rfl⟩

/-- C18, amended: the walker opens one group per binary expression of a
declaration (kind call-in-binary-expression), then one per call expression,
nested ones included (kind call-in-call-arguments); the call sites of a group
in the final queue are, in preorder, those of the call expressions of the
subtree of its expression, the root included, whose callee name can be
extracted (a call through a selector with a receiver that is no identifier is
left out); every recorded call site of the declaration belongs to one such
group. -/
theorem C18_groups_record_named_calls (lr lrF : linter) (pre : List FuncDecl) (d : FuncDecl)
    (post : List FuncDecl) (hstart : passStart lr)
    (hwalk : walk lr (pre ++ d :: post) = .ok lrF) :
    d.ops = (d.nodes.filter Node.isBinary).map (fun e => (opTyp.fnCallInBinOp, e)) ++
            (d.nodes.filter Node.isCall).map (fun e => (opTyp.fnCallInArgs, e)) ∧
    (∀ o1 kind e o2, d.ops = o1 ++ (kind, e) :: o2 →
      lrF.calls.filter (fun c => decide (c.opNo =
          counterAfter lr.opNo pre + (d.assigns.length : Int) + (o1.length : Int) + 1)) =
        ((preorder e).filter Node.isCall).filterMap
          (callSite (counterAfter lr.opNo pre + (d.assigns.length : Int) + (o1.length : Int) + 1)
            (counterAfter lr.opNo pre) kind)) ∧
    (∀ c ∈ lrF.calls, counterAfter lr.opNo pre ≤ c.opNo →
      c.opNo < counterAfter lr.opNo pre + d.ticks →
      ∃ o1 kind e o2, d.ops = o1 ++ (kind, e) :: o2 ∧
        c.opNo = counterAfter lr.opNo pre + (d.assigns.length : Int) + (o1.length : Int) + 1) ∧
    (∀ (k s : Int) (op : opTyp) (fn : Node) (args : List Node) (p q : Int),
      callSite k s op (.call fn args p q) =
        (calleeName fn).map fun funcName =>
          { opNo := k, scope := s, opType := op, boundedFuncAlias := funcName,
            start := p, endPos := q }) ∧
    (∀ (x : Node) (sel : String),
      calleeName (.selector x sel) = none ↔ ∀ recv, x ≠ .ident recv) ∧
    (∀ fn : Node, (∀ x sel, fn ≠ .selector x sel) → (calleeName fn).isSome = true) := by
  refine ⟨rfl, ?_, ?_, callSite_eq, calleeName_selector_none, calleeName_other⟩
  · intro o1 kind e o2 hop
    exact pass_filter_op lr lrF pre d post o1 o2 kind e hstart hwalk hop
  · intro c hc h1 h2
    exact (pass_site_group lr lrF pre d post c hstart hwalk hc h1 h2).2

/-- Witness of C18: in the fixture the call `fn(n-1)` at position 104 is
recorded in the group of `fn(n-1) + a(n-2)` and in its own group. -/
theorem C18_groups_record_named_calls_witness :
    (Fixture.final.calls.filter (fun c => decide (c.start = 104))).map
        (fun c => (c.opNo, c.opType)) =
      [(6, opTyp.fnCallInBinOp), (9, opTyp.fnCallInArgs)] ∧
    ∀ o1 kind e o2, Fixture.fib.ops = o1 ++ (kind, e) :: o2 →
      Fixture.final.calls.filter (fun c => decide (c.opNo =
          counterAfter NewLinter.opNo [] + (Fixture.fib.assigns.length : Int) +
            (o1.length : Int) + 1)) =
        ((preorder e).filter Node.isCall).filterMap
          (callSite (counterAfter NewLinter.opNo [] + (Fixture.fib.assigns.length : Int) +
            (o1.length : Int) + 1) (counterAfter NewLinter.opNo []) kind) :=
  ⟨by decide,
   (C18_groups_record_named_calls NewLinter Fixture.final [] Fixture.fib
     [Fixture.complexFunc, Fixture.methodA, Fixture.methodB, Fixture.funcA]
     (by decide) (by rfl)).2.1⟩

/-- C19: `registerCall` appends exactly one call site at the back of the
queue, with the current operation id, the given scope and kind and the span of
the call: its name is the name of an identifier callee, `recv.method` for a
selector with identifier receiver, and the empty string for a callee that is
neither an identifier nor a selector; for a selector with any other receiver it
returns the state unchanged. So the queue grows by one entry exactly when the
callee is not a selector with a non-identifier receiver. In every case the old
queue is a prefix of the new one, at most one entry is added, and the scope
table and the counter are untouched. -/
theorem C19_registerCall_appends :
    (∀ (lr : linter) (scope : Int) (op : opTyp) (name : String) (args : List Node)
      (pos endPos : Int),
      registerCall lr scope op (.call (.ident name) args pos endPos) =
        { lr with calls := lr.calls ++ [{ opNo := lr.opNo, scope := scope, opType := op,
                                          boundedFuncAlias := name, start := pos,
                                          endPos := endPos }] }) ∧
    (∀ (lr : linter) (scope : Int) (op : opTyp) (recv method : String) (args : List Node)
      (pos endPos : Int),
      registerCall lr scope op (.call (.selector (.ident recv) method) args pos endPos) =
        { lr with calls := lr.calls ++ [{ opNo := lr.opNo, scope := scope, opType := op,
                                          boundedFuncAlias := recv ++ "." ++ method,
                                          start := pos, endPos := endPos }] }) ∧
    (∀ (lr : linter) (scope : Int) (op : opTyp) (x : Node) (method : String)
      (args : List Node) (pos endPos : Int),
      (∀ recv, x ≠ .ident recv) →
      registerCall lr scope op (.call (.selector x method) args pos endPos) = lr) ∧
    (∀ (lr : linter) (scope : Int) (op : opTyp) (fn : Node) (args : List Node)
      (pos endPos : Int),
      (∀ name, fn ≠ .ident name) → (∀ x method, fn ≠ .selector x method) →
      registerCall lr scope op (.call fn args pos endPos) =
        { lr with calls := lr.calls ++ [{ opNo := lr.opNo, scope := scope, opType := op,
                                          boundedFuncAlias := "", start := pos,
                                          endPos := endPos }] }) ∧
    (∀ (lr : linter) (scope : Int) (op : opTyp) (fn : Node) (args : List Node)
      (pos endPos : Int),
      ((registerCall lr scope op (.call fn args pos endPos)).calls.length =
          lr.calls.length + 1 ↔
        ¬ ∃ x method, fn = .selector x method ∧ ∀ recv, x ≠ .ident recv) ∧
      ((registerCall lr scope op (.call fn args pos endPos)).calls.length =
          lr.calls.length ↔
        ∃ x method, fn = .selector x method ∧ ∀ recv, x ≠ .ident recv)) ∧
    (∀ (lr : linter) (scope : Int) (op : opTyp) (call : Node),
      ∃ extra, registerCall lr scope op call = { lr with calls := lr.calls ++ extra } ∧
        extra.length ≤ 1) := by
  refine ⟨?_, ?_, ?_, ?_, ?_, ?_⟩
  · intro lr scope op name args pos endPos
    rfl
  · intro lr scope op recv method args pos endPos
    rfl
  · intro lr scope op x method args pos endPos hx
    cases x with
    | ident recv => exact absurd rfl (hx recv)
    | _ => rfl
  · intro lr scope op fn args pos endPos hident hsel
    cases fn with
    | ident name => exact absurd rfl (hident name)
    | selector x method => exact absurd rfl (hsel x method)
    | _ => rfl
  · intro lr scope op fn args pos endPos
    cases fn with
    | selector x method =>
      cases x with
      | ident recv =>
        refine ⟨⟨fun _ => ?_, fun _ => by simp [registerCall, getFullSelectorName]⟩,
          ⟨fun h => ?_, fun h => ?_⟩⟩
        · rintro ⟨x, m, hx, hne⟩
          cases hx
          exact hne recv rfl
        · simp [registerCall, getFullSelectorName] at h
        · obtain ⟨x, m, hx, hne⟩ := h
          cases hx
          exact absurd rfl (hne recv)
      | _ =>
        refine ⟨⟨fun h => ?_, fun h => ?_⟩,
          ⟨fun _ => ⟨_, _, rfl, by intro recv hr; cases hr⟩, fun _ => rfl⟩⟩
        · simp [registerCall, getFullSelectorName] at h
        · exact absurd ⟨_, _, rfl, by intro recv hr; cases hr⟩ h
    | _ =>
      refine ⟨⟨fun _ => ?_, fun _ => by simp [registerCall]⟩, ⟨fun h => ?_, fun h => ?_⟩⟩
      · rintro ⟨x, m, hx, _⟩
        cases hx
      · simp [registerCall] at h
      · obtain ⟨x, m, hx, _⟩ := h
        cases hx
  · intro lr scope op call
    refine ⟨(callSite lr.opNo scope op call).toList, registerCall_eq lr scope op call, ?_⟩
    cases callSite lr.opNo scope op call <;> simp

/-- Witness of C19: the call `a.b.c()` is skipped, and the call `f()()`, whose
callee is itself a call, is recorded with the empty name. -/
theorem C19_registerCall_appends_witness :
    registerCall Examples.inF 0 opTyp.fnCallInArgs
        (.call (.selector (.selector (.ident "a") "b") "c") [] 10 17) = Examples.inF ∧
    registerCall Examples.inF 0 opTyp.fnCallInArgs
        (.call (.call (.ident "f") [] 10 13) [] 10 15) =
      { Examples.inF with
        calls := Examples.inF.calls ++
          [{ opNo := Examples.inF.opNo, scope := 0, opType := opTyp.fnCallInArgs,
             boundedFuncAlias := "", start := 10, endPos := 15 }] } :=
  ⟨C19_registerCall_appends.2.2.1 Examples.inF 0 opTyp.fnCallInArgs
    (.selector (.ident "a") "b") "c" [] 10 17 (by intro recv h; cases h),
   C19_registerCall_appends.2.2.2.1 Examples.inF 0 opTyp.fnCallInArgs
    (.call (.ident "f") [] 10 13) [] 10 15 (by intro name h; cases h)
    (by intro x method h; cases h)⟩

/-- C20: in a walk that does not abort, started with every registered scope id
below the counter, the scope id of a declaration is the counter after the
declarations before it and is not registered when the declaration is visited;
every later declaration gets a greater scope id; the name registered under the
scope id is the canonical name of the declaration; and every call site recorded
for the declaration lies in its scope and resolves, if at all, against a scope
with its canonical name. -/
theorem C20_scope_ids_increase (lr lrF : linter) (pre : List FuncDecl) (d : FuncDecl)
    (post : List FuncDecl) (hbelow : scopesBelow lr)
    (hwalk : walk lr (pre ++ d :: post) = .ok lrF) :
    ∃ lr1, walk lr pre = .ok lr1 ∧ lr1.opNo = counterAfter lr.opNo pre ∧
      Map.get lr1.scopes lr1.opNo = none ∧
      (∀ id ∈ Map.keys lr1.scopes, id < lr1.opNo) ∧
      (∀ mid d2 post2, post = mid ++ d2 :: post2 →
        ∃ lr2, walk lr (pre ++ d :: mid) = .ok lr2 ∧ lr1.opNo < lr2.opNo ∧
          Map.get lr2.scopes lr2.opNo = none) ∧
      (Map.get lrF.scopes lr1.opNo).map funcScope.name = canonicalName d ∧
      ∀ c ∈ declSites lr1.opNo d, c ∈ lrF.calls ∧ c.scope = lr1.opNo ∧
        ∀ fs, resolve lrF.scopes c = some fs → canonicalName d = some fs.name := by
  obtain ⟨lr1, lr5, hpre, hins, hpost⟩ := walk_split pre d post lr lrF hwalk
  obtain ⟨ho1, -, hinv1, -⟩ := walk_frame pre lr lr1 hbelow hpre
  obtain ⟨hname, -⟩ := walk_scope pre d post lr lrF hbelow hwalk
  refine ⟨lr1, hpre, ho1, scopesBelow_fresh lr1 hinv1, hinv1, ?_, by rw [ho1]; exact hname, ?_⟩
  · intro mid d2 post2 hpost2
    subst hpost2
    have hassoc : pre ++ d :: (mid ++ d2 :: post2) = (pre ++ d :: mid) ++ d2 :: post2 := by
      simp
    rw [hassoc] at hwalk
    obtain ⟨lr2, -, hpre2, -, -⟩ := walk_split (pre ++ d :: mid) d2 post2 lr lrF hwalk
    obtain ⟨ho2, -, hinv2, -⟩ := walk_frame (pre ++ d :: mid) lr lr2 hbelow hpre2
    refine ⟨lr2, hpre2, ?_, scopesBelow_fresh lr2 hinv2⟩
    rw [ho1, ho2, counterAfter_append]
    exact counterAfter_lt d mid _
  · intro c hc
    rw [ho1] at hc
    have hscope := (declSites_range _ _ _ hc).2.2
    refine ⟨declSites_mem_walk lr lrF pre d post c hbelow hwalk hc, by rw [ho1]; exact hscope, ?_⟩
    intro fs hres
    have hget : Map.get lrF.scopes (counterAfter lr.opNo pre) = some fs := by
      unfold resolve at hres
      rw [hscope] at hres
      cases hg : Map.get lrF.scopes (counterAfter lr.opNo pre) with
      | none => rw [hg] at hres; simp at hres
      | some fs0 =>
        rw [hg] at hres
        simp only at hres
        split at hres
        · split at hres
          · simp at hres
          · exact hres
        · exact hres
    rw [← hname, hget]
    rfl

/-- Witness of C20: the fixture method `T.B`, visited fourth, before the
function `A`. -/
theorem C20_scope_ids_increase_witness :
    ∃ lr1, walk NewLinter [Fixture.fib, Fixture.complexFunc, Fixture.methodA] = .ok lr1 ∧
      lr1.opNo = counterAfter NewLinter.opNo [Fixture.fib, Fixture.complexFunc, Fixture.methodA] ∧
      Map.get lr1.scopes lr1.opNo = none ∧
      (∀ id ∈ Map.keys lr1.scopes, id < lr1.opNo) ∧
      (∀ mid d2 post2, [Fixture.funcA] = mid ++ d2 :: post2 →
        ∃ lr2, walk NewLinter ([Fixture.fib, Fixture.complexFunc, Fixture.methodA] ++
            Fixture.methodB :: mid) = .ok lr2 ∧ lr1.opNo < lr2.opNo ∧
          Map.get lr2.scopes lr2.opNo = none) ∧
      (Map.get Fixture.final.scopes lr1.opNo).map funcScope.name =
        canonicalName Fixture.methodB ∧
      ∀ c ∈ declSites lr1.opNo Fixture.methodB, c ∈ Fixture.final.calls ∧ c.scope = lr1.opNo ∧
        ∀ fs, resolve Fixture.final.scopes c = some fs →
          canonicalName Fixture.methodB = some fs.name :=
  C20_scope_ids_increase NewLinter Fixture.final
    [Fixture.fib, Fixture.complexFunc, Fixture.methodA] Fixture.methodB [Fixture.funcA]
    (by intro id h; simp [NewLinter, Map.keys] at h) (by rfl)

end Notr
